import Mathlib

/-!
Shallow embedding of src/diff.hh (Kakoune's Myers O(ND) linear-space diff)
and a verification of its specification claims.

Modelling conventions:
* Sequences are total functions ℤ → α together with an explicit length,
  mirroring the random-access iterators of the C++ code; all C++ int
  arithmetic is carried out in ℤ (overflow is irrelevant to the claims).
* The diagonal working arrays V1/V2 are total functions ℤ → ℤ.  In the C++
  code they are uninitialised storage reused across calls with only V[1]
  set; the algorithm only ever reads entries written earlier in the same
  search (plus V[1]), so initialising everything to 0 is observationally
  faithful.
* while-loops become fuel-based structural recursions whose fuel provably
  dominates the iteration count, and the two kak_assert sites (the
  unreachable end of find_middle_snake and the snake-bounds assert in
  find_diff_rec) are modelled as failure, so the whole diff returns an
  Option; totality of the result is itself one of the claims.
-/

namespace KakouneDiff

/-- Endpoint record of a snake (free diagonal run after one edit step). -/
structure Snake where
  x : ℤ
  y : ℤ
  u : ℤ
  v : ℤ
  add : Bool
deriving DecidableEq, Repr

/-- A middle snake together with the direction that found it and the total
edit distance of the sub-problem. -/
structure SnakeLen extends Snake where
  reverse : Bool
  d : ℤ
deriving DecidableEq, Repr

/-- The snake-extension while-loop of find_end_snake_of_further_reaching_dpath:
advance u, v together while in range and the elements compare equal. -/
def snakeExt (a : ℤ → α) (N : ℤ) (b : ℤ → α) (M : ℤ) (eq : α → α → Bool) :
    ℕ → ℤ → ℤ → ℤ × ℤ
  | 0, u, v => (u, v)
  | fuel+1, u, v =>
    if u < N ∧ v < M ∧ eq (a u) (b v) then snakeExt a N b M eq fuel (u+1) (v+1)
    else (u, v)

/-- Embedding of find_end_snake_of_further_reaching_dpath from diff.hh. -/
def find_end_snake_of_further_reaching_dpath (a : ℤ → α) (N : ℤ) (b : ℤ → α) (M : ℤ)
    (V : ℤ → ℤ) (D : ℤ) (k : ℤ) (eq : α → α → Bool) : Snake :=
  let add : Bool := decide (k = -D ∨ (k ≠ D ∧ V (k-1) < V (k+1)))
  let x : ℤ := if add then V (k+1) else V (k-1) + 1
  let y : ℤ := x - k
  let uv := snakeExt a N b M eq (N - x).toNat x y
  ⟨x, y, uv.1, uv.2, add⟩

/-- Pointwise update of a working array. -/
def upd (V : ℤ → ℤ) (i x : ℤ) : ℤ → ℤ := fun j => if j = i then x else V j

/-- The forward k1-scan of find_middle_snake: process diagonals k1, k1+2, ...
(count of them given by fuel), storing reaches into V1 and returning early
with the crossing snake when the forward front meets the reverse front. -/
def fwdScan (a : ℤ → α) (N : ℤ) (b : ℤ → α) (M : ℤ) (eq : α → α → Bool)
    (delta D : ℤ) (V2 : ℤ → ℤ) : ℕ → ℤ → (ℤ → ℤ) → (ℤ → ℤ) ⊕ SnakeLen
  | 0, _, V1 => .inl V1
  | count+1, k1, V1 =>
    let p := find_end_snake_of_further_reaching_dpath a N b M V1 D k1 eq
    let V1' := upd V1 k1 p.u
    let k2 := -(k1 - delta)
    if delta % 2 ≠ 0 ∧ -(D-1) ≤ k2 ∧ k2 ≤ D-1 ∧ V1' k1 + V2 k2 ≥ N then
      .inr ⟨p, false, 2*D - 1⟩
    else
      fwdScan a N b M eq delta D V2 count (k1+2) V1'

/-- The reverse k2-scan of find_middle_snake, running on the reversed
sequences; a crossing is returned after mapping back to forward coordinates. -/
def revScan (a : ℤ → α) (N : ℤ) (b : ℤ → α) (M : ℤ) (eq : α → α → Bool)
    (delta D : ℤ) (V1 : ℤ → ℤ) : ℕ → ℤ → (ℤ → ℤ) → (ℤ → ℤ) ⊕ SnakeLen
  | 0, _, V2 => .inl V2
  | count+1, k2, V2 =>
    let p := find_end_snake_of_further_reaching_dpath
      (fun i => a (N-1-i)) N (fun i => b (M-1-i)) M V2 D k2 eq
    let V2' := upd V2 k2 p.u
    let k1 := -(k2 - delta)
    if delta % 2 = 0 ∧ -D ≤ k1 ∧ k1 ≤ D ∧ V1 k1 + V2' k2 ≥ N then
      .inr ⟨⟨N - p.u, M - p.v, N - p.x, M - p.y, p.add⟩, true, 2*D⟩
    else
      revScan a N b M eq delta D V1 count (k2+2) V2'

/-- The D-loop of find_middle_snake; the first argument is the number of
remaining iterations.  Running out models reaching the kak_assert(false). -/
def midLoop (a : ℤ → α) (N : ℤ) (b : ℤ → α) (M : ℤ) (eq : α → α → Bool) (delta : ℤ) :
    ℕ → ℕ → (ℤ → ℤ) → (ℤ → ℤ) → Option SnakeLen
  | 0, _, _, _ => none
  | rem+1, D, V1, V2 =>
    match fwdScan a N b M eq delta (D:ℤ) V2 (D+1) (-(D:ℤ)) V1 with
    | .inr s => some s
    | .inl V1' =>
      match revScan a N b M eq delta (D:ℤ) V1' (D+1) (-(D:ℤ)) V2 with
      | .inr s => some s
      | .inl V2' => midLoop a N b M eq delta rem (D+1) V1' V2'

/-- Embedding of find_middle_snake from diff.hh.  The D-loop runs for
D = 0 .. (M+N+1)/2 as in the source. -/
def find_middle_snake (a : ℤ → α) (N : ℤ) (b : ℤ → α) (M : ℤ)
    (eq : α → α → Bool) : Option SnakeLen :=
  midLoop a N b M eq (N - M) ((M + N + 1).tdiv 2 + 1).toNat 0
    (upd (fun _ => 0) 1 0) (upd (fun _ => 0) 1 0)

/-- Record modes of the edit script. -/
inductive DiffMode where
  | Keep
  | Add
  | Remove
deriving DecidableEq, Repr

/-- One edit-script record: a run of len elements; posB is the source
position in B, meaningful for Add records. -/
structure Diff where
  mode : DiffMode
  len : ℤ
  posB : ℤ
deriving DecidableEq, Repr

/-- Embedding of append_diff from diff.hh: skip empty records, merge a
same-mode record into the last one (Add only when contiguous in B). -/
def append_diff (diffs : List Diff) (diff : Diff) : List Diff :=
  if diff.len = 0 then diffs
  else
    match diffs.getLast? with
    | some last =>
      if last.mode = diff.mode ∧ (diff.mode ≠ DiffMode.Add ∨ last.posB + last.len = diff.posB) then
        diffs.dropLast ++ [⟨last.mode, last.len + diff.len, last.posB⟩]
      else diffs ++ [diff]
    | none => diffs ++ [diff]

/-- The common-prefix while-loop of find_diff_rec, returning how many
leading positions of both ranges compare equal. -/
def cpl (a : ℤ → α) (endA : ℤ) (b : ℤ → α) (endB : ℤ) (eq : α → α → Bool) :
    ℕ → ℤ → ℤ → ℕ
  | 0, _, _ => 0
  | fuel+1, iA, iB =>
    if iA ≠ endA ∧ iB ≠ endB ∧ eq (a iA) (b iB) then
      cpl a endA b endB eq fuel (iA+1) (iB+1) + 1
    else 0

/-- The common-suffix while-loop of find_diff_rec. -/
def csl (a : ℤ → α) (begA : ℤ) (b : ℤ → α) (begB : ℤ) (eq : α → α → Bool) :
    ℕ → ℤ → ℤ → ℕ
  | 0, _, _ => 0
  | fuel+1, jA, jB =>
    if begA ≠ jA ∧ begB ≠ jB ∧ eq (a (jA-1)) (b (jB-1)) then
      csl a begA b begB eq fuel (jA-1) (jB-1) + 1
    else 0

/-- Embedding of find_diff_rec from diff.hh.  The fuel bounds the recursion
depth; the kak_assert on the found snake is modelled by returning none when
it would fail. -/
def find_diff_rec (a : ℤ → α) (b : ℤ → α) (eq : α → α → Bool) :
    ℕ → ℤ → ℤ → ℤ → ℤ → List Diff → Option (List Diff)
  | 0, _, _, _, _, _ => none
  | fuel+1, begA0, endA0, begB0, endB0, diffs0 =>
    let pl : ℤ := (cpl a endA0 b endB0 eq (endA0 - begA0).toNat begA0 begB0 : ℕ)
    let begA := begA0 + pl
    let begB := begB0 + pl
    let sl : ℤ := (csl a begA b begB eq (endA0 - begA).toNat endA0 endB0 : ℕ)
    let endA := endA0 - sl
    let endB := endB0 - sl
    let diffs1 := append_diff diffs0 ⟨.Keep, pl, 0⟩
    let lenA := endA - begA
    let lenB := endB - begB
    let core : Option (List Diff) :=
      if lenA = 0 then some (append_diff diffs1 ⟨.Add, lenB, begB⟩)
      else if lenB = 0 then some (append_diff diffs1 ⟨.Remove, lenA, 0⟩)
      else
        match find_middle_snake (fun i => a (begA + i)) lenA (fun i => b (begB + i)) lenB eq with
        | none => none
        | some s =>
          if s.d > 0 ∧ s.u ≤ lenA ∧ s.v ≤ lenB then
            let step1 : Option (List Diff) :=
              if s.d > 1 then
                find_diff_rec a b eq fuel
                  begA (begA + s.x - (if s.reverse then 0 else if s.add then 0 else 1))
                  begB (begB + s.y - (if s.reverse then 0 else if s.add then 1 else 0)) diffs1
              else some diffs1
            match step1 with
            | none => none
            | some dsA =>
              let dsB := if s.reverse then dsA else
                append_diff dsA (if s.add then ⟨.Add, 1, begB + s.y - 1⟩ else ⟨.Remove, 1, 0⟩)
              let dsC := append_diff dsB ⟨.Keep, s.u - s.x, 0⟩
              let dsD := if s.reverse then
                append_diff dsC (if s.add then ⟨.Add, 1, begB + s.v⟩ else ⟨.Remove, 1, 0⟩)
                else dsC
              if s.d > 1 then
                find_diff_rec a b eq fuel
                  (begA + s.u + (if s.reverse then (if s.add then 0 else 1) else 0)) endA
                  (begB + s.v + (if s.reverse then (if s.add then 1 else 0) else 0)) endB dsD
              else some dsD
          else none
    match core with
    | none => none
    | some ds => some (append_diff ds ⟨.Keep, sl, 0⟩)

/-- Embedding of find_diff from diff.hh: run the recursion over the full
ranges.  The fuel N+M+1 strictly dominates the recursion depth (which is
bounded by the edit distance plus one). -/
def find_diff (a : ℤ → α) (N : ℤ) (b : ℤ → α) (M : ℤ)
    (eq : α → α → Bool) : Option (List Diff) :=
  find_diff_rec a b eq (N + M + 1).toNat 0 N 0 M []

/-! ### Specification-side definitions -/

/-- The list of elements of the sequence f in positions [i, j). -/
def listSlice (f : ℤ → α) (i j : ℤ) : List α :=
  (List.range (j - i).toNat).map fun (t : ℕ) => f (i + (t : ℤ))

/-- How many elements of A a script consumes (Keep and Remove records). -/
def consA : List Diff → ℤ
  | [] => 0
  | r :: rs => (if r.mode = DiffMode.Add then 0 else r.len) + consA rs

/-- How many elements of B a script accounts for (Keep and Add records). -/
def consB : List Diff → ℤ
  | [] => 0
  | r :: rs => (if r.mode = DiffMode.Remove then 0 else r.len) + consB rs

/-- Total number of edited elements of a script (Add and Remove records). -/
def cost : List Diff → ℤ
  | [] => 0
  | r :: rs => (if r.mode = DiffMode.Keep then 0 else r.len) + cost rs

/-- Modelled from the spec: applying an edit script to A (the claims'
round-trip semantics).  Records are consumed left to right; Keep copies
len elements of A, Remove skips len elements of A, Add inserts the
elements B[posB, posB+len).  pA is the current read position in A. -/
def applyFrom (a : ℤ → α) (b : ℤ → α) : List Diff → ℤ → List α
  | [], _ => []
  | r :: rs, pA =>
    match r.mode with
    | DiffMode.Keep => listSlice a pA (pA + r.len) ++ applyFrom a b rs (pA + r.len)
    | DiffMode.Remove => applyFrom a b rs (pA + r.len)
    | DiffMode.Add => listSlice b r.posB (r.posB + r.len) ++ applyFrom a b rs pA

/-- Reference dynamic-programming edit distance: the minimum number of
insertions plus deletions transforming xs into ys, where the supplied
predicate decides which elements match. -/
def led (eq : α → α → Bool) : List α → List α → ℕ
  | [], ys => ys.length
  | xs, [] => xs.length
  | x :: xs, y :: ys =>
    if eq x y then led eq xs ys
    else 1 + min (led eq xs (y :: ys)) (led eq (x :: xs) ys)
termination_by xs ys => xs.length + ys.length
decreasing_by all_goals simp_arith

/-- Edit paths in the Myers edit graph, in list form: EditPath eq D xs ys
holds when xs can be transformed into ys by a monotone sequence of moves
using exactly D insertions plus deletions (diagonal moves are free and
require the elements to match). -/
inductive EditPath (eq : α → α → Bool) : ℕ → List α → List α → Prop where
  | nil : EditPath eq 0 [] []
  | diag {D xs ys x y} : eq x y = true → EditPath eq D xs ys →
      EditPath eq D (x :: xs) (y :: ys)
  | del {D xs ys x} : EditPath eq D xs ys → EditPath eq (D+1) (x :: xs) ys
  | ins {D xs ys y} : EditPath eq D xs ys → EditPath eq (D+1) xs (y :: ys)

/-- Pointwise relatedness of the reconstruction to B: each element is
either literally the corresponding element of B (Add runs) or matches it
under the predicate (Keep runs). -/
def ReconRel (eq : α → α → Bool) : List α → List α → Prop :=
  List.Forall₂ (fun x y => x = y ∨ eq x y = true)

/-- The edit distance of the sub-problem given by the ranges [0,N) of a and
[0,M) of b, computed by the reference DP algorithm. -/
def distLed (a : ℤ → α) (N : ℤ) (b : ℤ → α) (M : ℤ) (eq : α → α → Bool) : ℕ :=
  led eq (listSlice a 0 N) (listSlice b 0 M)

/-- Forward reachability in the edit graph of a[0,N) versus b[0,M): the
point (x,y) lies in the grid and there is an edit path with exactly D
insertions plus deletions from (0,0) to (x,y). -/
def FR (a : ℤ → α) (b : ℤ → α) (eq : α → α → Bool) (N M : ℤ) (D : ℕ) (x y : ℤ) : Prop :=
  0 ≤ x ∧ x ≤ N ∧ 0 ≤ y ∧ y ≤ M ∧ EditPath eq D (listSlice a 0 x) (listSlice b 0 y)

/-- Soundness invariant of one working-array entry: the stored value val on
diagonal k decomposes as an in-grid point reached by a path with D - s - t
edits followed by s horizontal and t vertical off-grid steps (the C++ code
lets the +1 edges run past the boundary, but snakes never do). -/
def Pinv (a : ℤ → α) (b : ℤ → α) (eq : α → α → Bool) (N M : ℤ)
    (D : ℕ) (k val : ℤ) : Prop :=
  ∃ (x y : ℤ) (s t : ℕ), val = x + s ∧ val - k = y + t ∧ (0 < s → x = N) ∧
    (0 < t → y = M) ∧ s + t ≤ D ∧ FR a b eq N M (D - s - t) x y

/-- Maximality invariant of one working-array entry: every in-grid point on
diagonal k reached with exactly D edits has x-coordinate at most val. -/
def Linv (a : ℤ → α) (b : ℤ → α) (eq : α → α → Bool) (N M : ℤ)
    (D : ℕ) (k val : ℤ) : Prop :=
  ∀ x : ℤ, FR a b eq N M D x (x - k) → x ≤ val

/-- The working-array layer invariant after the distance-E scan: every
diagonal of the right parity within [-E, E] satisfies both entry invariants. -/
def VLayer (a : ℤ → α) (b : ℤ → α) (eq : α → α → Bool) (N M : ℤ)
    (E : ℕ) (V : ℤ → ℤ) : Prop :=
  ∀ k : ℤ, -(E:ℤ) ≤ k → k ≤ E → (k + E) % 2 = 0 →
    Pinv a b eq N M E k (V k) ∧ Linv a b eq N M E k (V k)

/-- The pair of working-array states on entry to iteration D of the D-loop
of find_middle_snake, provided no crossing was returned at any earlier
iteration (none once a crossing has been found earlier). -/
def loopStates (a : ℤ → α) (N : ℤ) (b : ℤ → α) (M : ℤ) (eq : α → α → Bool) (delta : ℤ) :
    ℕ → Option ((ℤ → ℤ) × (ℤ → ℤ))
  | 0 => some (upd (fun _ => 0) 1 0, upd (fun _ => 0) 1 0)
  | D+1 =>
    match loopStates a N b M eq delta D with
    | none => none
    | some (V1, V2) =>
      match fwdScan a N b M eq delta (D:ℤ) V2 (D+1) (-(D:ℤ)) V1 with
      | .inr _ => none
      | .inl V1' =>
        match revScan a N b M eq delta (D:ℤ) V1' (D+1) (-(D:ℤ)) V2 with
        | .inr _ => none
        | .inl V2' => some (V1', V2')

/-- Invariant carried by the growing script in find_diff_rec: adjacent
records have distinct modes, all lengths are positive, the records consume
exactly cA elements of A and cover exactly cB elements of B, a trailing Add
record ends exactly at the B-cursor, and applying the script reconstructs
b[0, cB) up to the predicate (Add runs are literal B content). -/
def ScriptInv (a : ℤ → α) (b : ℤ → α) (eq : α → α → Bool)
    (ds : List Diff) (cA cB : ℤ) : Prop :=
  List.Chain' (fun r s => r.mode ≠ s.mode) ds ∧
  (∀ r ∈ ds, 0 < r.len) ∧
  consA ds = cA ∧ consB ds = cB ∧
  (∀ r, ds.getLast? = some r → r.mode = DiffMode.Add → r.posB + r.len = cB) ∧
  ReconRel eq (applyFrom a b ds 0) (listSlice b 0 cB)

/-- Full correctness bundle for a middle snake returned on a N x M
sub-problem: its distance is the true edit distance, its coordinates are in
range, its run matches, and the two sub-problems carved by find_diff_rec
around it have exactly the remaining edit distances. -/
def FMSOk (a : ℤ → α) (b : ℤ → α) (eq : α → α → Bool) (N M : ℤ) (s : SnakeLen) : Prop :=
  s.d = (distLed a N b M eq : ℤ) ∧
  0 ≤ s.x ∧ s.x ≤ s.u ∧ s.u ≤ N ∧ 0 ≤ s.y ∧ s.y ≤ s.v ∧ s.v ≤ M ∧
  s.u - s.x = s.v - s.y ∧
  (∀ i : ℕ, (i:ℤ) < s.u - s.x → eq (a (s.x + i)) (b (s.y + i)) = true) ∧
  (1 ≤ distLed a N b M eq →
    ((s.reverse = false → s.add = true →
        1 ≤ s.y ∧
        led eq (listSlice a 0 s.x) (listSlice b 0 (s.y - 1)) = distLed a N b M eq / 2 ∧
        led eq (listSlice a s.u N) (listSlice b s.v M) = distLed a N b M eq / 2) ∧
     (s.reverse = false → s.add = false →
        1 ≤ s.x ∧
        led eq (listSlice a 0 (s.x - 1)) (listSlice b 0 s.y) = distLed a N b M eq / 2 ∧
        led eq (listSlice a s.u N) (listSlice b s.v M) = distLed a N b M eq / 2) ∧
     (s.reverse = true → s.add = true →
        s.v + 1 ≤ M ∧
        led eq (listSlice a 0 s.x) (listSlice b 0 s.y) = distLed a N b M eq / 2 ∧
        led eq (listSlice a s.u N) (listSlice b (s.v + 1) M) = distLed a N b M eq / 2 - 1) ∧
     (s.reverse = true → s.add = false →
        s.u + 1 ≤ N ∧
        led eq (listSlice a 0 s.x) (listSlice b 0 s.y) = distLed a N b M eq / 2 ∧
        led eq (listSlice a (s.u + 1) N) (listSlice b s.v M) = distLed a N b M eq / 2 - 1)))

/-! ### Lemmas about slices -/

theorem listSlice_empty (f : ℤ → α) {i j : ℤ} (h : j ≤ i) : listSlice f i j = [] := by
  unfold listSlice
  have : (j - i).toNat = 0 := by omega
  simp [this]

theorem listSlice_length (f : ℤ → α) (i j : ℤ) :
    (listSlice f i j).length = (j - i).toNat := by
  unfold listSlice
  rw [List.length_map, List.length_range]

theorem listSlice_cons (f : ℤ → α) {i j : ℤ} (h : i < j) :
    listSlice f i j = f i :: listSlice f (i+1) j := by
  unfold listSlice
  have h1 : (j - i).toNat = (j - (i+1)).toNat + 1 := by omega
  rw [h1, List.range_succ_eq_map, List.map_cons]
  congr 1
  · norm_num
  · rw [List.map_map]
    apply List.map_congr_left
    intro t _
    simp only [Function.comp_apply]
    congr 1
    push_cast
    ring

theorem listSlice_snoc (f : ℤ → α) {i j : ℤ} (h : i ≤ j) :
    listSlice f i (j+1) = listSlice f i j ++ [f j] := by
  unfold listSlice
  have h1 : (j + 1 - i).toNat = (j - i).toNat + 1 := by omega
  rw [h1, List.range_succ, List.map_append, List.map_cons, List.map_nil]
  have h2 : i + ((j - i).toNat : ℤ) = j := by omega
  rw [h2]

theorem listSlice_append (f : ℤ → α) {i j l : ℤ} (h1 : i ≤ j) (h2 : j ≤ l) :
    listSlice f i l = listSlice f i j ++ listSlice f j l := by
  have key : ∀ n : ℕ, ∀ l : ℤ, j ≤ l → (l - j).toNat = n →
      listSlice f i l = listSlice f i j ++ listSlice f j l := by
    intro n
    induction n with
    | zero =>
      intro l hl hn
      have : l = j := by omega
      subst this
      rw [listSlice_empty f (le_refl l)]
      simp
    | succ m ih =>
      intro l hl hn
      have hlt : j < l := by omega
      have hj : l = (l - 1) + 1 := by omega
      rw [hj, listSlice_snoc f (by omega : i ≤ l - 1),
        listSlice_snoc f (by omega : j ≤ l - 1), ih (l-1) (by omega) (by omega)]
      simp
  exact key (l - j).toNat l h2 rfl

theorem listSlice_get (f : ℤ → α) (d : α) :
    ∀ (n : ℕ) (i : ℤ) (t : ℕ), i + t < i + n →
    (listSlice f i (i + n)).getD t d = f (i + t) := by
  intro n
  induction n with
  | zero => intro i t ht; omega
  | succ m ih =>
    intro i t ht
    rw [listSlice_cons f (by omega)]
    cases t with
    | zero => simp
    | succ s =>
      simp only [List.getD_cons_succ]
      have harg : i + 1 + (m : ℤ) = i + (m + 1 : ℕ) := by push_cast; ring
      have := ih (i+1) s (by push_cast at ht ⊢; omega)
      rw [harg] at this
      rw [this]
      congr 1
      push_cast
      ring

/-! ### Lemmas about append_diff -/

theorem append_diff_zero (ds : List Diff) (m : DiffMode) (p : ℤ) :
    append_diff ds ⟨m, 0, p⟩ = ds := by
  simp [append_diff]

theorem append_diff_nil {d : Diff} (h : d.len ≠ 0) : append_diff [] d = [d] := by
  simp [append_diff, h]

/-! ### The snake-extension loop -/

theorem snakeExt_spec (a : ℤ → α) (N : ℤ) (b : ℤ → α) (M : ℤ) (eq : α → α → Bool) :
    ∀ (fuel : ℕ) (x y : ℤ), (N - x) ≤ fuel →
    ∃ t : ℕ, (snakeExt a N b M eq fuel x y).1 = x + t ∧
      (snakeExt a N b M eq fuel x y).2 = y + t ∧
      (∀ i : ℕ, i < t → x + i < N ∧ y + i < M ∧ eq (a (x + i)) (b (y + i)) = true) ∧
      ¬(x + t < N ∧ y + t < M ∧ eq (a (x + t)) (b (y + t)) = true) := by
  intro fuel
  induction fuel with
  | zero =>
    intro x y hf
    refine ⟨0, by simp [snakeExt], by simp [snakeExt], by omega, ?_⟩
    push_cast
    omega
  | succ m ih =>
    intro x y hf
    by_cases hc : x < N ∧ y < M ∧ eq (a x) (b y) = true
    · have hrec : snakeExt a N b M eq (m+1) x y = snakeExt a N b M eq m (x+1) (y+1) := by
        simp [snakeExt, hc]
      obtain ⟨t, h1, h2, h3, h4⟩ := ih (x+1) (y+1) (by omega)
      refine ⟨t+1, ?_, ?_, ?_, ?_⟩
      · rw [hrec, h1]; push_cast; ring
      · rw [hrec, h2]; push_cast; ring
      · intro i hi
        cases i with
        | zero => simpa using hc
        | succ j =>
          have := h3 j (by omega)
          push_cast at this ⊢
          constructor
          · have := this.1; omega
          constructor
          · have := this.2.1; omega
          · have harg1 : x + ((j:ℤ) + 1) = x + 1 + j := by ring
            have harg2 : y + ((j:ℤ) + 1) = y + 1 + j := by ring
            rw [harg1, harg2]
            exact this.2.2
      · push_cast
        have harg1 : x + ((t:ℤ) + 1) = x + 1 + t := by ring
        have harg2 : y + ((t:ℤ) + 1) = y + 1 + t := by ring
        rw [harg1, harg2]
        exact h4
    · refine ⟨0, ?_, ?_, by omega, by push_cast; simpa using hc⟩
      · simp [snakeExt, hc]
      · simp [snakeExt, hc]

theorem snakeExt_reaches (a : ℤ → α) (N : ℤ) (b : ℤ → α) (M : ℤ) (eq : α → α → Bool) :
    ∀ (fuel : ℕ) (x y z : ℤ), (N - x) ≤ fuel → x ≤ z →
    (∀ i : ℤ, x ≤ i → i < z → i < N ∧ y + (i - x) < M ∧ eq (a i) (b (y + (i - x))) = true) →
    z ≤ (snakeExt a N b M eq fuel x y).1 := by
  intro fuel
  induction fuel with
  | zero =>
    intro x y z hf hxz hall
    simp only [snakeExt]
    by_contra hlt
    have := (hall x (le_refl x) (by omega)).1
    omega
  | succ m ih =>
    intro x y z hf hxz hall
    rcases eq_or_lt_of_le hxz with heq | hlt
    · subst heq
      have : x ≤ (snakeExt a N b M eq (m+1) x y).1 := by
        obtain ⟨t, h1, _, _, _⟩ := snakeExt_spec a N b M eq (m+1) x y (by omega)
        omega
      omega
    · have hc : x < N ∧ y < M ∧ eq (a x) (b y) = true := by
        have := hall x (le_refl x) hlt
        simpa using this
      have hrec : snakeExt a N b M eq (m+1) x y = snakeExt a N b M eq m (x+1) (y+1) := by
        simp [snakeExt, hc]
      rw [hrec]
      apply ih (x+1) (y+1) z (by omega) (by omega)
      intro i hi1 hi2
      have := hall i (by omega) hi2
      refine ⟨this.1, by omega, ?_⟩
      have harg : y + 1 + (i - (x+1)) = y + (i - x) := by ring
      rw [harg]
      exact this.2.2

/-! ### The reference edit distance and edit paths -/

theorem led_nil_l (eq : α → α → Bool) (ys : List α) : led eq [] ys = ys.length := by
  cases ys <;> simp [led]

theorem led_nil_r (eq : α → α → Bool) (xs : List α) : led eq xs [] = xs.length := by
  cases xs <;> simp [led]

theorem led_cons (eq : α → α → Bool) (x y : α) (xs ys : List α) :
    led eq (x :: xs) (y :: ys) =
      if eq x y then led eq xs ys
      else 1 + min (led eq xs (y :: ys)) (led eq (x :: xs) ys) := by
  simp [led]

theorem led_adjacent (eq : α → α → Bool) :
    ∀ (n : ℕ) (xs ys : List α), xs.length + ys.length ≤ n → ∀ (x y : α),
      led eq (x :: xs) ys ≤ led eq xs ys + 1 ∧
      led eq xs ys ≤ led eq xs (y :: ys) + 1 ∧
      led eq xs (y :: ys) ≤ led eq xs ys + 1 ∧
      led eq xs ys ≤ led eq (x :: xs) ys + 1 := by
  intro n
  induction n with
  | zero =>
    intro xs ys h x y
    have hx : xs = [] := List.eq_nil_of_length_eq_zero (by omega)
    have hy : ys = [] := List.eq_nil_of_length_eq_zero (by omega)
    subst hx; subst hy
    refine ⟨?_, ?_, ?_, ?_⟩ <;> simp [led_nil_l, led_nil_r]
  | succ m ih =>
    intro xs ys h x y
    refine ⟨?_, ?_, ?_, ?_⟩
    · -- led (x :: xs) ys ≤ led xs ys + 1
      cases ys with
      | nil => simp [led_nil_r]
      | cons y' t =>
        rw [led_cons]
        by_cases hxy : eq x y' = true
        · rw [if_pos hxy]
          have hB := (ih xs t (by simp at h; omega) x y').2.1
          omega
        · rw [if_neg hxy]
          have hmin := Nat.min_le_left (led eq xs (y' :: t)) (led eq (x :: xs) t)
          omega
    · -- led xs ys ≤ led xs (y :: ys) + 1
      cases xs with
      | nil => simp only [led_nil_l, List.length_cons]; omega
      | cons x' s =>
        rw [led_cons]
        by_cases hxy : eq x' y = true
        · rw [if_pos hxy]
          have hA := (ih s ys (by simp at h; omega) x' y).1
          omega
        · rw [if_neg hxy]
          have h1 := (ih s ys (by simp at h; omega) x' y).1
          have h2 := (ih s ys (by simp at h; omega) x' y).2.1
          omega
    · -- led xs (y :: ys) ≤ led xs ys + 1
      cases xs with
      | nil => simp [led_nil_l]
      | cons x' s =>
        rw [led_cons]
        by_cases hxy : eq x' y = true
        · rw [if_pos hxy]
          have hD := (ih s ys (by simp at h; omega) x' y).2.2.2
          omega
        · rw [if_neg hxy]
          have hmin := Nat.min_le_right (led eq s (y :: ys)) (led eq (x' :: s) ys)
          omega
    · -- led xs ys ≤ led (x :: xs) ys + 1
      cases ys with
      | nil => simp only [led_nil_r, List.length_cons]; omega
      | cons y' t =>
        rw [led_cons]
        by_cases hxy : eq x y' = true
        · rw [if_pos hxy]
          have hC := (ih xs t (by simp at h; omega) x y').2.2.1
          omega
        · rw [if_neg hxy]
          have h1 := (ih xs t (by simp at h; omega) x y').2.2.1
          have h2 := (ih xs t (by simp at h; omega) x y').2.2.2
          omega

theorem led_cons_le_l (eq : α → α → Bool) (x : α) (xs ys : List α) :
    led eq (x :: xs) ys ≤ led eq xs ys + 1 :=
  (led_adjacent eq (xs.length + ys.length) xs ys le_rfl x x).1

theorem led_le_cons_r (eq : α → α → Bool) (y : α) (xs ys : List α) :
    led eq xs ys ≤ led eq xs (y :: ys) + 1 :=
  (led_adjacent eq (xs.length + ys.length) xs ys le_rfl y y).2.1

theorem led_cons_le_r (eq : α → α → Bool) (y : α) (xs ys : List α) :
    led eq xs (y :: ys) ≤ led eq xs ys + 1 :=
  (led_adjacent eq (xs.length + ys.length) xs ys le_rfl y y).2.2.1

theorem led_le_cons_l (eq : α → α → Bool) (x : α) (xs ys : List α) :
    led eq xs ys ≤ led eq (x :: xs) ys + 1 :=
  (led_adjacent eq (xs.length + ys.length) xs ys le_rfl x x).2.2.2

theorem led_pair_drop (eq : α → α → Bool) (x y : α) (xs ys : List α) :
    led eq xs ys ≤ led eq (x :: xs) (y :: ys) := by
  rw [led_cons]
  by_cases hxy : eq x y = true
  · rw [if_pos hxy]
  · rw [if_neg hxy]
    have h1 := led_le_cons_r eq y xs ys
    have h2 := led_le_cons_l eq x xs ys
    omega

theorem led_le_length (eq : α → α → Bool) :
    ∀ (xs ys : List α), led eq xs ys ≤ xs.length + ys.length := by
  intro xs
  induction xs with
  | nil => intro ys; rw [led_nil_l]; omega
  | cons x s ihx =>
    intro ys
    induction ys with
    | nil => rw [led_nil_r]; simp
    | cons y t ihy =>
      rw [led_cons]
      by_cases hxy : eq x y = true
      · rw [if_pos hxy]
        have := ihx t
        simp only [List.length_cons]
        omega
      · rw [if_neg hxy]
        have h1 := ihx (y :: t)
        have h2 := ihy
        simp only [List.length_cons] at h1 h2 ⊢
        omega

theorem editPath_append (eq : α → α → Bool) {c e : ℕ} {A1 B1 A2 B2 : List α}
    (h1 : EditPath eq c A1 B1) (h2 : EditPath eq e A2 B2) :
    EditPath eq (c + e) (A1 ++ A2) (B1 ++ B2) := by
  induction h1 with
  | nil => simpa using h2
  | diag hxy _ ih => exact EditPath.diag hxy ih
  | @del D' xs' ys' x _ ih =>
    have := EditPath.del (x := x) ih
    simpa [Nat.add_right_comm] using this
  | @ins D' xs' ys' y _ ih =>
    have := EditPath.ins (y := y) ih
    simpa [Nat.add_right_comm] using this

theorem editPath_nil_l (eq : α → α → Bool) :
    ∀ ys : List α, EditPath eq ys.length [] ys := by
  intro ys
  induction ys with
  | nil => exact EditPath.nil
  | cons y t ih => exact EditPath.ins ih

theorem editPath_nil_r (eq : α → α → Bool) :
    ∀ xs : List α, EditPath eq xs.length xs [] := by
  intro xs
  induction xs with
  | nil => exact EditPath.nil
  | cons x s ih => exact EditPath.del ih

theorem editPath_of_led (eq : α → α → Bool) :
    ∀ (xs ys : List α), EditPath eq (led eq xs ys) xs ys := by
  intro xs
  induction xs with
  | nil => intro ys; rw [led_nil_l]; exact editPath_nil_l eq ys
  | cons x s ihx =>
    intro ys
    induction ys with
    | nil => rw [led_nil_r]; exact editPath_nil_r eq _
    | cons y t ihy =>
      rw [led_cons]
      by_cases hxy : eq x y = true
      · rw [if_pos hxy]
        exact EditPath.diag hxy (ihx t)
      · rw [if_neg hxy]
        rcases Nat.le_total (led eq s (y :: t)) (led eq (x :: s) t) with hle | hle
        · rw [Nat.min_eq_left hle, Nat.add_comm]
          exact EditPath.del (ihx (y :: t))
        · rw [Nat.min_eq_right hle, Nat.add_comm]
          exact EditPath.ins ihy

theorem led_le_of_editPath (eq : α → α → Bool) {D : ℕ} {xs ys : List α}
    (h : EditPath eq D xs ys) : led eq xs ys ≤ D := by
  induction h with
  | nil => rw [led_nil_l]; simp
  | diag hxy _ ih => rw [led_cons, if_pos hxy]; exact ih
  | del _ ih => exact le_trans (led_cons_le_l eq _ _ _) (by omega)
  | ins _ ih => exact le_trans (led_cons_le_r eq _ _ _) (by omega)

theorem editPath_parity (eq : α → α → Bool) {D : ℕ} {xs ys : List α}
    (h : EditPath eq D xs ys) : (D + xs.length + ys.length) % 2 = 0 := by
  induction h with
  | nil => rfl
  | diag _ _ ih => simp only [List.length_cons]; omega
  | del _ ih => simp only [List.length_cons]; omega
  | ins _ ih => simp only [List.length_cons]; omega

theorem led_parity (eq : α → α → Bool) (xs ys : List α) :
    (led eq xs ys + xs.length + ys.length) % 2 = 0 :=
  editPath_parity eq (editPath_of_led eq xs ys)

theorem editPath_length_bound (eq : α → α → Bool) {D : ℕ} {xs ys : List α}
    (h : EditPath eq D xs ys) : xs.length ≤ D + ys.length ∧ ys.length ≤ D + xs.length := by
  induction h with
  | nil => simp
  | diag _ _ ih => simp only [List.length_cons]; omega
  | del _ ih => simp only [List.length_cons]; omega
  | ins _ ih => simp only [List.length_cons]; omega

theorem editPath_pad_two (eq : α → α → Bool) :
    ∀ {D : ℕ} {xs ys : List α}, EditPath eq D xs ys → D + 2 ≤ xs.length + ys.length →
    EditPath eq (D + 2) xs ys := by
  intro D xs ys h
  induction h with
  | nil => intro h2; simp at h2
  | @diag D' xs' ys' x y hxy hp ih =>
    intro _
    exact EditPath.del (EditPath.ins hp)
  | @del D' xs' ys' x hp ih =>
    intro hlen
    simp only [List.length_cons] at hlen
    have := EditPath.del (x := x) (ih (by omega))
    simpa [Nat.add_right_comm] using this
  | @ins D' xs' ys' y hp ih =>
    intro hlen
    simp only [List.length_cons] at hlen
    have := EditPath.ins (y := y) (ih (by omega))
    simpa [Nat.add_right_comm] using this

theorem editPath_pad (eq : α → α → Bool) {D E : ℕ} {xs ys : List α}
    (h : EditPath eq D xs ys) (h1 : D ≤ E) (h2 : E % 2 = D % 2)
    (h3 : E ≤ xs.length + ys.length) : EditPath eq E xs ys := by
  have key : ∀ j : ℕ, ∀ E, E = D + 2 * j → E ≤ xs.length + ys.length →
      EditPath eq E xs ys := by
    intro j
    induction j with
    | zero => intro E hE _; subst hE; simpa using h
    | succ i ih =>
      intro E hE hlen
      have : E = (D + 2*i) + 2 := by omega
      subst this
      exact editPath_pad_two eq (ih _ rfl (by omega)) (by omega)
  have hj : ∃ j : ℕ, E = D + 2 * j := by
    refine ⟨(E - D) / 2, ?_⟩
    omega
  obtain ⟨j, hjj⟩ := hj
  exact key j E hjj h3

theorem editPath_split (eq : α → α → Bool) :
    ∀ {D : ℕ} {xs ys : List α}, EditPath eq D xs ys → ∀ c : ℕ, c ≤ D →
    ∃ A1 A2 B1 B2, xs = A1 ++ A2 ∧ ys = B1 ++ B2 ∧
      EditPath eq c A1 B1 ∧ EditPath eq (D - c) A2 B2 := by
  intro D xs ys h
  induction h with
  | nil =>
    intro c hc
    have : c = 0 := by omega
    subst this
    exact ⟨[], [], [], [], rfl, rfl, EditPath.nil, EditPath.nil⟩
  | @diag D' xs' ys' x y hxy hp ih =>
    intro c hc
    obtain ⟨A1, A2, B1, B2, hA, hB, h1, h2⟩ := ih c hc
    exact ⟨x :: A1, A2, y :: B1, B2, by simp [hA], by simp [hB],
      EditPath.diag hxy h1, h2⟩
  | @del D' xs' ys' x hp ih =>
    intro c hc
    cases c with
    | zero =>
      exact ⟨[], x :: xs', [], ys', rfl, rfl, EditPath.nil, by simpa using EditPath.del hp⟩
    | succ c' =>
      obtain ⟨A1, A2, B1, B2, hA, hB, h1, h2⟩ := ih c' (by omega)
      refine ⟨x :: A1, A2, B1, B2, by simp [hA], hB, EditPath.del h1, ?_⟩
      have : D' + 1 - (c' + 1) = D' - c' := by omega
      rw [this]
      exact h2
  | @ins D' xs' ys' y hp ih =>
    intro c hc
    cases c with
    | zero =>
      exact ⟨[], xs', [], y :: ys', rfl, rfl, EditPath.nil, by simpa using EditPath.ins hp⟩
    | succ c' =>
      obtain ⟨A1, A2, B1, B2, hA, hB, h1, h2⟩ := ih c' (by omega)
      refine ⟨A1, A2, y :: B1, B2, hA, by simp [hB], EditPath.ins h1, ?_⟩
      have : D' + 1 - (c' + 1) = D' - c' := by omega
      rw [this]
      exact h2

theorem editPath_reverse (eq : α → α → Bool) {D : ℕ} {xs ys : List α}
    (h : EditPath eq D xs ys) : EditPath eq D xs.reverse ys.reverse := by
  induction h with
  | nil => exact EditPath.nil
  | @diag D' xs' ys' x y hxy _ ih =>
    simp only [List.reverse_cons]
    have single : EditPath eq 0 [x] [y] := EditPath.diag hxy EditPath.nil
    simpa using editPath_append eq ih single
  | @del D' xs' ys' x _ ih =>
    simp only [List.reverse_cons]
    have single : EditPath eq 1 [x] [] := EditPath.del EditPath.nil
    simpa using editPath_append eq ih single
  | @ins D' xs' ys' y _ ih =>
    simp only [List.reverse_cons]
    have single : EditPath eq 1 [] [y] := EditPath.ins EditPath.nil
    simpa using editPath_append eq ih single

theorem led_reverse (eq : α → α → Bool) (xs ys : List α) :
    led eq xs.reverse ys.reverse = led eq xs ys := by
  apply le_antisymm
  · exact led_le_of_editPath eq (editPath_reverse eq (editPath_of_led eq xs ys))
  · have := led_le_of_editPath eq (editPath_reverse eq (editPath_of_led eq xs.reverse ys.reverse))
    simpa using this

theorem led_append_le (eq : α → α → Bool) (A1 B1 A2 B2 : List α) :
    led eq (A1 ++ A2) (B1 ++ B2) ≤ led eq A1 B1 + led eq A2 B2 :=
  led_le_of_editPath eq (editPath_append eq (editPath_of_led eq A1 B1) (editPath_of_led eq A2 B2))

theorem led_eq_zero_iff (eq : α → α → Bool) :
    ∀ (xs ys : List α), led eq xs ys = 0 ↔ List.Forall₂ (fun x y => eq x y = true) xs ys := by
  intro xs
  induction xs with
  | nil =>
    intro ys
    rw [led_nil_l]
    cases ys <;> simp
  | cons x s ih =>
    intro ys
    cases ys with
    | nil =>
      rw [led_nil_r]
      simp
    | cons y t =>
      rw [led_cons]
      by_cases hxy : eq x y = true
      · rw [if_pos hxy]
        rw [ih t]
        constructor
        · intro hf; exact List.Forall₂.cons hxy hf
        · intro hf; cases hf; assumption
      · rw [if_neg hxy]
        constructor
        · intro hc; omega
        · intro hf; cases hf; exact absurd (by assumption) hxy

theorem led_matched_eliml (eq : α → α → Bool) :
    ∀ {P Q : List α}, List.Forall₂ (fun x y => eq x y = true) P Q →
    ∀ (xs ys : List α), led eq (P ++ xs) (Q ++ ys) = led eq xs ys := by
  intro P Q h
  induction h with
  | nil => intro xs ys; simp
  | @cons p q P' Q' hpq _ ih =>
    intro xs ys
    simp only [List.cons_append]
    rw [led_cons, if_pos hpq]
    exact ih xs ys

theorem led_matched_elimr (eq : α → α → Bool) :
    ∀ {P Q : List α}, List.Forall₂ (fun x y => eq x y = true) P Q →
    ∀ (xs ys : List α), led eq (xs ++ P) (ys ++ Q) = led eq xs ys := by
  intro P Q h xs ys
  rw [← led_reverse eq (xs ++ P) (ys ++ Q), List.reverse_append, List.reverse_append]
  rw [led_matched_eliml eq (List.forall₂_reverse_iff.mpr h), led_reverse]

theorem led_drop_le (eq : α → α → Bool) :
    ∀ (t : ℕ) (u v : List α), led eq (u.drop t) (v.drop t) ≤ led eq u v := by
  intro t
  induction t with
  | zero => intro u v; simp
  | succ m ih =>
    intro u v
    cases u with
    | nil =>
      rw [List.drop_nil, led_nil_l, led_nil_l]
      have := List.length_drop (m+1) v
      omega
    | cons x ut =>
      cases v with
      | nil =>
        rw [List.drop_nil, led_nil_r, led_nil_r]
        have := List.length_drop (m+1) (x :: ut)
        omega
      | cons y vt =>
        simp only [List.drop_succ_cons]
        calc led eq (ut.drop m) (vt.drop m) ≤ led eq ut vt := ih ut vt
          _ ≤ led eq (x :: ut) (y :: vt) := led_pair_drop eq x y ut vt

/-! ### The common prefix and suffix loops -/

theorem cpl_spec (a : ℤ → α) (endA : ℤ) (b : ℤ → α) (endB : ℤ) (eq : α → α → Bool) :
    ∀ (fuel : ℕ) (iA iB : ℤ), endA - iA ≤ fuel → iA ≤ endA → iB ≤ endB →
    ∃ t : ℕ, cpl a endA b endB eq fuel iA iB = t ∧
      iA + t ≤ endA ∧ iB + t ≤ endB ∧
      (∀ i : ℕ, i < t → eq (a (iA + i)) (b (iB + i)) = true) ∧
      (iA + t = endA ∨ iB + t = endB ∨ eq (a (iA + t)) (b (iB + t)) = false) := by
  intro fuel
  induction fuel with
  | zero =>
    intro iA iB hf hA hB
    refine ⟨0, rfl, by omega, by omega, by omega, ?_⟩
    left; omega
  | succ m ih =>
    intro iA iB hf hA hB
    by_cases hc : iA ≠ endA ∧ iB ≠ endB ∧ eq (a iA) (b iB) = true
    · obtain ⟨t, ht, h1, h2, h3, h4⟩ := ih (iA+1) (iB+1) (by omega) (by omega) (by omega)
      refine ⟨t+1, ?_, by push_cast; omega, by push_cast; omega, ?_, ?_⟩
      · simp only [cpl]
        rw [if_pos hc, ht]
      · intro i hi
        cases i with
        | zero => simpa using hc.2.2
        | succ j =>
          have := h3 j (by omega)
          have harg1 : iA + ((j:ℤ) + 1) = iA + 1 + j := by ring
          have harg2 : iB + ((j:ℤ) + 1) = iB + 1 + j := by ring
          push_cast
          rw [harg1, harg2]
          exact this
      · push_cast
        have harg1 : iA + ((t:ℤ) + 1) = iA + 1 + t := by ring
        have harg2 : iB + ((t:ℤ) + 1) = iB + 1 + t := by ring
        rw [harg1, harg2]
        exact h4
    · refine ⟨0, ?_, by omega, by omega, by omega, ?_⟩
      · simp only [cpl]
        rw [if_neg hc]
      · push_cast
        by_cases hA' : iA = endA
        · left; omega
        by_cases hB' : iB = endB
        · right; left; omega
        · right; right
          simp only [ne_eq, hA', not_false_iff, hB', true_and] at hc
          simp only [Bool.not_eq_true] at hc
          simpa using hc

theorem csl_spec (a : ℤ → α) (begA : ℤ) (b : ℤ → α) (begB : ℤ) (eq : α → α → Bool) :
    ∀ (fuel : ℕ) (jA jB : ℤ), jA - begA ≤ fuel → begA ≤ jA → begB ≤ jB →
    ∃ t : ℕ, csl a begA b begB eq fuel jA jB = t ∧
      begA ≤ jA - t ∧ begB ≤ jB - t ∧
      (∀ i : ℕ, i < t → eq (a (jA - 1 - i)) (b (jB - 1 - i)) = true) ∧
      (jA - t = begA ∨ jB - t = begB ∨ eq (a (jA - t - 1)) (b (jB - t - 1)) = false) := by
  intro fuel
  induction fuel with
  | zero =>
    intro jA jB hf hA hB
    refine ⟨0, rfl, by omega, by omega, by omega, ?_⟩
    left; omega
  | succ m ih =>
    intro jA jB hf hA hB
    by_cases hc : begA ≠ jA ∧ begB ≠ jB ∧ eq (a (jA-1)) (b (jB-1)) = true
    · obtain ⟨t, ht, h1, h2, h3, h4⟩ := ih (jA-1) (jB-1) (by omega) (by omega) (by omega)
      refine ⟨t+1, ?_, by push_cast; omega, by push_cast; omega, ?_, ?_⟩
      · simp only [csl]
        rw [if_pos hc, ht]
      · intro i hi
        cases i with
        | zero => simpa using hc.2.2
        | succ j =>
          have := h3 j (by omega)
          have harg1 : jA - 1 - ((j:ℤ) + 1) = jA - 1 - 1 - j := by ring
          have harg2 : jB - 1 - ((j:ℤ) + 1) = jB - 1 - 1 - j := by ring
          push_cast
          rw [harg1, harg2]
          exact this
      · push_cast
        rw [show jA - ((t:ℤ) + 1) = jA - 1 - t from by ring,
          show jB - ((t:ℤ) + 1) = jB - 1 - t from by ring]
        rcases h4 with h | h | h
        · left; omega
        · right; left; omega
        · right; right
          rw [show jA - 1 - (t:ℤ) - 1 = jA - 1 - t - 1 from by ring,
            show jB - 1 - (t:ℤ) - 1 = jB - 1 - t - 1 from by ring]
          exact h
    · refine ⟨0, ?_, by omega, by omega, by omega, ?_⟩
      · simp only [csl]
        rw [if_neg hc]
      · push_cast
        by_cases hA' : begA = jA
        · left; omega
        by_cases hB' : begB = jB
        · right; left; omega
        · right; right
          simp only [ne_eq, hA', not_false_iff, hB', true_and] at hc
          simp only [Bool.not_eq_true] at hc
          simpa using hc

theorem cpl_zero_fuel (a : ℤ → α) (endA : ℤ) (b : ℤ → α) (endB : ℤ) (eq : α → α → Bool)
    (iA iB : ℤ) : cpl a endA b endB eq 0 iA iB = 0 := rfl

theorem csl_zero_fuel (a : ℤ → α) (begA : ℤ) (b : ℤ → α) (begB : ℤ) (eq : α → α → Bool)
    (jA jB : ℤ) : csl a begA b begB eq 0 jA jB = 0 := rfl

theorem cpl_stop_r (a : ℤ → α) (endA : ℤ) (b : ℤ → α) (endB : ℤ) (eq : α → α → Bool)
    (fuel : ℕ) (iA : ℤ) : cpl a endA b endB eq fuel iA endB = 0 := by
  cases fuel with
  | zero => rfl
  | succ m => simp [cpl]

theorem csl_stop_r (a : ℤ → α) (begA : ℤ) (b : ℤ → α) (begB : ℤ) (eq : α → α → Bool)
    (fuel : ℕ) (jA : ℤ) : csl a begA b begB eq fuel jA begB = 0 := by
  cases fuel with
  | zero => rfl
  | succ m => simp [csl]

/-! ### Claim theorems: base cases and the snake finder -/

/-- C7: for every sequence pair that is element-wise equal under the
predicate (lengths both N), the script returned by find_diff is exactly one
Keep record of length N when N is positive, and is empty when N is zero. -/
theorem c7_selfdiff_single_keep (a b : ℤ → α) (N : ℤ) (eq : α → α → Bool) (hN : 0 ≤ N)
    (hmatch : ∀ i : ℤ, 0 ≤ i → i < N → eq (a i) (b i) = true) :
    find_diff a N b N eq = some (if N = 0 then [] else [⟨DiffMode.Keep, N, 0⟩]) := by
  by_cases h0 : N = 0
  · subst h0
    rw [if_pos rfl]
    simp only [find_diff, find_diff_rec]
    norm_num [cpl, csl, append_diff_zero]
  · rw [if_neg h0]
    have hNpos : 0 < N := by omega
    have hcpl : cpl a N b N eq (N - 0).toNat 0 0 = N.toNat := by
      obtain ⟨t, ht, h1, h2, h3, h4⟩ :=
        cpl_spec a N b N eq (N - 0).toNat 0 0 (by omega) (by omega) (by omega)
      have htN : (t : ℤ) = N := by
        rcases h4 with h | h | h
        · omega
        · omega
        · by_contra hne
          have := hmatch t (by omega) (by omega)
          simp only [zero_add] at h
          rw [this] at h
          exact absurd h (by simp)
      omega
    have hf : (N + N + 1).toNat = (N + N).toNat + 1 := by omega
    have hcast : ((N.toNat : ℤ)) = N := by omega
    simp only [find_diff, hf, find_diff_rec, hcpl, hcast]
    norm_num
    simp only [csl_stop_r]
    norm_num [append_diff_zero]
    rw [append_diff_nil (by simpa using h0)]

/-- C7 witness: diffing the two-element sequence 0,1 against itself with
Boolean equality yields a single Keep record of length 2. -/
theorem c7_selfdiff_single_keep_witness :
    find_diff (fun i : ℤ => i) 2 (fun i : ℤ => i) 2 (fun x y : ℤ => x == y) =
      some (if (2:ℤ) = 0 then [] else [⟨DiffMode.Keep, 2, 0⟩]) :=
  c7_selfdiff_single_keep (fun i : ℤ => i) (fun i : ℤ => i) 2 (fun x y : ℤ => x == y)
    (by norm_num) (by intro i h1 h2; simp)

/-- C8: diffing an empty A against B of positive length L yields exactly one
Add record with len L and posB 0; diffing A of length L against an empty B
yields exactly one Remove record with len L. -/
theorem c8_insert_delete_whole (a b : ℤ → α) (L : ℤ) (eq : α → α → Bool) (hL : 1 ≤ L) :
    find_diff a 0 b L eq = some [⟨DiffMode.Add, L, 0⟩] ∧
    find_diff a L b 0 eq = some [⟨DiffMode.Remove, L, 0⟩] := by
  have hL0 : ¬(L = 0) := by omega
  constructor
  · have hf : (0 + L + 1).toNat = L.toNat + 1 := by omega
    simp only [find_diff, hf, find_diff_rec, cpl, csl]
    norm_num [append_diff_zero]
    rw [append_diff_nil (by simpa using hL0)]
  · have hf : (L + 0 + 1).toNat = L.toNat + 1 := by omega
    simp only [find_diff, hf, find_diff_rec, cpl_stop_r]
    norm_num
    simp only [csl_stop_r]
    norm_num [append_diff_zero, hL0]
    rw [append_diff_nil (by simpa using hL0)]

/-- C8 witness: the two base cases at length 3 over constant sequences. -/
theorem c8_insert_delete_whole_witness :
    find_diff (fun _ : ℤ => (0:ℤ)) 0 (fun _ : ℤ => (1:ℤ)) 3 (fun x y : ℤ => x == y) =
      some [⟨DiffMode.Add, 3, 0⟩] ∧
    find_diff (fun _ : ℤ => (0:ℤ)) 3 (fun _ : ℤ => (1:ℤ)) 0 (fun x y : ℤ => x == y) =
      some [⟨DiffMode.Remove, 3, 0⟩] :=
  c8_insert_delete_whole (fun _ : ℤ => (0:ℤ)) (fun _ : ℤ => (1:ℤ)) 3
    (fun x y : ℤ => x == y) (by norm_num)

/-- C5: the snake finder takes the vertical edge exactly when k = -D, or
k is not D and V[k-1] < V[k+1]; its start is (V[k+1], x-k) or (V[k-1]+1, x-k)
accordingly; and its end (u,v) extends the start along diagonal k through
matching in-range elements until the boundary or a mismatch is reached. -/
theorem c5_snake_finder_spec (a : ℤ → α) (N : ℤ) (b : ℤ → α) (M : ℤ) (V : ℤ → ℤ) (D k : ℤ)
    (eq : α → α → Bool) (hk1 : -D ≤ k) (hk2 : k ≤ D) (hpar : (k - D) % 2 = 0)
    (hxN : (if k = -D ∨ (k ≠ D ∧ V (k-1) < V (k+1)) then V (k+1) else V (k-1) + 1) ≤ N)
    (hyM : (if k = -D ∨ (k ≠ D ∧ V (k-1) < V (k+1)) then V (k+1) else V (k-1) + 1) - k ≤ M) :
    (find_end_snake_of_further_reaching_dpath a N b M V D k eq).add =
        decide (k = -D ∨ (k ≠ D ∧ V (k-1) < V (k+1))) ∧
    (find_end_snake_of_further_reaching_dpath a N b M V D k eq).x =
        (if k = -D ∨ (k ≠ D ∧ V (k-1) < V (k+1)) then V (k+1) else V (k-1) + 1) ∧
    (find_end_snake_of_further_reaching_dpath a N b M V D k eq).y =
        (find_end_snake_of_further_reaching_dpath a N b M V D k eq).x - k ∧
    (find_end_snake_of_further_reaching_dpath a N b M V D k eq).u -
        (find_end_snake_of_further_reaching_dpath a N b M V D k eq).v = k ∧
    (∃ t : ℕ, (find_end_snake_of_further_reaching_dpath a N b M V D k eq).u =
          (find_end_snake_of_further_reaching_dpath a N b M V D k eq).x + t ∧
        (find_end_snake_of_further_reaching_dpath a N b M V D k eq).v =
          (find_end_snake_of_further_reaching_dpath a N b M V D k eq).y + t ∧
        (∀ i : ℕ, i < t →
          (find_end_snake_of_further_reaching_dpath a N b M V D k eq).x + i < N ∧
          (find_end_snake_of_further_reaching_dpath a N b M V D k eq).y + i < M ∧
          eq (a ((find_end_snake_of_further_reaching_dpath a N b M V D k eq).x + i))
             (b ((find_end_snake_of_further_reaching_dpath a N b M V D k eq).y + i)) = true)) ∧
    ((find_end_snake_of_further_reaching_dpath a N b M V D k eq).u = N ∨
     (find_end_snake_of_further_reaching_dpath a N b M V D k eq).v = M ∨
     eq (a (find_end_snake_of_further_reaching_dpath a N b M V D k eq).u)
        (b (find_end_snake_of_further_reaching_dpath a N b M V D k eq).v) = false) := by
  set x : ℤ := (if k = -D ∨ (k ≠ D ∧ V (k-1) < V (k+1)) then V (k+1) else V (k-1) + 1) with hxdef
  have hp : find_end_snake_of_further_reaching_dpath a N b M V D k eq =
      ⟨x, x - k, (snakeExt a N b M eq (N - x).toNat x (x - k)).1,
        (snakeExt a N b M eq (N - x).toNat x (x - k)).2,
        decide (k = -D ∨ (k ≠ D ∧ V (k-1) < V (k+1)))⟩ := by
    rw [find_end_snake_of_further_reaching_dpath]
    simp only [decide_eq_true_eq, hxdef]
  obtain ⟨t, h1, h2, h3, h4⟩ := snakeExt_spec a N b M eq (N - x).toNat x (x - k) (by omega)
  rw [hp]
  refine ⟨rfl, rfl, rfl, by simp only; omega, ⟨t, by simpa using h1, by simpa using h2, ?_⟩, ?_⟩
  · intro i hi
    simpa using h3 i hi
  · simp only
    have hu : (snakeExt a N b M eq (N - x).toNat x (x - k)).1 = x + t := h1
    have hv : (snakeExt a N b M eq (N - x).toNat x (x - k)).2 = x - k + t := h2
    rw [hu, hv]
    by_cases hcase : x + t < N ∧ x - k + t < M
    · right; right
      rcases Bool.eq_false_or_eq_true (eq (a (x + t)) (b (x - k + t))) with htr | hf
      · exact absurd ⟨hcase.1, hcase.2, htr⟩ h4
      · exact hf
    · have hub : x + t ≤ N := by
        cases t with
        | zero => simpa using hxN
        | succ s =>
          have := (h3 s (by omega)).1
          push_cast at this ⊢
          omega
      have hvb : x - k + t ≤ M := by
        cases t with
        | zero => simpa using hyM
        | succ s =>
          have := (h3 s (by omega)).2.1
          push_cast at this ⊢
          omega
      push_cast at hcase
      rcases not_and_or.mp hcase with h | h
      · left; omega
      · right; left; omega

/-- C5 witness: a concrete call with D = 0, k = 0 on one-element sequences
with differing elements. -/
theorem c5_snake_finder_spec_witness :
    (find_end_snake_of_further_reaching_dpath (fun _ : ℤ => (0:ℤ)) 1 (fun _ : ℤ => (1:ℤ)) 1
        (fun _ => 0) 0 0 (fun x y : ℤ => x == y)).add =
        decide ((0:ℤ) = -0 ∨ ((0:ℤ) ≠ 0 ∧ (fun _ : ℤ => (0:ℤ)) (0-1) < (fun _ : ℤ => (0:ℤ)) (0+1))) ∧
    (find_end_snake_of_further_reaching_dpath (fun _ : ℤ => (0:ℤ)) 1 (fun _ : ℤ => (1:ℤ)) 1
        (fun _ => 0) 0 0 (fun x y : ℤ => x == y)).x =
        (if (0:ℤ) = -0 ∨ ((0:ℤ) ≠ 0 ∧ (fun _ : ℤ => (0:ℤ)) (0-1) < (fun _ : ℤ => (0:ℤ)) (0+1))
          then (fun _ : ℤ => (0:ℤ)) (0+1) else (fun _ : ℤ => (0:ℤ)) (0-1) + 1) ∧
    (find_end_snake_of_further_reaching_dpath (fun _ : ℤ => (0:ℤ)) 1 (fun _ : ℤ => (1:ℤ)) 1
        (fun _ => 0) 0 0 (fun x y : ℤ => x == y)).y =
        (find_end_snake_of_further_reaching_dpath (fun _ : ℤ => (0:ℤ)) 1 (fun _ : ℤ => (1:ℤ)) 1
          (fun _ => 0) 0 0 (fun x y : ℤ => x == y)).x - 0 ∧
    (find_end_snake_of_further_reaching_dpath (fun _ : ℤ => (0:ℤ)) 1 (fun _ : ℤ => (1:ℤ)) 1
        (fun _ => 0) 0 0 (fun x y : ℤ => x == y)).u -
      (find_end_snake_of_further_reaching_dpath (fun _ : ℤ => (0:ℤ)) 1 (fun _ : ℤ => (1:ℤ)) 1
        (fun _ => 0) 0 0 (fun x y : ℤ => x == y)).v = 0 ∧
    (∃ t : ℕ, (find_end_snake_of_further_reaching_dpath (fun _ : ℤ => (0:ℤ)) 1 (fun _ : ℤ => (1:ℤ)) 1
          (fun _ => 0) 0 0 (fun x y : ℤ => x == y)).u =
          (find_end_snake_of_further_reaching_dpath (fun _ : ℤ => (0:ℤ)) 1 (fun _ : ℤ => (1:ℤ)) 1
            (fun _ => 0) 0 0 (fun x y : ℤ => x == y)).x + t ∧
        (find_end_snake_of_further_reaching_dpath (fun _ : ℤ => (0:ℤ)) 1 (fun _ : ℤ => (1:ℤ)) 1
            (fun _ => 0) 0 0 (fun x y : ℤ => x == y)).v =
          (find_end_snake_of_further_reaching_dpath (fun _ : ℤ => (0:ℤ)) 1 (fun _ : ℤ => (1:ℤ)) 1
            (fun _ => 0) 0 0 (fun x y : ℤ => x == y)).y + t ∧
        (∀ i : ℕ, i < t →
          (find_end_snake_of_further_reaching_dpath (fun _ : ℤ => (0:ℤ)) 1 (fun _ : ℤ => (1:ℤ)) 1
            (fun _ => 0) 0 0 (fun x y : ℤ => x == y)).x + i < 1 ∧
          (find_end_snake_of_further_reaching_dpath (fun _ : ℤ => (0:ℤ)) 1 (fun _ : ℤ => (1:ℤ)) 1
            (fun _ => 0) 0 0 (fun x y : ℤ => x == y)).y + i < 1 ∧
          (fun x y : ℤ => x == y)
            ((fun _ : ℤ => (0:ℤ))
              ((find_end_snake_of_further_reaching_dpath (fun _ : ℤ => (0:ℤ)) 1 (fun _ : ℤ => (1:ℤ)) 1
                (fun _ => 0) 0 0 (fun x y : ℤ => x == y)).x + i))
            ((fun _ : ℤ => (1:ℤ))
              ((find_end_snake_of_further_reaching_dpath (fun _ : ℤ => (0:ℤ)) 1 (fun _ : ℤ => (1:ℤ)) 1
                (fun _ => 0) 0 0 (fun x y : ℤ => x == y)).y + i)) = true)) ∧
    ((find_end_snake_of_further_reaching_dpath (fun _ : ℤ => (0:ℤ)) 1 (fun _ : ℤ => (1:ℤ)) 1
        (fun _ => 0) 0 0 (fun x y : ℤ => x == y)).u = 1 ∨
     (find_end_snake_of_further_reaching_dpath (fun _ : ℤ => (0:ℤ)) 1 (fun _ : ℤ => (1:ℤ)) 1
        (fun _ => 0) 0 0 (fun x y : ℤ => x == y)).v = 1 ∨
     (fun x y : ℤ => x == y)
        ((fun _ : ℤ => (0:ℤ))
          (find_end_snake_of_further_reaching_dpath (fun _ : ℤ => (0:ℤ)) 1 (fun _ : ℤ => (1:ℤ)) 1
            (fun _ => 0) 0 0 (fun x y : ℤ => x == y)).u)
        ((fun _ : ℤ => (1:ℤ))
          (find_end_snake_of_further_reaching_dpath (fun _ : ℤ => (0:ℤ)) 1 (fun _ : ℤ => (1:ℤ)) 1
            (fun _ => 0) 0 0 (fun x y : ℤ => x == y)).v) = false) :=
  c5_snake_finder_spec (fun _ : ℤ => (0:ℤ)) 1 (fun _ : ℤ => (1:ℤ)) 1 (fun _ => 0) 0 0
    (fun x y : ℤ => x == y) (by norm_num) (by norm_num) (by norm_num)
    (by norm_num) (by norm_num)

/-- C1 counterexample: with the consistent (reflexive, symmetric,
transitive) equality predicate comparing integers modulo 2, diffing
A = [0] against B = [2] produces the single record Keep 1, and applying
that script to A as the claim prescribes yields [0], which is not B = [2]:
the script does not reconstruct B exactly. -/
theorem c1_exact_roundtrip_counterexample :
    (∀ x : ℤ, (fun x y : ℤ => decide ((x - y) % 2 = 0)) x x = true) ∧
    (∀ x y : ℤ, ((fun x y : ℤ => decide ((x - y) % 2 = 0)) x y) =
      ((fun x y : ℤ => decide ((x - y) % 2 = 0)) y x)) ∧
    (∀ x y z : ℤ, (fun x y : ℤ => decide ((x - y) % 2 = 0)) x y = true →
      (fun x y : ℤ => decide ((x - y) % 2 = 0)) y z = true →
      (fun x y : ℤ => decide ((x - y) % 2 = 0)) x z = true) ∧
    find_diff (fun _ : ℤ => (0:ℤ)) 1 (fun _ : ℤ => (2:ℤ))
        1 (fun x y : ℤ => decide ((x - y) % 2 = 0)) = some [⟨DiffMode.Keep, 1, 0⟩] ∧
    applyFrom (fun _ : ℤ => (0:ℤ)) (fun _ : ℤ => (2:ℤ)) [⟨DiffMode.Keep, 1, 0⟩] 0 ≠
      listSlice (fun _ : ℤ => (2:ℤ)) 0 1 := by
  refine ⟨?_, ?_, ?_, ?_, ?_⟩
  · intro x; simp
  · intro x y; simp only [decide_eq_decide]; omega
  · intro x y z; simp only [decide_eq_true_eq]; omega
  · decide
  · decide

/-! ### Provenance of find_middle_snake results -/

theorem fwdScan_inr_prov (a : ℤ → α) (N : ℤ) (b : ℤ → α) (M : ℤ) (eq : α → α → Bool)
    (delta D : ℤ) (V2 : ℤ → ℤ) :
    ∀ (count : ℕ) (k0 : ℤ) (V1 : ℤ → ℤ) (s : SnakeLen),
    fwdScan a N b M eq delta D V2 count k0 V1 = .inr s →
    ∃ (j : ℕ) (k1 : ℤ) (V1c : ℤ → ℤ),
      k1 = k0 + 2*j ∧ j < count ∧
      s = ⟨find_end_snake_of_further_reaching_dpath a N b M V1c D k1 eq, false, 2*D - 1⟩ ∧
      delta % 2 ≠ 0 ∧ -(D-1) ≤ -(k1 - delta) ∧ -(k1 - delta) ≤ D-1 ∧
      upd V1c k1 (find_end_snake_of_further_reaching_dpath a N b M V1c D k1 eq).u k1 +
        V2 (-(k1 - delta)) ≥ N := by
  intro count
  induction count with
  | zero => intro k0 V1 s h; simp [fwdScan] at h
  | succ m ih =>
    intro k0 V1 s h
    simp only [fwdScan] at h
    by_cases hc : delta % 2 ≠ 0 ∧ -(D-1) ≤ -(k0 - delta) ∧ -(k0 - delta) ≤ D-1 ∧
        upd V1 k0 (find_end_snake_of_further_reaching_dpath a N b M V1 D k0 eq).u k0 +
          V2 (-(k0 - delta)) ≥ N
    · rw [if_pos hc] at h
      refine ⟨0, k0, V1, by push_cast; ring, by omega, ?_, hc.1, hc.2.1, hc.2.2.1, hc.2.2.2⟩
      cases h
      rfl
    · rw [if_neg hc] at h
      obtain ⟨j, k1, V1c, h1, h2, h3, h4, h5, h6, h7⟩ := ih (k0+2) _ s h
      exact ⟨j+1, k1, V1c, by push_cast; omega, by omega, h3, h4, h5, h6, h7⟩

theorem revScan_inr_prov (a : ℤ → α) (N : ℤ) (b : ℤ → α) (M : ℤ) (eq : α → α → Bool)
    (delta D : ℤ) (V1 : ℤ → ℤ) :
    ∀ (count : ℕ) (k0 : ℤ) (V2 : ℤ → ℤ) (s : SnakeLen),
    revScan a N b M eq delta D V1 count k0 V2 = .inr s →
    ∃ (j : ℕ) (k2 : ℤ) (V2c : ℤ → ℤ),
      k2 = k0 + 2*j ∧ j < count ∧
      s = ⟨⟨N - (find_end_snake_of_further_reaching_dpath
              (fun i => a (N-1-i)) N (fun i => b (M-1-i)) M V2c D k2 eq).u,
            M - (find_end_snake_of_further_reaching_dpath
              (fun i => a (N-1-i)) N (fun i => b (M-1-i)) M V2c D k2 eq).v,
            N - (find_end_snake_of_further_reaching_dpath
              (fun i => a (N-1-i)) N (fun i => b (M-1-i)) M V2c D k2 eq).x,
            M - (find_end_snake_of_further_reaching_dpath
              (fun i => a (N-1-i)) N (fun i => b (M-1-i)) M V2c D k2 eq).y,
            (find_end_snake_of_further_reaching_dpath
              (fun i => a (N-1-i)) N (fun i => b (M-1-i)) M V2c D k2 eq).add⟩,
          true, 2*D⟩ ∧
      delta % 2 = 0 ∧ -D ≤ -(k2 - delta) ∧ -(k2 - delta) ≤ D ∧
      V1 (-(k2 - delta)) + upd V2c k2 (find_end_snake_of_further_reaching_dpath
        (fun i => a (N-1-i)) N (fun i => b (M-1-i)) M V2c D k2 eq).u k2 ≥ N := by
  intro count
  induction count with
  | zero => intro k0 V2 s h; simp [revScan] at h
  | succ m ih =>
    intro k0 V2 s h
    simp only [revScan] at h
    by_cases hc : delta % 2 = 0 ∧ -D ≤ -(k0 - delta) ∧ -(k0 - delta) ≤ D ∧
        V1 (-(k0 - delta)) + upd V2 k0 (find_end_snake_of_further_reaching_dpath
          (fun i => a (N-1-i)) N (fun i => b (M-1-i)) M V2 D k0 eq).u k0 ≥ N
    · rw [if_pos hc] at h
      refine ⟨0, k0, V2, by push_cast; ring, by omega, ?_, hc.1, hc.2.1, hc.2.2.1, hc.2.2.2⟩
      cases h
      rfl
    · rw [if_neg hc] at h
      obtain ⟨j, k2, V2c, h1, h2, h3, h4, h5, h6, h7⟩ := ih (k0+2) _ s h
      exact ⟨j+1, k2, V2c, by push_cast; omega, by omega, h3, h4, h5, h6, h7⟩

theorem midLoop_prov (a : ℤ → α) (N : ℤ) (b : ℤ → α) (M : ℤ) (eq : α → α → Bool)
    (delta : ℤ) :
    ∀ (rem : ℕ) (D : ℕ) (V1 V2 : ℤ → ℤ) (s : SnakeLen),
    midLoop a N b M eq delta rem D V1 V2 = some s →
    loopStates a N b M eq delta D = some (V1, V2) →
    ∃ (E : ℕ) (W1 W2 : ℤ → ℤ), loopStates a N b M eq delta E = some (W1, W2) ∧
      (fwdScan a N b M eq delta (E:ℤ) W2 (E+1) (-(E:ℤ)) W1 = .inr s ∨
       (∃ W1', fwdScan a N b M eq delta (E:ℤ) W2 (E+1) (-(E:ℤ)) W1 = .inl W1' ∧
         revScan a N b M eq delta (E:ℤ) W1' (E+1) (-(E:ℤ)) W2 = .inr s)) := by
  intro rem
  induction rem with
  | zero => intro D V1 V2 s h _; simp [midLoop] at h
  | succ m ih =>
    intro D V1 V2 s h hls
    rw [midLoop] at h
    rcases hf : fwdScan a N b M eq delta (D:ℤ) V2 (D+1) (-(D:ℤ)) V1 with V1' | s'
    · rw [hf] at h
      dsimp only at h
      rcases hr : revScan a N b M eq delta (D:ℤ) V1' (D+1) (-(D:ℤ)) V2 with V2' | s'
      · rw [hr] at h
        dsimp only at h
        have hnext : loopStates a N b M eq delta (D+1) = some (V1', V2') := by
          rw [loopStates, hls]
          dsimp only
          rw [hf]
          dsimp only
          rw [hr]
        exact ih (D+1) V1' V2' s h hnext
      · rw [hr] at h
        dsimp only at h
        obtain rfl : s' = s := by injection h
        exact ⟨D, V1, V2, hls, Or.inr ⟨V1', hf, hr⟩⟩
    · rw [hf] at h
      dsimp only at h
      obtain rfl : s' = s := by injection h
      exact ⟨D, V1, V2, hls, Or.inl hf⟩

theorem find_middle_snake_prov (a : ℤ → α) (N : ℤ) (b : ℤ → α) (M : ℤ)
    (eq : α → α → Bool) (s : SnakeLen)
    (h : find_middle_snake a N b M eq = some s) :
    ∃ (E : ℕ) (W1 W2 : ℤ → ℤ), loopStates a N b M eq (N - M) E = some (W1, W2) ∧
      (fwdScan a N b M eq (N - M) (E:ℤ) W2 (E+1) (-(E:ℤ)) W1 = .inr s ∨
       (∃ W1', fwdScan a N b M eq (N - M) (E:ℤ) W2 (E+1) (-(E:ℤ)) W1 = .inl W1' ∧
         revScan a N b M eq (N - M) (E:ℤ) W1' (E+1) (-(E:ℤ)) W2 = .inr s)) := by
  rw [find_middle_snake] at h
  exact midLoop_prov a N b M eq (N - M) _ 0 _ _ s h rfl

/-- C4: on a call with nonempty ranges whose first and last elements
differ, if N-M is odd the returned snake is tagged as a forward-path result
with distance 2D-1 for the first D at which the forward front satisfies
V1[k1]+V2[k2] >= N with k2 in [-(D-1), D-1]; if N-M is even it is tagged as
a reverse-path result with distance 2D and its coordinates are the reverse
snake (x,y,u,v) mapped to (N-u, M-v, N-x, M-y) with the add flag kept. -/
theorem c4_middle_snake_orientation (a : ℤ → α) (N : ℤ) (b : ℤ → α) (M : ℤ) (eq : α → α → Bool)
    (s : SnakeLen) (hN : 1 ≤ N) (hM : 1 ≤ M)
    (hfirst : eq (a 0) (b 0) = false) (hlast : eq (a (N-1)) (b (M-1)) = false)
    (h : find_middle_snake a N b M eq = some s) :
    ((N - M) % 2 ≠ 0 →
      s.reverse = false ∧
      ∃ (D : ℕ) (V1 V2 V1c : ℤ → ℤ) (k1 : ℤ),
        loopStates a N b M eq (N - M) D = some (V1, V2) ∧
        s.d = 2*(D:ℤ) - 1 ∧
        s.toSnake = find_end_snake_of_further_reaching_dpath a N b M V1c (D:ℤ) k1 eq ∧
        -((D:ℤ)-1) ≤ -(k1 - (N - M)) ∧ -(k1 - (N - M)) ≤ (D:ℤ)-1 ∧
        upd V1c k1 (find_end_snake_of_further_reaching_dpath a N b M V1c (D:ℤ) k1 eq).u k1 +
          V2 (-(k1 - (N - M))) ≥ N) ∧
    ((N - M) % 2 = 0 →
      s.reverse = true ∧
      ∃ (D : ℕ) (V1 V2 W1 V2c : ℤ → ℤ) (k2 : ℤ),
        loopStates a N b M eq (N - M) D = some (V1, V2) ∧
        fwdScan a N b M eq (N - M) (D:ℤ) V2 (D+1) (-(D:ℤ)) V1 = .inl W1 ∧
        s.d = 2*(D:ℤ) ∧
        s.toSnake = ⟨N - (find_end_snake_of_further_reaching_dpath
              (fun i => a (N-1-i)) N (fun i => b (M-1-i)) M V2c (D:ℤ) k2 eq).u,
            M - (find_end_snake_of_further_reaching_dpath
              (fun i => a (N-1-i)) N (fun i => b (M-1-i)) M V2c (D:ℤ) k2 eq).v,
            N - (find_end_snake_of_further_reaching_dpath
              (fun i => a (N-1-i)) N (fun i => b (M-1-i)) M V2c (D:ℤ) k2 eq).x,
            M - (find_end_snake_of_further_reaching_dpath
              (fun i => a (N-1-i)) N (fun i => b (M-1-i)) M V2c (D:ℤ) k2 eq).y,
            (find_end_snake_of_further_reaching_dpath
              (fun i => a (N-1-i)) N (fun i => b (M-1-i)) M V2c (D:ℤ) k2 eq).add⟩ ∧
        -(D:ℤ) ≤ -(k2 - (N - M)) ∧ -(k2 - (N - M)) ≤ (D:ℤ) ∧
        W1 (-(k2 - (N - M))) + upd V2c k2 (find_end_snake_of_further_reaching_dpath
          (fun i => a (N-1-i)) N (fun i => b (M-1-i)) M V2c (D:ℤ) k2 eq).u k2 ≥ N) := by
  obtain ⟨E, W1, W2, hls, hcase⟩ := find_middle_snake_prov a N b M eq s h
  rcases hcase with hf | ⟨W1', hf, hr⟩
  · obtain ⟨j, k1, V1c, hk, hj, hs, hodd, hr1, hr2, hfire⟩ :=
      fwdScan_inr_prov a N b M eq (N - M) (E:ℤ) W2 (E+1) (-(E:ℤ)) W1 s hf
    constructor
    · intro _
      subst hs
      exact ⟨rfl, E, W1, W2, V1c, k1, hls, rfl, rfl, hr1, hr2, hfire⟩
    · intro heven
      exact absurd heven hodd
  · obtain ⟨j, k2, V2c, hk, hj, hs, heven, hr1, hr2, hfire⟩ :=
      revScan_inr_prov a N b M eq (N - M) (E:ℤ) W1' (E+1) (-(E:ℤ)) W2 s hr
    constructor
    · intro hodd
      exact absurd heven hodd
    · intro _
      subst hs
      exact ⟨rfl, E, W1, W2, W1', V2c, k2, hls, hf, rfl, rfl, hr1, hr2, hfire⟩

/-- C4 witness: the concrete even-delta call on one-element sequences. -/
theorem c4_middle_snake_orientation_witness :
    (((1:ℤ) - 1) % 2 ≠ 0 →
      (⟨⟨1,0,1,0,true⟩, true, 2⟩ : SnakeLen).reverse = false ∧
      ∃ (D : ℕ) (V1 V2 V1c : ℤ → ℤ) (k1 : ℤ),
        loopStates (fun _ : ℤ => (0:ℤ)) 1 (fun _ : ℤ => (1:ℤ)) 1
            (fun x y : ℤ => x == y) (1 - 1) D = some (V1, V2) ∧
        (⟨⟨1,0,1,0,true⟩, true, 2⟩ : SnakeLen).d = 2*(D:ℤ) - 1 ∧
        (⟨⟨1,0,1,0,true⟩, true, 2⟩ : SnakeLen).toSnake =
          find_end_snake_of_further_reaching_dpath (fun _ : ℤ => (0:ℤ)) 1
            (fun _ : ℤ => (1:ℤ)) 1 V1c (D:ℤ) k1 (fun x y : ℤ => x == y) ∧
        -((D:ℤ)-1) ≤ -(k1 - (1 - 1)) ∧ -(k1 - (1 - 1)) ≤ (D:ℤ)-1 ∧
        upd V1c k1 (find_end_snake_of_further_reaching_dpath (fun _ : ℤ => (0:ℤ)) 1
            (fun _ : ℤ => (1:ℤ)) 1 V1c (D:ℤ) k1 (fun x y : ℤ => x == y)).u k1 +
          V2 (-(k1 - (1 - 1))) ≥ 1) ∧
    (((1:ℤ) - 1) % 2 = 0 →
      (⟨⟨1,0,1,0,true⟩, true, 2⟩ : SnakeLen).reverse = true ∧
      ∃ (D : ℕ) (V1 V2 W1 V2c : ℤ → ℤ) (k2 : ℤ),
        loopStates (fun _ : ℤ => (0:ℤ)) 1 (fun _ : ℤ => (1:ℤ)) 1
            (fun x y : ℤ => x == y) (1 - 1) D = some (V1, V2) ∧
        fwdScan (fun _ : ℤ => (0:ℤ)) 1 (fun _ : ℤ => (1:ℤ)) 1 (fun x y : ℤ => x == y)
            (1 - 1) (D:ℤ) V2 (D+1) (-(D:ℤ)) V1 = .inl W1 ∧
        (⟨⟨1,0,1,0,true⟩, true, 2⟩ : SnakeLen).d = 2*(D:ℤ) ∧
        (⟨⟨1,0,1,0,true⟩, true, 2⟩ : SnakeLen).toSnake =
          ⟨1 - (find_end_snake_of_further_reaching_dpath
                (fun i => (fun _ : ℤ => (0:ℤ)) (1-1-i)) 1 (fun i => (fun _ : ℤ => (1:ℤ)) (1-1-i)) 1
                V2c (D:ℤ) k2 (fun x y : ℤ => x == y)).u,
            1 - (find_end_snake_of_further_reaching_dpath
                (fun i => (fun _ : ℤ => (0:ℤ)) (1-1-i)) 1 (fun i => (fun _ : ℤ => (1:ℤ)) (1-1-i)) 1
                V2c (D:ℤ) k2 (fun x y : ℤ => x == y)).v,
            1 - (find_end_snake_of_further_reaching_dpath
                (fun i => (fun _ : ℤ => (0:ℤ)) (1-1-i)) 1 (fun i => (fun _ : ℤ => (1:ℤ)) (1-1-i)) 1
                V2c (D:ℤ) k2 (fun x y : ℤ => x == y)).x,
            1 - (find_end_snake_of_further_reaching_dpath
                (fun i => (fun _ : ℤ => (0:ℤ)) (1-1-i)) 1 (fun i => (fun _ : ℤ => (1:ℤ)) (1-1-i)) 1
                V2c (D:ℤ) k2 (fun x y : ℤ => x == y)).y,
            (find_end_snake_of_further_reaching_dpath
                (fun i => (fun _ : ℤ => (0:ℤ)) (1-1-i)) 1 (fun i => (fun _ : ℤ => (1:ℤ)) (1-1-i)) 1
                V2c (D:ℤ) k2 (fun x y : ℤ => x == y)).add⟩ ∧
        -(D:ℤ) ≤ -(k2 - (1 - 1)) ∧ -(k2 - (1 - 1)) ≤ (D:ℤ) ∧
        W1 (-(k2 - (1 - 1))) + upd V2c k2 (find_end_snake_of_further_reaching_dpath
            (fun i => (fun _ : ℤ => (0:ℤ)) (1-1-i)) 1 (fun i => (fun _ : ℤ => (1:ℤ)) (1-1-i)) 1
            V2c (D:ℤ) k2 (fun x y : ℤ => x == y)).u k2 ≥ 1) :=
  c4_middle_snake_orientation (fun _ : ℤ => (0:ℤ)) 1 (fun _ : ℤ => (1:ℤ)) 1 (fun x y : ℤ => x == y)
    ⟨⟨1,0,1,0,true⟩, true, 2⟩ (by norm_num) (by norm_num) (by decide) (by decide) (by decide)

/-! ### Reachability invariants of the working arrays -/

theorem listSlice_forall₂ (f g : ℤ → α) (R : α → α → Prop) :
    ∀ (n : ℕ) (i0 j0 : ℤ), (∀ i : ℕ, i < n → R (f (i0 + i)) (g (j0 + i))) →
    List.Forall₂ R (listSlice f i0 (i0 + n)) (listSlice g j0 (j0 + n)) := by
  intro n
  induction n with
  | zero =>
    intro i0 j0 _
    rw [listSlice_empty f (by omega), listSlice_empty g (by omega)]
    exact List.Forall₂.nil
  | succ m ih =>
    intro i0 j0 h
    have e1 : i0 + ((m:ℤ) + 1) = (i0 + m) + 1 := by ring
    have e2 : j0 + ((m:ℤ) + 1) = (j0 + m) + 1 := by ring
    push_cast
    rw [e1, e2, listSlice_snoc f (by omega), listSlice_snoc g (by omega)]
    apply List.rel_append
    · have := ih i0 j0 (fun i hi => h i (by omega))
      push_cast at this
      exact this
    · refine List.Forall₂.cons ?_ List.Forall₂.nil
      have := h m (by omega)
      push_cast at this
      exact this

theorem editPath_of_forall₂ (eq : α → α → Bool) {P Q : List α}
    (h : List.Forall₂ (fun x y => eq x y = true) P Q) : EditPath eq 0 P Q := by
  induction h with
  | nil => exact EditPath.nil
  | cons hxy _ ih => exact EditPath.diag hxy ih

theorem editPath_zero_forall (eq : α → α → Bool) {P Q : List α}
    (h : EditPath eq 0 P Q) : List.Forall₂ (fun x y => eq x y = true) P Q := by
  have hle := led_le_of_editPath eq h
  have : led eq P Q = 0 := by omega
  exact (led_eq_zero_iff eq P Q).mp this

theorem editPath_reverse_iff (eq : α → α → Bool) {D : ℕ} {X Y : List α} :
    EditPath eq D X.reverse Y.reverse ↔ EditPath eq D X Y := by
  constructor
  · intro h
    have := editPath_reverse eq h
    simpa using this
  · exact editPath_reverse eq

theorem editPath_front_cases (eq : α → α → Bool) {D : ℕ} {X Y : List α}
    (h : EditPath eq D X Y) :
    (X = [] ∧ Y = [] ∧ D = 0) ∨
    (∃ X' Y' x y, X = x :: X' ∧ Y = y :: Y' ∧ eq x y = true ∧ EditPath eq D X' Y') ∨
    (∃ X' x E, X = x :: X' ∧ D = E + 1 ∧ EditPath eq E X' Y) ∨
    (∃ Y' y E, Y = y :: Y' ∧ D = E + 1 ∧ EditPath eq E X Y') := by
  cases h with
  | nil => exact Or.inl ⟨rfl, rfl, rfl⟩
  | diag hxy hp => exact Or.inr (Or.inl ⟨_, _, _, _, rfl, rfl, hxy, hp⟩)
  | del hp => exact Or.inr (Or.inr (Or.inl ⟨_, _, _, rfl, rfl, hp⟩))
  | ins hp => exact Or.inr (Or.inr (Or.inr ⟨_, _, _, rfl, rfl, hp⟩))

theorem editPath_snoc_cases (eq : α → α → Bool) {D : ℕ} {X Y : List α}
    (h : EditPath eq D X Y) :
    (X = [] ∧ Y = [] ∧ D = 0) ∨
    (∃ X' Y' x y, X = X' ++ [x] ∧ Y = Y' ++ [y] ∧ eq x y = true ∧ EditPath eq D X' Y') ∨
    (∃ X' x E, X = X' ++ [x] ∧ D = E + 1 ∧ EditPath eq E X' Y) ∨
    (∃ Y' y E, Y = Y' ++ [y] ∧ D = E + 1 ∧ EditPath eq E X Y') := by
  rcases editPath_front_cases eq (editPath_reverse eq h) with
    ⟨hx, hy, hD⟩ | ⟨X1, Y1, x, y, hx, hy, hxy, hp⟩ | ⟨X1, x, E, hx, hD, hp⟩ |
    ⟨Y1, y, E, hy, hD, hp⟩
  · left
    refine ⟨?_, ?_, hD⟩
    · simpa using congrArg List.reverse hx
    · simpa using congrArg List.reverse hy
  · right; left
    refine ⟨X1.reverse, Y1.reverse, x, y, ?_, ?_, hxy, ?_⟩
    · have := congrArg List.reverse hx
      simpa using this
    · have := congrArg List.reverse hy
      simpa using this
    · have : EditPath eq D X1.reverse Y1.reverse := editPath_reverse eq hp
      exact this
  · right; right; left
    refine ⟨X1.reverse, x, E, ?_, hD, ?_⟩
    · have := congrArg List.reverse hx
      simpa using this
    · have := editPath_reverse eq hp
      simpa using this
  · right; right; right
    refine ⟨Y1.reverse, y, E, ?_, hD, ?_⟩
    · have := congrArg List.reverse hy
      simpa using this
    · have := editPath_reverse eq hp
      simpa using this

theorem slice_concat_inv (f : ℤ → α) {x : ℤ} {X : List α} {e : α}
    (hx : 1 ≤ x) (h : listSlice f 0 x = X ++ [e]) :
    X = listSlice f 0 (x - 1) ∧ e = f (x - 1) := by
  have hsn : listSlice f 0 x = listSlice f 0 (x-1) ++ [f (x-1)] := by
    have hx1 : x = (x - 1) + 1 := by ring
    nth_rewrite 1 [hx1]
    rw [listSlice_snoc f (by omega)]
  rw [hsn] at h
  have hlen : (listSlice f 0 (x-1)).length = X.length := by
    have := congrArg List.length h
    simp at this
    omega
  have hinj := List.append_inj h hlen
  refine ⟨hinj.1.symm, ?_⟩
  have h2 := hinj.2
  have : f (x-1) = e := by simpa using h2
  exact this.symm

theorem FR_bounds (a b : ℤ → α) (eq : α → α → Bool) (N M : ℤ) {D : ℕ} {x y : ℤ}
    (h : FR a b eq N M D x y) :
    0 ≤ x ∧ x ≤ N ∧ 0 ≤ y ∧ y ≤ M ∧ x - y ≤ D ∧ y - x ≤ D := by
  obtain ⟨h1, h2, h3, h4, hp⟩ := h
  have hb := editPath_length_bound eq hp
  rw [listSlice_length, listSlice_length] at hb
  refine ⟨h1, h2, h3, h4, ?_, ?_⟩ <;> omega

theorem FR_ext_diag (a b : ℤ → α) (eq : α → α → Bool) (N M : ℤ) {E : ℕ} {x y : ℤ}
    (h : FR a b eq N M E x y) (t : ℕ)
    (hm : ∀ i : ℕ, i < t → x + i < N ∧ y + i < M ∧ eq (a (x + i)) (b (y + i)) = true) :
    FR a b eq N M E (x + t) (y + t) := by
  obtain ⟨h1, h2, h3, h4, hp⟩ := h
  have hxN : x + t ≤ N := by
    cases t with
    | zero => simpa using h2
    | succ s => have := (hm s (by omega)).1; push_cast at this ⊢; omega
  have hyM : y + t ≤ M := by
    cases t with
    | zero => simpa using h4
    | succ s => have := (hm s (by omega)).2.1; push_cast at this ⊢; omega
  refine ⟨by omega, hxN, by omega, hyM, ?_⟩
  rw [listSlice_append a (i := 0) (j := x) (l := x + t) (by omega) (by omega),
    listSlice_append b (i := 0) (j := y) (l := y + t) (by omega) (by omega)]
  have hrun : List.Forall₂ (fun p q => eq p q = true)
      (listSlice a x (x + t)) (listSlice b y (y + t)) :=
    listSlice_forall₂ a b _ t x y (fun i hi => (hm i hi).2.2)
  have := editPath_append eq hp (editPath_of_forall₂ eq hrun)
  simpa using this

theorem linv_finish (a b : ℤ → α) (eq : α → α → Bool) (N M : ℤ) (k : ℤ) (xh : ℤ)
    (x0 : ℤ) (hx0xh : x0 ≤ xh) (x : ℤ) (hx0x : x0 ≤ x) (hxN : x ≤ N) (hxkM : x - k ≤ M)
    (hmint : ∀ i : ℤ, x0 ≤ i → i < x → eq (a i) (b (i - k)) = true) :
    x ≤ (snakeExt a N b M eq (N - xh).toNat xh (xh - k)).1 := by
  rcases le_or_lt x xh with hle | hlt
  · obtain ⟨t, h1, _, _, _⟩ := snakeExt_spec a N b M eq (N - xh).toNat xh (xh - k) (by omega)
    omega
  · apply snakeExt_reaches a N b M eq _ xh (xh - k) x (by omega) (by omega)
    intro i hi1 hi2
    refine ⟨by omega, by omega, ?_⟩
    have harg : xh - k + (i - xh) = i - k := by ring
    rw [harg]
    exact hmint i (by omega) hi2

theorem linv_aux (a b : ℤ → α) (eq : α → α → Bool) (N M : ℤ)
    (D : ℕ) (hD : 1 ≤ D) (k : ℤ) (V : ℤ → ℤ)
    (hL : k ≠ -(D:ℤ) → Linv a b eq N M (D-1) (k-1) (V (k-1)))
    (hR : k ≠ (D:ℤ) → Linv a b eq N M (D-1) (k+1) (V (k+1)))
    (xh : ℤ)
    (hmax1 : k ≠ -(D:ℤ) → V (k-1) + 1 ≤ xh)
    (hmax2 : k ≠ (D:ℤ) → V (k+1) ≤ xh)
    (x : ℤ) (hxN : x ≤ N) (hxkM : x - k ≤ M) :
    ∀ (n : ℕ) (x0 : ℤ), x0.toNat < n → 0 ≤ x0 → x0 ≤ x →
    FR a b eq N M D x0 (x0 - k) →
    (∀ i : ℤ, x0 ≤ i → i < x → eq (a i) (b (i - k)) = true) →
    x ≤ (snakeExt a N b M eq (N - xh).toNat xh (xh - k)).1 := by
  intro n
  induction n with
  | zero => intro x0 h0; omega
  | succ m ih =>
    intro x0 h0 hx00 hx0x hFR hmint
    obtain ⟨hh1, hh2, hh3, hh4, hp⟩ := hFR
    rcases editPath_snoc_cases eq hp with ⟨hX, hY, hD0⟩ | ⟨X', Y', xe, ye, hX, hY, hxy, hp'⟩ |
      ⟨X', xe, E, hX, hDE, hp'⟩ | ⟨Y', ye, E, hY, hDE, hp'⟩
    · omega
    · -- trailing diagonal step: recurse at x0 - 1
      have hx01 : 1 ≤ x0 := by
        by_contra hc
        have hx0z : x0 = 0 := by omega
        subst hx0z
        rw [listSlice_empty a (by omega)] at hX
        simp at hX
      have hxk1 : 1 ≤ x0 - k := by
        by_contra hc
        rw [listSlice_empty b (by omega)] at hY
        simp at hY
      obtain ⟨hX', hxe⟩ := slice_concat_inv a hx01 hX
      obtain ⟨hY', hye⟩ := slice_concat_inv b (by omega) hY
      have hmatch : eq (a (x0 - 1)) (b ((x0 - 1) - k)) = true := by
        rw [← hxe]
        have harg : x0 - 1 - k = x0 - k - 1 := by ring
        rw [harg, ← hye]
        exact hxy
      apply ih (x0 - 1) (by omega) (by omega) (by omega)
      · refine ⟨by omega, by omega, by omega, by omega, ?_⟩
        rw [← hX']
        have harg : x0 - 1 - k = x0 - k - 1 := by ring
        rw [harg, ← hY']
        exact hp'
      · intro i hi1 hi2
        rcases eq_or_lt_of_le hi1 with hig | hig
        · rw [← hig]
          exact hmatch
        · exact hmint i (by omega) hi2
    · -- trailing horizontal (delete) step: x0 is dominated by V (k-1) + 1
      have hx01 : 1 ≤ x0 := by
        by_contra hc
        have hx0z : x0 = 0 := by omega
        subst hx0z
        rw [listSlice_empty a (by omega)] at hX
        simp at hX
      obtain ⟨hX', hxe⟩ := slice_concat_inv a hx01 hX
      have hpred : FR a b eq N M (D-1) (x0 - 1) ((x0 - 1) - (k - 1)) := by
        refine ⟨by omega, by omega, by omega, by omega, ?_⟩
        rw [← hX']
        have harg : x0 - 1 - (k - 1) = x0 - k := by ring
        rw [harg]
        have hE : E = D - 1 := by omega
        rw [← hE]
        exact hp'
      have hkD : k ≠ -(D:ℤ) := by
        have hb := FR_bounds a b eq N M hpred
        have : (x0 - 1) - ((x0 - 1) - (k - 1)) ≤ ((D:ℕ) - 1 : ℕ) := hb.2.2.2.2.1
        have h2 : ((x0 - 1) - (k - 1)) - (x0 - 1) ≤ ((D:ℕ) - 1 : ℕ) := hb.2.2.2.2.2
        have hcast : (((D:ℕ) - 1 : ℕ) : ℤ) = (D:ℤ) - 1 := by omega
        rw [hcast] at h2
        omega
      have hv := hL hkD (x0 - 1) (by
        have harg : x0 - 1 - (k - 1) = (x0 - 1) - (k - 1) := rfl
        exact hpred)
      exact linv_finish a b eq N M k xh x0 (by have := hmax1 hkD; omega) x hx0x hxN hxkM hmint
    · -- trailing vertical (insert) step: x0 is dominated by V (k+1)
      have hxk1 : 1 ≤ x0 - k := by
        by_contra hc
        rw [listSlice_empty b (by omega)] at hY
        simp at hY
      obtain ⟨hY', hye⟩ := slice_concat_inv b (by omega) hY
      have hpred : FR a b eq N M (D-1) x0 (x0 - (k + 1)) := by
        refine ⟨by omega, by omega, by omega, by omega, ?_⟩
        have harg : x0 - (k + 1) = x0 - k - 1 := by ring
        rw [harg, ← hY']
        have hE : E = D - 1 := by omega
        rw [← hE]
        exact hp'
      have hkD : k ≠ (D:ℤ) := by
        have hb := FR_bounds a b eq N M hpred
        have : x0 - (x0 - (k + 1)) ≤ ((D:ℕ) - 1 : ℕ) := hb.2.2.2.2.1
        have hcast : (((D:ℕ) - 1 : ℕ) : ℤ) = (D:ℤ) - 1 := by omega
        rw [hcast] at this
        omega
      have hv := hR hkD x0 hpred
      exact linv_finish a b eq N M k xh x0 (by have := hmax2 hkD; omega) x hx0x hxN hxkM hmint

theorem pinv_vert (a b : ℤ → α) (eq : α → α → Bool) (N M : ℤ) {D : ℕ} {k v : ℤ}
    (hD : 1 ≤ D) (h : Pinv a b eq N M (D-1) (k+1) v) : Pinv a b eq N M D k v := by
  obtain ⟨x, y, s, t, hv, hvk, hs, ht, hst, hFR⟩ := h
  by_cases hyM : y = M
  · refine ⟨x, y, s, t+1, hv, by push_cast; omega, hs, fun _ => hyM, by omega, ?_⟩
    have : D - s - (t+1) = (D-1) - s - t := by omega
    rw [this]
    exact hFR
  · have hb := FR_bounds a b eq N M hFR
    have hyM' : y < M := by omega
    refine ⟨x, y+1, s, 0, hv, by omega, hs, by omega, by omega, ?_⟩
    obtain ⟨h1, h2, h3, h4, hp⟩ := hFR
    refine ⟨by omega, by omega, by omega, by omega, ?_⟩
    rw [listSlice_snoc b (i := 0) (j := y) (by omega)]
    have hstep : EditPath eq 1 ([] : List α) [b y] := EditPath.ins EditPath.nil
    have := editPath_append eq hp hstep
    have harg : D - s - 0 = ((D-1) - s - t) + 1 := by omega
    rw [harg]
    simpa using this

theorem pinv_horiz (a b : ℤ → α) (eq : α → α → Bool) (N M : ℤ) {D : ℕ} {k v : ℤ}
    (hD : 1 ≤ D) (h : Pinv a b eq N M (D-1) (k-1) v) : Pinv a b eq N M D k (v+1) := by
  obtain ⟨x, y, s, t, hv, hvk, hs, ht, hst, hFR⟩ := h
  by_cases hxN : x = N
  · refine ⟨x, y, s+1, t, by push_cast; omega, by push_cast; omega, fun _ => hxN, ht, by omega, ?_⟩
    have : D - (s+1) - t = (D-1) - s - t := by omega
    rw [this]
    exact hFR
  · have hb := FR_bounds a b eq N M hFR
    have hxN' : x < N := by omega
    refine ⟨x+1, y, 0, t, by omega, by omega, by omega, ht, by omega, ?_⟩
    obtain ⟨h1, h2, h3, h4, hp⟩ := hFR
    refine ⟨by omega, by omega, by omega, by omega, ?_⟩
    rw [listSlice_snoc a (i := 0) (j := x) (by omega)]
    have hstep : EditPath eq 1 [a x] ([] : List α) := EditPath.del EditPath.nil
    have := editPath_append eq hp hstep
    have harg : D - 0 - t = ((D-1) - s - t) + 1 := by omega
    rw [harg]
    simpa using this

theorem pinv_snake (a b : ℤ → α) (eq : α → α → Bool) (N M : ℤ) {D : ℕ} {k z : ℤ}
    (h : Pinv a b eq N M D k z) :
    Pinv a b eq N M D k ((snakeExt a N b M eq (N - z).toNat z (z - k)).1) := by
  obtain ⟨x, y, s, t, hv, hvk, hs, ht, hst, hFR⟩ := h
  have hb := FR_bounds a b eq N M hFR
  by_cases hst0 : s = 0 ∧ t = 0
  · obtain ⟨hs0, ht0⟩ := hst0
    subst hs0; subst ht0
    have hz : z = x := by omega
    obtain ⟨tt, h1, h2, h3, h4⟩ := snakeExt_spec a N b M eq (N - z).toNat z (z - k) (by omega)
    rw [h1]
    have hFR' : FR a b eq N M (D - 0 - 0) (z + tt) ((z - k) + tt) := by
      rw [hz] at h3 ⊢
      have hy : x - k = y := by omega
      rw [hy] at h3 ⊢
      exact FR_ext_diag a b eq N M hFR tt h3
    exact ⟨z + tt, (z - k) + tt, 0, 0, by omega, by push_cast; omega, by omega, by omega,
      by omega, by simpa using hFR'⟩
  · have hstop : ¬(z < N ∧ z - k < M ∧ eq (a z) (b (z - k)) = true) := by
      intro ⟨hc1, hc2, _⟩
      rcases not_and_or.mp hst0 with hss | htt
      · have hs1 : 0 < s := by omega
        have := hs hs1
        omega
      · have ht1 : 0 < t := by omega
        have := ht ht1
        omega
    obtain ⟨tt, h1, h2, h3, h4⟩ := snakeExt_spec a N b M eq (N - z).toNat z (z - k) (by omega)
    have htt0 : tt = 0 := by
      by_contra hc
      have := h3 0 (by omega)
      simp at this
      exact hstop this
    subst htt0
    simp only [Nat.cast_zero, add_zero] at h1
    rw [h1]
    exact ⟨x, y, s, t, hv, hvk, hs, ht, hst, hFR⟩

theorem fesnake_step (a b : ℤ → α) (eq : α → α → Bool) (N M : ℤ)
    (D : ℕ) (hD : 1 ≤ D) (k : ℤ) (V : ℤ → ℤ) (hk1 : -(D:ℤ) ≤ k) (hk2 : k ≤ D)
    (hL : k ≠ -(D:ℤ) → Pinv a b eq N M (D-1) (k-1) (V (k-1)) ∧
      Linv a b eq N M (D-1) (k-1) (V (k-1)))
    (hR : k ≠ (D:ℤ) → Pinv a b eq N M (D-1) (k+1) (V (k+1)) ∧
      Linv a b eq N M (D-1) (k+1) (V (k+1)))
    (p : Snake) (hp : p = find_end_snake_of_further_reaching_dpath a N b M V (D:ℤ) k eq) :
    Pinv a b eq N M D k p.u ∧ Linv a b eq N M D k p.u ∧
    p.y = p.x - k ∧ p.v = p.u - k ∧ p.x ≤ p.u ∧
    (∀ i : ℕ, (i:ℤ) < p.u - p.x →
      p.x + i < N ∧ p.y + i < M ∧ eq (a (p.x + i)) (b (p.y + i)) = true) ∧
    (p.add = true → 0 ≤ p.x ∧ 1 ≤ p.y ∧
      (p.x ≤ N → p.y ≤ M → FR a b eq N M (D-1) p.x (p.y - 1))) ∧
    (p.add = false → 1 ≤ p.x ∧ 0 ≤ p.y ∧
      (p.x ≤ N → p.y ≤ M → FR a b eq N M (D-1) (p.x - 1) p.y)) := by
  set c : Prop := (k = -(D:ℤ) ∨ (k ≠ (D:ℤ) ∧ V (k-1) < V (k+1))) with hc
  set xh : ℤ := (if k = -(D:ℤ) ∨ (k ≠ (D:ℤ) ∧ V (k-1) < V (k+1)) then V (k+1)
    else V (k-1) + 1) with hxh
  have hpdef : p = ⟨xh, xh - k, (snakeExt a N b M eq (N - xh).toNat xh (xh - k)).1,
      (snakeExt a N b M eq (N - xh).toNat xh (xh - k)).2,
      decide (k = -(D:ℤ) ∨ (k ≠ (D:ℤ) ∧ V (k-1) < V (k+1)))⟩ := by
    rw [hp, find_end_snake_of_further_reaching_dpath]
    simp only [decide_eq_true_eq, hxh]
  have hmax1 : k ≠ -(D:ℤ) → V (k-1) + 1 ≤ xh := by
    intro hkD
    rw [hxh]
    by_cases hcc : k = -(D:ℤ) ∨ (k ≠ (D:ℤ) ∧ V (k-1) < V (k+1))
    · rw [if_pos hcc]
      rcases hcc with h | h
      · exact absurd h hkD
      · omega
    · rw [if_neg hcc]
  have hmax2 : k ≠ (D:ℤ) → V (k+1) ≤ xh := by
    intro hkD
    rw [hxh]
    by_cases hcc : k = -(D:ℤ) ∨ (k ≠ (D:ℤ) ∧ V (k-1) < V (k+1))
    · rw [if_pos hcc]
    · rw [if_neg hcc]
      push_neg at hcc
      have := hcc.2 hkD
      omega
  have hPinvPre : Pinv a b eq N M D k xh := by
    rw [hxh]
    by_cases hcc : k = -(D:ℤ) ∨ (k ≠ (D:ℤ) ∧ V (k-1) < V (k+1))
    · rw [if_pos hcc]
      have hkD : k ≠ (D:ℤ) := by
        rcases hcc with h | h
        · intro heq; rw [heq] at h; omega
        · exact h.1
      exact pinv_vert a b eq N M hD (hR hkD).1
    · rw [if_neg hcc]
      have hkD : k ≠ -(D:ℤ) := by
        intro heq
        exact hcc (Or.inl heq)
      exact pinv_horiz a b eq N M hD (hL hkD).1
  have hPu : Pinv a b eq N M D k p.u := by
    rw [hpdef]
    exact pinv_snake a b eq N M hPinvPre
  have hLu : Linv a b eq N M D k p.u := by
    intro x hFRx
    have hbx := FR_bounds a b eq N M hFRx
    rw [hpdef]
    exact linv_aux a b eq N M D hD k V (fun h => (hL h).2) (fun h => (hR h).2)
      xh hmax1 hmax2 x (by omega) (by omega) (x.toNat + 1) x (by omega) (by omega)
      (le_refl x) hFRx (by intro i h1 h2; omega)
  obtain ⟨t, hu, hv, hmt, hstop⟩ :=
    snakeExt_spec a N b M eq (N - xh).toNat xh (xh - k) (by omega)
  have hxu : p.x = xh := by rw [hpdef]
  have hyy : p.y = xh - k := by rw [hpdef]
  have huu : p.u = xh + t := by rw [hpdef]; exact hu
  have hvv : p.v = (xh - k) + t := by rw [hpdef]; exact hv
  refine ⟨hPu, hLu, by omega, by omega, by omega, ?_, ?_, ?_⟩
  · intro i hi
    have hit : i < t := by omega
    have := hmt i hit
    rw [hxu, hyy]
    exact this
  · intro hadd
    have hcc : k = -(D:ℤ) ∨ (k ≠ (D:ℤ) ∧ V (k-1) < V (k+1)) := by
      rw [hpdef] at hadd
      simpa using hadd
    have hkD : k ≠ (D:ℤ) := by
      rcases hcc with h | h
      · intro heq; rw [heq] at h; omega
      · exact h.1
    obtain ⟨x', y', s', t', hval, hvalk, hs', ht', hst', hFRp⟩ := (hR hkD).1
    have hbp := FR_bounds a b eq N M hFRp
    have hxhval : xh = V (k+1) := by
      rw [hxh, if_pos hcc]
    refine ⟨by omega, by omega, ?_⟩
    intro hxN hyM
    have hs0 : s' = 0 := by
      by_contra hs1
      have := hs' (by omega)
      omega
    have ht0 : t' = 0 := by
      by_contra ht1
      have := ht' (by omega)
      omega
    have hxx : p.x = x' := by omega
    have hyyy : p.y - 1 = y' := by omega
    rw [hxx, hyyy]
    have : (D - 1) - s' - t' = D - 1 := by omega
    rw [this] at hFRp
    exact hFRp
  · intro hadd
    have hcc : ¬(k = -(D:ℤ) ∨ (k ≠ (D:ℤ) ∧ V (k-1) < V (k+1))) := by
      rw [hpdef] at hadd
      simpa using hadd
    have hkD : k ≠ -(D:ℤ) := fun heq => hcc (Or.inl heq)
    obtain ⟨x', y', s', t', hval, hvalk, hs', ht', hst', hFRp⟩ := (hL hkD).1
    have hbp := FR_bounds a b eq N M hFRp
    have hxhval : xh = V (k-1) + 1 := by
      rw [hxh, if_neg hcc]
    refine ⟨by omega, by omega, ?_⟩
    intro hxN hyM
    have hs0 : s' = 0 := by
      by_contra hs1
      have := hs' (by omega)
      omega
    have ht0 : t' = 0 := by
      by_contra ht1
      have := ht' (by omega)
      omega
    have hxx : p.x - 1 = x' := by omega
    have hyyy : p.y = y' := by omega
    rw [hxx, hyyy]
    have : (D - 1) - s' - t' = D - 1 := by omega
    rw [this] at hFRp
    exact hFRp

theorem listSlice_forall₂_elim (f g : ℤ → α) (R : α → α → Prop) (n : ℕ) (i0 j0 : ℤ)
    (h : List.Forall₂ R (listSlice f i0 (i0 + n)) (listSlice g j0 (j0 + n))) :
    ∀ i : ℕ, i < n → R (f (i0 + i)) (g (j0 + i)) := by
  intro i hi
  rw [List.forall₂_iff_get] at h
  obtain ⟨hlen, hget⟩ := h
  have hi1 : i < (listSlice f i0 (i0 + n)).length := by
    rw [listSlice_length]; omega
  have hi2 : i < (listSlice g j0 (j0 + n)).length := by
    rw [listSlice_length]; omega
  have := hget i hi1 hi2
  rwa [← List.getD_eq_get _ (f (i0 + i)) hi1, ← List.getD_eq_get _ (g (j0 + i)) hi2,
    listSlice_get f (f (i0 + i)) n i0 i (by omega),
    listSlice_get g (g (j0 + i)) n j0 i (by omega)] at this

theorem fesnake_step0 (a b : ℤ → α) (eq : α → α → Bool) (N M : ℤ)
    (hN : 0 ≤ N) (hM : 0 ≤ M) (V : ℤ → ℤ) (hV1 : V 1 = 0)
    (p : Snake) (hp : p = find_end_snake_of_further_reaching_dpath a N b M V 0 0 eq) :
    Pinv a b eq N M 0 0 p.u ∧ Linv a b eq N M 0 0 p.u ∧
    p.x = 0 ∧ p.y = 0 ∧ p.v = p.u ∧ 0 ≤ p.u ∧
    (∀ i : ℕ, (i:ℤ) < p.u → (i:ℤ) < N ∧ (i:ℤ) < M ∧ eq (a i) (b i) = true) := by
  have hpdef : p = ⟨0, 0, (snakeExt a N b M eq (N - 0).toNat 0 0).1,
      (snakeExt a N b M eq (N - 0).toNat 0 0).2, true⟩ := by
    rw [hp, find_end_snake_of_further_reaching_dpath]
    norm_num [hV1]
  have hPz : Pinv a b eq N M 0 0 (0:ℤ) := by
    refine ⟨0, 0, 0, 0, by omega, by omega, by omega, by omega, by omega, ?_⟩
    refine ⟨le_refl 0, hN, le_refl 0, hM, ?_⟩
    rw [listSlice_empty a (le_refl 0), listSlice_empty b (le_refl 0)]
    exact EditPath.nil
  obtain ⟨t, hu, hv, hmt, hstop⟩ := snakeExt_spec a N b M eq (N - 0).toNat 0 0 (by omega)
  have hxu : p.x = 0 := by rw [hpdef]
  have hyy : p.y = 0 := by rw [hpdef]
  have huu : p.u = t := by rw [hpdef]; simpa using hu
  have hvv : p.v = t := by rw [hpdef]; simpa using hv
  refine ⟨?_, ?_, hxu, hyy, by omega, by omega, ?_⟩
  · rw [hpdef]
    have := pinv_snake a b eq N M hPz
    simpa using this
  · intro x hFRx
    have hbx := FR_bounds a b eq N M hFRx
    obtain ⟨hh1, hh2, hh3, hh4, hpath⟩ := hFRx
    have hfa := editPath_zero_forall eq hpath
    have hx0 : x - 0 = x := by ring
    rw [hx0] at hfa
    have hmatch : ∀ i : ℕ, (i:ℤ) < x → eq (a i) (b i) = true := by
      intro i hi
      have hxn : x = 0 + (x.toNat : ℤ) := by omega
      rw [hxn] at hfa
      have := listSlice_forall₂_elim a b (fun p q => eq p q = true) x.toNat 0 0 hfa i (by omega)
      simpa using this
    rcases le_or_lt x p.u with hle | hlt
    · exact hle
    · rw [hpdef]
      apply snakeExt_reaches a N b M eq _ 0 0 x (by omega) (by omega)
      intro i hi1 hi2
      refine ⟨by omega, by omega, ?_⟩
      have harg : (0:ℤ) + (i - 0) = i := by ring
      rw [harg]
      have hin : i = ((i.toNat : ℕ) : ℤ) := by omega
      rw [hin]
      exact hmatch i.toNat (by omega)
  · intro i hi
    have hit : i < t := by omega
    have := hmt i hit
    simpa using this

/-! ### Scan-level invariants -/

theorem fwdScan_inl (a : ℤ → α) (N : ℤ) (b : ℤ → α) (M : ℤ) (eq : α → α → Bool)
    (delta D : ℤ) (V2 : ℤ → ℤ) :
    ∀ (count : ℕ) (k0 : ℤ) (V1 : ℤ → ℤ) (W : ℤ → ℤ),
    fwdScan a N b M eq delta D V2 count k0 V1 = .inl W →
    ∀ j : ℤ, (j < k0 ∨ (j - k0) % 2 ≠ 0 ∨ (k0 + 2*count) ≤ j) → W j = V1 j := by
  intro count
  induction count with
  | zero =>
    intro k0 V1 W h j hj
    simp only [fwdScan] at h
    cases h
    rfl
  | succ m ih =>
    intro k0 V1 W h j hj
    simp only [fwdScan] at h
    by_cases hc : delta % 2 ≠ 0 ∧ -(D-1) ≤ -(k0 - delta) ∧ -(k0 - delta) ≤ D-1 ∧
        upd V1 k0 (find_end_snake_of_further_reaching_dpath a N b M V1 D k0 eq).u k0 +
          V2 (-(k0 - delta)) ≥ N
    · rw [if_pos hc] at h
      cases h
    · rw [if_neg hc] at h
      have := ih (k0+2) _ W h j (by push_cast at hj ⊢; omega)
      rw [this]
      simp only [upd]
      rw [if_neg (by omega)]

theorem fwdScanInv (a : ℤ → α) (N : ℤ) (b : ℤ → α) (M : ℤ) (eq : α → α → Bool)
    (delta : ℤ) (D : ℕ) (V2 : ℤ → ℤ) (V1 : ℤ → ℤ)
    (hN : 0 ≤ N) (hM : 0 ≤ M)
    (hprev : 1 ≤ D → VLayer a b eq N M (D-1) V1) (hinit : D = 0 → V1 1 = 0) :
    ∀ (count : ℕ) (k : ℤ) (Vcur : ℤ → ℤ),
    k + 2*(count:ℤ) = (D:ℤ) + 2 → -(D:ℤ) ≤ k →
    (∀ j : ℤ, (j - k) % 2 ≠ 0 → Vcur j = V1 j) →
    (∀ j : ℤ, -(D:ℤ) ≤ j → j < k → (j + D) % 2 = 0 →
      Pinv a b eq N M D j (Vcur j) ∧ Linv a b eq N M D j (Vcur j)) →
    (∀ W, fwdScan a N b M eq delta (D:ℤ) V2 count k Vcur = .inl W →
      (∀ j : ℤ, -(D:ℤ) ≤ j → j ≤ D → (j + D) % 2 = 0 →
        Pinv a b eq N M D j (W j) ∧ Linv a b eq N M D j (W j)) ∧
      (∀ j : ℤ, (j - k) % 2 ≠ 0 → W j = V1 j) ∧
      (∀ k1 : ℤ, k ≤ k1 → k1 ≤ D → (k1 + D) % 2 = 0 →
        ¬(delta % 2 ≠ 0 ∧ -((D:ℤ)-1) ≤ -(k1 - delta) ∧ -(k1 - delta) ≤ (D:ℤ)-1 ∧
          W k1 + V2 (-(k1 - delta)) ≥ N))) ∧
    (∀ s, fwdScan a N b M eq delta (D:ℤ) V2 count k Vcur = .inr s →
      ∃ (k1 : ℤ) (p : Snake),
        s = ⟨p, false, 2*(D:ℤ) - 1⟩ ∧ 1 ≤ D ∧ -(D:ℤ) ≤ k1 ∧ k1 ≤ D ∧ (k1 + D) % 2 = 0 ∧
        delta % 2 ≠ 0 ∧ -((D:ℤ)-1) ≤ -(k1 - delta) ∧ -(k1 - delta) ≤ (D:ℤ)-1 ∧
        p.u + V2 (-(k1 - delta)) ≥ N ∧
        Pinv a b eq N M D k1 p.u ∧ Linv a b eq N M D k1 p.u ∧
        p.y = p.x - k1 ∧ p.v = p.u - k1 ∧ p.x ≤ p.u ∧
        (∀ i : ℕ, (i:ℤ) < p.u - p.x →
          p.x + i < N ∧ p.y + i < M ∧ eq (a (p.x + i)) (b (p.y + i)) = true) ∧
        (p.add = true → 0 ≤ p.x ∧ 1 ≤ p.y ∧
          (p.x ≤ N → p.y ≤ M → FR a b eq N M (D-1) p.x (p.y - 1))) ∧
        (p.add = false → 1 ≤ p.x ∧ 0 ≤ p.y ∧
          (p.x ≤ N → p.y ≤ M → FR a b eq N M (D-1) (p.x - 1) p.y))) := by
  intro count
  induction count with
  | zero =>
    intro k Vcur hk hklow hVpar hVlow
    constructor
    · intro W hW
      simp only [fwdScan] at hW
      cases hW
      refine ⟨?_, fun j hj => hVpar j hj, ?_⟩
      · intro j hj1 hj2 hj3
        exact hVlow j hj1 (by omega) hj3
      · intro k1 h1 h2 h3
        omega
    · intro s hs
      simp [fwdScan] at hs
  | succ m ih =>
    intro k Vcur hk hklow hVpar hVlow
    have hkD : k ≤ (D:ℤ) := by push_cast at hk; omega
    have hkpar : (k + D) % 2 = 0 := by push_cast at hk ⊢; omega
    -- the processing of diagonal k
    set p := find_end_snake_of_further_reaching_dpath a N b M Vcur (D:ℤ) k eq with hpdef
    have hstep : Pinv a b eq N M D k p.u ∧ Linv a b eq N M D k p.u ∧
        p.y = p.x - k ∧ p.v = p.u - k ∧ p.x ≤ p.u ∧
        (∀ i : ℕ, (i:ℤ) < p.u - p.x →
          p.x + i < N ∧ p.y + i < M ∧ eq (a (p.x + i)) (b (p.y + i)) = true) ∧
        (1 ≤ D → p.add = true → 0 ≤ p.x ∧ 1 ≤ p.y ∧
          (p.x ≤ N → p.y ≤ M → FR a b eq N M (D-1) p.x (p.y - 1))) ∧
        (1 ≤ D → p.add = false → 1 ≤ p.x ∧ 0 ≤ p.y ∧
          (p.x ≤ N → p.y ≤ M → FR a b eq N M (D-1) (p.x - 1) p.y)) := by
      rcases Nat.eq_zero_or_pos D with hD0 | hDpos
      · subst hD0
        have hk0 : k = 0 := by push_cast at hk; omega
        subst hk0
        obtain ⟨hP, hL, hx, hy, hv, hu0, hmt⟩ :=
          fesnake_step0 a b eq N M hN hM Vcur (by
            rw [hVpar 1 (by omega)]
            exact hinit rfl) p (by rw [hpdef]; norm_num)
        refine ⟨hP, hL, by omega, by omega, by omega, ?_, by omega, by omega⟩
        intro i hi
        rw [hx, hy]
        have := hmt i (by omega)
        simpa using this
      · have hres := fesnake_step a b eq N M D hDpos k Vcur hklow hkD
          (by
            intro hkne
            have hpar : ((k-1) + (D-1 : ℕ)) % 2 = 0 := by push_cast [hDpos] at hkpar ⊢; omega
            have := hprev hDpos (k-1) (by push_cast [hDpos]; omega) (by push_cast [hDpos]; omega) hpar
            rwa [hVpar (k-1) (by omega)])
          (by
            intro hkne
            have hpar : ((k+1) + (D-1 : ℕ)) % 2 = 0 := by push_cast [hDpos] at hkpar ⊢; omega
            have := hprev hDpos (k+1) (by push_cast [hDpos]; omega) (by push_cast [hDpos]; omega) hpar
            rwa [hVpar (k+1) (by omega)])
          p hpdef
        obtain ⟨h1, h2, h3, h4, h5, h6, h7, h8⟩ := hres
        exact ⟨h1, h2, h3, h4, h5, h6, fun _ => h7, fun _ => h8⟩
    obtain ⟨hPu, hLu, hyx, hvu, hxu, hmt, hC5, hC6⟩ := hstep
    by_cases hfire : delta % 2 ≠ 0 ∧ -((D:ℤ)-1) ≤ -(k - delta) ∧ -(k - delta) ≤ (D:ℤ)-1 ∧
        upd Vcur k p.u k + V2 (-(k - delta)) ≥ N
    · constructor
      · intro W hW
        exfalso
        simp only [fwdScan, ← hpdef] at hW
        rw [if_pos hfire] at hW
        cases hW
      · intro s hs
        simp only [fwdScan, ← hpdef] at hs
        rw [if_pos hfire] at hs
        have hD1 : 1 ≤ D := by
          rcases Nat.eq_zero_or_pos D with h0 | h1
          · exfalso; push_cast [h0] at hfire; omega
          · exact h1
        have hfu : upd Vcur k p.u k = p.u := by simp [upd]
        refine ⟨k, p, ?_, hD1, hklow, hkD, hkpar, hfire.1, hfire.2.1, hfire.2.2.1, ?_,
          hPu, hLu, hyx, hvu, hxu, hmt, hC5 hD1, hC6 hD1⟩
        · cases hs; rfl
        · have := hfire.2.2.2
          rwa [hfu] at this
    · have hnext := ih (k+2) (upd Vcur k p.u)
        (by push_cast at hk ⊢; omega) (by omega)
        (by
          intro j hj
          simp only [upd]
          rw [if_neg (by omega)]
          exact hVpar j (by omega))
        (by
          intro j hj1 hj2 hj3
          simp only [upd]
          by_cases hjk : j = k
          · subst hjk
            simp only [if_pos rfl]
            exact ⟨hPu, hLu⟩
          · rw [if_neg hjk]
            exact hVlow j hj1 (by omega) hj3)
      constructor
      · intro W hW
        have hWrec : fwdScan a N b M eq delta (D:ℤ) V2 m (k+2) (upd Vcur k p.u) = .inl W := by
          simp only [fwdScan, ← hpdef] at hW
          rwa [if_neg hfire] at hW
        obtain ⟨hA, hB, hC⟩ := hnext.1 W hWrec
        refine ⟨hA, ?_, ?_⟩
        · intro j hj
          exact hB j (by omega)
        · intro k1 h1 h2 h3
          rcases eq_or_lt_of_le h1 with heq | hlt
          · have hWk : W k1 = p.u := by
              have hfr := fwdScan_inl a N b M eq delta (D:ℤ) V2 m (k+2)
                (upd Vcur k p.u) W hWrec k1 (by omega)
              rw [hfr, ← heq]
              simp [upd]
            intro hcon
            apply hfire
            rw [hWk] at hcon
            rw [← heq] at hcon
            have hfu : upd Vcur k p.u k = p.u := by simp [upd]
            exact ⟨hcon.1, hcon.2.1, hcon.2.2.1, by rw [hfu]; exact hcon.2.2.2⟩
          · exact hC k1 (by omega) h2 h3
      · intro s hs
        have hsrec : fwdScan a N b M eq delta (D:ℤ) V2 m (k+2) (upd Vcur k p.u) = .inr s := by
          simp only [fwdScan, ← hpdef] at hs
          rwa [if_neg hfire] at hs
        exact hnext.2 s hsrec

theorem revScan_inl2 (a : ℤ → α) (N : ℤ) (b : ℤ → α) (M : ℤ) (eq : α → α → Bool)
    (delta D : ℤ) (V1 : ℤ → ℤ) :
    ∀ (count : ℕ) (k0 : ℤ) (V2 : ℤ → ℤ) (W : ℤ → ℤ),
    revScan a N b M eq delta D V1 count k0 V2 = .inl W →
    ∀ j : ℤ, (j < k0 ∨ (j - k0) % 2 ≠ 0 ∨ (k0 + 2*count) ≤ j) → W j = V2 j := by
  intro count
  induction count with
  | zero =>
    intro k0 V2 W h j hj
    simp only [revScan] at h
    cases h
    rfl
  | succ m ih =>
    intro k0 V2 W h j hj
    simp only [revScan] at h
    by_cases hc : delta % 2 = 0 ∧ -D ≤ -(k0 - delta) ∧ -(k0 - delta) ≤ D ∧
        V1 (-(k0 - delta)) + upd V2 k0 (find_end_snake_of_further_reaching_dpath
          (fun i => a (N-1-i)) N (fun i => b (M-1-i)) M V2 D k0 eq).u k0 ≥ N
    · rw [if_pos hc] at h
      cases h
    · rw [if_neg hc] at h
      have := ih (k0+2) _ W h j (by push_cast at hj ⊢; omega)
      rw [this]
      simp only [upd]
      rw [if_neg (by omega)]

theorem revScanInv (a : ℤ → α) (N : ℤ) (b : ℤ → α) (M : ℤ) (eq : α → α → Bool)
    (delta : ℤ) (D : ℕ) (V1 : ℤ → ℤ) (V2 : ℤ → ℤ)
    (hN : 0 ≤ N) (hM : 0 ≤ M)
    (hprev : 1 ≤ D → VLayer (fun i => a (N-1-i)) (fun i => b (M-1-i)) eq N M (D-1) V2)
    (hinit : D = 0 → V2 1 = 0) :
    ∀ (count : ℕ) (k : ℤ) (Vcur : ℤ → ℤ),
    k + 2*(count:ℤ) = (D:ℤ) + 2 → -(D:ℤ) ≤ k →
    (∀ j : ℤ, (j - k) % 2 ≠ 0 → Vcur j = V2 j) →
    (∀ j : ℤ, -(D:ℤ) ≤ j → j < k → (j + D) % 2 = 0 →
      Pinv (fun i => a (N-1-i)) (fun i => b (M-1-i)) eq N M D j (Vcur j) ∧
      Linv (fun i => a (N-1-i)) (fun i => b (M-1-i)) eq N M D j (Vcur j)) →
    (∀ W, revScan a N b M eq delta (D:ℤ) V1 count k Vcur = .inl W →
      (∀ j : ℤ, -(D:ℤ) ≤ j → j ≤ D → (j + D) % 2 = 0 →
        Pinv (fun i => a (N-1-i)) (fun i => b (M-1-i)) eq N M D j (W j) ∧
        Linv (fun i => a (N-1-i)) (fun i => b (M-1-i)) eq N M D j (W j)) ∧
      (∀ j : ℤ, (j - k) % 2 ≠ 0 → W j = V2 j) ∧
      (∀ k2 : ℤ, k ≤ k2 → k2 ≤ D → (k2 + D) % 2 = 0 →
        ¬(delta % 2 = 0 ∧ -(D:ℤ) ≤ -(k2 - delta) ∧ -(k2 - delta) ≤ (D:ℤ) ∧
          V1 (-(k2 - delta)) + W k2 ≥ N))) ∧
    (∀ s, revScan a N b M eq delta (D:ℤ) V1 count k Vcur = .inr s →
      ∃ (k2 : ℤ) (p : Snake),
        s = ⟨⟨N - p.u, M - p.v, N - p.x, M - p.y, p.add⟩, true, 2*(D:ℤ)⟩ ∧
        -(D:ℤ) ≤ k2 ∧ k2 ≤ D ∧ (k2 + D) % 2 = 0 ∧
        delta % 2 = 0 ∧ -(D:ℤ) ≤ -(k2 - delta) ∧ -(k2 - delta) ≤ (D:ℤ) ∧
        V1 (-(k2 - delta)) + p.u ≥ N ∧
        Pinv (fun i => a (N-1-i)) (fun i => b (M-1-i)) eq N M D k2 p.u ∧
        Linv (fun i => a (N-1-i)) (fun i => b (M-1-i)) eq N M D k2 p.u ∧
        p.y = p.x - k2 ∧ p.v = p.u - k2 ∧ p.x ≤ p.u ∧
        (∀ i : ℕ, (i:ℤ) < p.u - p.x →
          p.x + i < N ∧ p.y + i < M ∧
          eq (a (N-1-(p.x + i))) (b (M-1-(p.y + i))) = true) ∧
        (1 ≤ D → p.add = true → 0 ≤ p.x ∧ 1 ≤ p.y ∧
          (p.x ≤ N → p.y ≤ M →
            FR (fun i => a (N-1-i)) (fun i => b (M-1-i)) eq N M (D-1) p.x (p.y - 1))) ∧
        (1 ≤ D → p.add = false → 1 ≤ p.x ∧ 0 ≤ p.y ∧
          (p.x ≤ N → p.y ≤ M →
            FR (fun i => a (N-1-i)) (fun i => b (M-1-i)) eq N M (D-1) (p.x - 1) p.y)) ∧
        (D = 0 → p.x = 0 ∧ p.y = 0)) := by
  intro count
  induction count with
  | zero =>
    intro k Vcur hk hklow hVpar hVlow
    constructor
    · intro W hW
      simp only [revScan] at hW
      cases hW
      refine ⟨?_, fun j hj => hVpar j hj, ?_⟩
      · intro j hj1 hj2 hj3
        exact hVlow j hj1 (by omega) hj3
      · intro k2 h1 h2 h3
        omega
    · intro s hs
      simp [revScan] at hs
  | succ m ih =>
    intro k Vcur hk hklow hVpar hVlow
    have hkD : k ≤ (D:ℤ) := by push_cast at hk; omega
    have hkpar : (k + D) % 2 = 0 := by push_cast at hk ⊢; omega
    set p := find_end_snake_of_further_reaching_dpath
      (fun i => a (N-1-i)) N (fun i => b (M-1-i)) M Vcur (D:ℤ) k eq with hpdef
    have hstep : Pinv (fun i => a (N-1-i)) (fun i => b (M-1-i)) eq N M D k p.u ∧
        Linv (fun i => a (N-1-i)) (fun i => b (M-1-i)) eq N M D k p.u ∧
        p.y = p.x - k ∧ p.v = p.u - k ∧ p.x ≤ p.u ∧
        (∀ i : ℕ, (i:ℤ) < p.u - p.x →
          p.x + i < N ∧ p.y + i < M ∧
          eq (a (N-1-(p.x + i))) (b (M-1-(p.y + i))) = true) ∧
        (1 ≤ D → p.add = true → 0 ≤ p.x ∧ 1 ≤ p.y ∧
          (p.x ≤ N → p.y ≤ M →
            FR (fun i => a (N-1-i)) (fun i => b (M-1-i)) eq N M (D-1) p.x (p.y - 1))) ∧
        (1 ≤ D → p.add = false → 1 ≤ p.x ∧ 0 ≤ p.y ∧
          (p.x ≤ N → p.y ≤ M →
            FR (fun i => a (N-1-i)) (fun i => b (M-1-i)) eq N M (D-1) (p.x - 1) p.y)) ∧
        (D = 0 → p.x = 0 ∧ p.y = 0) := by
      rcases Nat.eq_zero_or_pos D with hD0 | hDpos
      · subst hD0
        have hk0 : k = 0 := by push_cast at hk; omega
        subst hk0
        obtain ⟨hP, hL, hx, hy, hv, hu0, hmt⟩ :=
          fesnake_step0 (fun i => a (N-1-i)) (fun i => b (M-1-i)) eq N M hN hM Vcur (by
            rw [hVpar 1 (by omega)]
            exact hinit rfl) p (by rw [hpdef]; norm_num)
        refine ⟨hP, hL, by omega, by omega, by omega, ?_, by omega, by omega,
          fun _ => ⟨hx, hy⟩⟩
        intro i hi
        rw [hx, hy]
        have := hmt i (by omega)
        simpa using this
      · have hres := fesnake_step (fun i => a (N-1-i)) (fun i => b (M-1-i)) eq N M D hDpos k
          Vcur hklow hkD
          (by
            intro hkne
            have hpar : ((k-1) + (D-1 : ℕ)) % 2 = 0 := by push_cast [hDpos] at hkpar ⊢; omega
            have := hprev hDpos (k-1) (by push_cast [hDpos]; omega)
              (by push_cast [hDpos]; omega) hpar
            rwa [hVpar (k-1) (by omega)])
          (by
            intro hkne
            have hpar : ((k+1) + (D-1 : ℕ)) % 2 = 0 := by push_cast [hDpos] at hkpar ⊢; omega
            have := hprev hDpos (k+1) (by push_cast [hDpos]; omega)
              (by push_cast [hDpos]; omega) hpar
            rwa [hVpar (k+1) (by omega)])
          p hpdef
        obtain ⟨h1, h2, h3, h4, h5, h6, h7, h8⟩ := hres
        exact ⟨h1, h2, h3, h4, h5, h6, fun _ => h7, fun _ => h8,
          fun h0 => absurd h0 (by omega)⟩
    obtain ⟨hPu, hLu, hyx, hvu, hxu, hmt, hC5, hC6, hD0xy⟩ := hstep
    by_cases hfire : delta % 2 = 0 ∧ -(D:ℤ) ≤ -(k - delta) ∧ -(k - delta) ≤ (D:ℤ) ∧
        V1 (-(k - delta)) + upd Vcur k p.u k ≥ N
    · constructor
      · intro W hW
        exfalso
        simp only [revScan, ← hpdef] at hW
        rw [if_pos hfire] at hW
        cases hW
      · intro s hs
        simp only [revScan, ← hpdef] at hs
        rw [if_pos hfire] at hs
        have hfu : upd Vcur k p.u k = p.u := by simp [upd]
        refine ⟨k, p, ?_, hklow, hkD, hkpar, hfire.1, hfire.2.1, hfire.2.2.1, ?_,
          hPu, hLu, hyx, hvu, hxu, hmt, hC5, hC6, hD0xy⟩
        · cases hs; rfl
        · have := hfire.2.2.2
          rwa [hfu] at this
    · have hnext := ih (k+2) (upd Vcur k p.u)
        (by push_cast at hk ⊢; omega) (by omega)
        (by
          intro j hj
          simp only [upd]
          rw [if_neg (by omega)]
          exact hVpar j (by omega))
        (by
          intro j hj1 hj2 hj3
          simp only [upd]
          by_cases hjk : j = k
          · subst hjk
            simp only [if_pos rfl]
            exact ⟨hPu, hLu⟩
          · rw [if_neg hjk]
            exact hVlow j hj1 (by omega) hj3)
      constructor
      · intro W hW
        have hWrec : revScan a N b M eq delta (D:ℤ) V1 m (k+2) (upd Vcur k p.u) = .inl W := by
          simp only [revScan, ← hpdef] at hW
          rwa [if_neg hfire] at hW
        obtain ⟨hA, hB, hC⟩ := hnext.1 W hWrec
        refine ⟨hA, ?_, ?_⟩
        · intro j hj
          exact hB j (by omega)
        · intro k2 h1 h2 h3
          rcases eq_or_lt_of_le h1 with heq | hlt
          · have hWk : W k2 = p.u := by
              have hfr := revScan_inl2 a N b M eq delta (D:ℤ) V1 m (k+2)
                (upd Vcur k p.u) W hWrec k2 (by omega)
              rw [hfr, ← heq]
              simp [upd]
            intro hcon
            apply hfire
            rw [hWk] at hcon
            rw [← heq] at hcon
            have hfu : upd Vcur k p.u k = p.u := by simp [upd]
            exact ⟨hcon.1, hcon.2.1, hcon.2.2.1, by rw [hfu]; exact hcon.2.2.2⟩
          · exact hC k2 (by omega) h2 h3
      · intro s hs
        have hsrec : revScan a N b M eq delta (D:ℤ) V1 m (k+2) (upd Vcur k p.u) = .inr s := by
          simp only [revScan, ← hpdef] at hs
          rwa [if_neg hfire] at hs
        exact hnext.2 s hsrec

/-! ### Slice flips and led monotonicity -/


theorem slice_split (f : ℤ → α) {L : ℤ} {P Q : List α} (hL : 0 ≤ L)
    (h : listSlice f 0 L = P ++ Q) :
    P = listSlice f 0 (P.length) ∧ Q = listSlice f (P.length) L ∧ (P.length : ℤ) ≤ L := by
  have hlen : P.length + Q.length = L.toNat := by
    have := congrArg List.length h
    rw [listSlice_length] at this
    simp at this
    omega
  have hPL : (P.length : ℤ) ≤ L := by omega
  have hsp : listSlice f 0 L = listSlice f 0 (P.length) ++ listSlice f (P.length) L :=
    listSlice_append f (by omega) hPL
  rw [hsp] at h
  have hlen2 : (listSlice f 0 (P.length : ℤ)).length = P.length := by
    rw [listSlice_length]; omega
  have hinj := List.append_inj h.symm hlen2.symm
  exact ⟨hinj.1, hinj.2, hPL⟩

theorem led_slice_suffix_mono (a b : ℤ → α) (eq : α → α → Bool) {N M : ℤ}
    {x y x' y' : ℤ} (hx : x ≤ x') (hd : x' - x = y' - y) (hy : y ≤ y')
    (hx0 : 0 ≤ x) (hy0 : 0 ≤ y) (hxN : x' ≤ N) (hyM : y' ≤ M) :
    led eq (listSlice a x' N) (listSlice b y' M) ≤
      led eq (listSlice a x N) (listSlice b y M) := by
  have hA : listSlice a x N = listSlice a x x' ++ listSlice a x' N :=
    listSlice_append a hx hxN
  have hB : listSlice b y M = listSlice b y y' ++ listSlice b y' M :=
    listSlice_append b hy hyM
  have hlenA : (listSlice a x x').length = (x' - x).toNat := listSlice_length a x x'
  have hlenB : (listSlice b y y').length = (x' - x).toNat := by
    rw [listSlice_length]; omega
  have hdropA : (listSlice a x N).drop (x' - x).toNat = listSlice a x' N := by
    rw [hA, ← hlenA, List.drop_left]
  have hdropB : (listSlice b y M).drop (x' - x).toNat = listSlice b y' M := by
    rw [hB, ← hlenB, List.drop_left]
  calc led eq (listSlice a x' N) (listSlice b y' M)
      = led eq ((listSlice a x N).drop (x' - x).toNat)
          ((listSlice b y M).drop (x' - x).toNat) := by rw [hdropA, hdropB]
    _ ≤ led eq (listSlice a x N) (listSlice b y M) := led_drop_le eq _ _ _

theorem led_slice_prefix_mono (a b : ℤ → α) (eq : α → α → Bool)
    {x y x' y' : ℤ} (hx : x' ≤ x) (hd : x - x' = y - y') (hy : y' ≤ y)
    (hx0 : 0 ≤ x') (hy0 : 0 ≤ y') :
    led eq (listSlice a 0 x') (listSlice b 0 y') ≤
      led eq (listSlice a 0 x) (listSlice b 0 y) := by
  have hA : listSlice a 0 x = listSlice a 0 x' ++ listSlice a x' x :=
    listSlice_append a (by omega) (by omega)
  have hB : listSlice b 0 y = listSlice b 0 y' ++ listSlice b y' y :=
    listSlice_append b (by omega) (by omega)
  have hlenA : (listSlice a x' x).length = (x - x').toNat := listSlice_length a x' x
  have hlenB : (listSlice b y' y).length = (x - x').toNat := by
    rw [listSlice_length]; omega
  have hdropA : (listSlice a 0 x).reverse.drop (x - x').toNat = (listSlice a 0 x').reverse := by
    rw [hA, List.reverse_append, ← hlenA, ← List.length_reverse (listSlice a x' x),
      List.drop_left]
  have hdropB : (listSlice b 0 y).reverse.drop (x - x').toNat = (listSlice b 0 y').reverse := by
    rw [hB, List.reverse_append, ← hlenB, ← List.length_reverse (listSlice b y' y),
      List.drop_left]
  calc led eq (listSlice a 0 x') (listSlice b 0 y')
      = led eq (listSlice a 0 x').reverse (listSlice b 0 y').reverse :=
        (led_reverse eq _ _).symm
    _ = led eq ((listSlice a 0 x).reverse.drop (x - x').toNat)
        ((listSlice b 0 y).reverse.drop (x - x').toNat) := by rw [hdropA, hdropB]
    _ ≤ led eq (listSlice a 0 x).reverse (listSlice b 0 y).reverse := led_drop_le eq _ _ _
    _ = led eq (listSlice a 0 x) (listSlice b 0 y) := led_reverse eq _ _

theorem listSlice_rev (f : ℤ → α) (N : ℤ) :
    ∀ (n : ℕ) (x : ℤ), x = (n:ℤ) → x ≤ N →
    listSlice (fun i => f (N-1-i)) 0 x = (listSlice f (N-x) N).reverse := by
  intro n
  induction n with
  | zero =>
    intro x hx hxN
    subst hx
    rw [listSlice_empty _ (by omega), listSlice_empty f (by omega)]
    rfl
  | succ m ih =>
    intro x hx hxN
    have h1 : listSlice (fun i => f (N-1-i)) 0 x =
        listSlice (fun i => f (N-1-i)) 0 (x-1) ++ [f (N-1-(x-1))] := by
      have hxx : x = (x - 1) + 1 := by ring
      nth_rewrite 1 [hxx]
      rw [listSlice_snoc _ (by omega)]
    have h2 : listSlice f (N-x) N = f (N-x) :: listSlice f (N-x+1) N := by
      rw [listSlice_cons f (by omega)]
    rw [h1, h2, List.reverse_cons, ih (x-1) (by omega) (by omega)]
    have harg1 : N - (x-1) = N - x + 1 := by ring
    have harg2 : N - 1 - (x-1) = N - x := by ring
    rw [harg1, harg2]

theorem FR_rev_iff (a b : ℤ → α) (eq : α → α → Bool) (N M : ℤ) (D : ℕ) (x y : ℤ) :
    FR (fun i => a (N-1-i)) (fun i => b (M-1-i)) eq N M D x y ↔
    (0 ≤ x ∧ x ≤ N ∧ 0 ≤ y ∧ y ≤ M ∧
      EditPath eq D (listSlice a (N-x) N) (listSlice b (M-y) M)) := by
  constructor
  · intro ⟨h1, h2, h3, h4, hp⟩
    refine ⟨h1, h2, h3, h4, ?_⟩
    rw [listSlice_rev a N x.toNat x (by omega) h2,
      listSlice_rev b M y.toNat y (by omega) h4] at hp
    exact (editPath_reverse_iff eq).mp hp
  · intro ⟨h1, h2, h3, h4, hp⟩
    refine ⟨h1, h2, h3, h4, ?_⟩
    rw [listSlice_rev a N x.toNat x (by omega) h2,
      listSlice_rev b M y.toNat y (by omega) h4]
    exact (editPath_reverse_iff eq).mpr hp

/-! ### Crossing soundness and completeness tools -/


theorem distLed_rev (a : ℤ → α) (N : ℤ) (b : ℤ → α) (M : ℤ) (eq : α → α → Bool)
    (hN : 0 ≤ N) (hM : 0 ≤ M) :
    distLed (fun i => a (N-1-i)) N (fun i => b (M-1-i)) M eq = distLed a N b M eq := by
  unfold distLed
  rw [listSlice_rev a N N.toNat N (by omega) le_rfl,
      listSlice_rev b M M.toNat M (by omega) le_rfl,
      show N - N = (0:ℤ) by ring, show M - M = (0:ℤ) by ring, led_reverse]

theorem pinv_grid_or_short (a : ℤ → α) (N : ℤ) (b : ℤ → α) (M : ℤ) (eq : α → α → Bool)
    (D : ℕ) (k v : ℤ) (h : Pinv a b eq N M D k v) :
    FR a b eq N M D v (v - k) ∨
    ((distLed a N b M eq : ℤ) ≤ (D:ℤ) + (k - (N - M)) - 2 ∨
     (distLed a N b M eq : ℤ) ≤ (D:ℤ) - (k - (N - M)) - 2) := by
  obtain ⟨x, y, s, t, hv, hvk, hs, ht, hst, hFR⟩ := h
  have hb := FR_bounds a b eq N M hFR
  rcases Nat.eq_zero_or_pos s with hs0 | hspos
  · rcases Nat.eq_zero_or_pos t with ht0 | htpos
    · left
      have hDst : D - s - t = D := by omega
      have hxv : x = v := by omega
      have hyv : y = v - k := by omega
      rw [hDst, hxv, hyv] at hFR
      exact hFR
    · -- vertical overshoot: y = M
      right; right
      have hyM : y = M := ht htpos
      obtain ⟨h1, h2, h3, h4, hp⟩ := hFR
      have hL1 : led eq (listSlice a 0 x) (listSlice b 0 M) ≤ D - s - t := by
        rw [← hyM]; exact led_le_of_editPath eq hp
      have hsp : distLed a N b M eq ≤
          led eq (listSlice a 0 x) (listSlice b 0 M) +
          led eq (listSlice a x N) (listSlice b M M) := by
        calc distLed a N b M eq
            = led eq (listSlice a 0 x ++ listSlice a x N)
                (listSlice b 0 M ++ listSlice b M M) := by
              rw [← listSlice_append a h1 h2, ← listSlice_append b (by omega) le_rfl]
              rfl
          _ ≤ _ := led_append_le eq _ _ _ _
      rw [listSlice_empty b le_rfl, led_nil_r, listSlice_length] at hsp
      omega
  · -- horizontal overshoot: x = N
    right; left
    have hxN : x = N := hs hspos
    obtain ⟨h1, h2, h3, h4, hp⟩ := hFR
    have hL1 : led eq (listSlice a 0 N) (listSlice b 0 y) ≤ D - s - t := by
      rw [← hxN]; exact led_le_of_editPath eq hp
    have hsp : distLed a N b M eq ≤
        led eq (listSlice a 0 N) (listSlice b 0 y) +
        led eq (listSlice a N N) (listSlice b y M) := by
      calc distLed a N b M eq
          = led eq (listSlice a 0 N ++ listSlice a N N)
              (listSlice b 0 y ++ listSlice b y M) := by
            rw [← listSlice_append a (by omega) le_rfl, ← listSlice_append b h3 h4]
            rfl
        _ ≤ _ := led_append_le eq _ _ _ _
    rw [listSlice_empty a le_rfl, led_nil_l, listSlice_length] at hsp
    omega

theorem meet_short (a : ℤ → α) (N : ℤ) (b : ℤ → α) (M : ℤ) (eq : α → α → Bool)
    {c1 c2 : ℕ} {x1 y1 x2 y2 : ℤ}
    (hF1 : FR a b eq N M c1 x1 y1)
    (hF2 : FR (fun i => a (N-1-i)) (fun i => b (M-1-i)) eq N M c2 x2 y2)
    (hmeet : N ≤ x1 + x2) (hdiag : (x1 - y1) + (x2 - y2) = N - M) :
    distLed a N b M eq ≤ c1 + c2 := by
  obtain ⟨ha1, ha2, ha3, ha4, hp1⟩ := hF1
  obtain ⟨hb1, hb2, hb3, hb4, hp2⟩ := (FR_rev_iff a b eq N M c2 x2 y2).mp hF2
  have hL1 : led eq (listSlice a 0 (N - x2)) (listSlice b 0 (M - y2)) ≤ c1 := by
    calc led eq (listSlice a 0 (N - x2)) (listSlice b 0 (M - y2))
        ≤ led eq (listSlice a 0 x1) (listSlice b 0 y1) :=
          led_slice_prefix_mono a b eq (by omega) (by omega) (by omega) (by omega) (by omega)
      _ ≤ c1 := led_le_of_editPath eq hp1
  have hL2 : led eq (listSlice a (N - x2) N) (listSlice b (M - y2) M) ≤ c2 :=
    led_le_of_editPath eq hp2
  have hsp : distLed a N b M eq ≤
      led eq (listSlice a 0 (N - x2)) (listSlice b 0 (M - y2)) +
      led eq (listSlice a (N - x2) N) (listSlice b (M - y2) M) := by
    calc distLed a N b M eq
        = led eq (listSlice a 0 (N - x2) ++ listSlice a (N - x2) N)
            (listSlice b 0 (M - y2) ++ listSlice b (M - y2) M) := by
          rw [← listSlice_append a (by omega) (by omega),
              ← listSlice_append b (by omega) (by omega)]
          rfl
      _ ≤ _ := led_append_le eq _ _ _ _
  omega

theorem led_split_points (a : ℤ → α) (N : ℤ) (b : ℤ → α) (M : ℤ) (eq : α → α → Bool)
    (hN : 0 ≤ N) (hM : 0 ≤ M) (c : ℕ) (hc : c ≤ distLed a N b M eq) :
    ∃ x y : ℤ, FR a b eq N M c x y ∧
      FR (fun i => a (N-1-i)) (fun i => b (M-1-i)) eq N M
        (distLed a N b M eq - c) (N - x) (M - y) ∧
      ((c:ℤ) + x + y) % 2 = 0 := by
  have hpath : EditPath eq (distLed a N b M eq) (listSlice a 0 N) (listSlice b 0 M) :=
    editPath_of_led eq _ _
  obtain ⟨A1, A2, B1, B2, hA, hB, h1, h2⟩ := editPath_split eq hpath c hc
  obtain ⟨hA1, hA2, hAL⟩ := slice_split a hN hA
  obtain ⟨hB1, hB2, hBL⟩ := slice_split b hM hB
  refine ⟨(A1.length : ℤ), (B1.length : ℤ), ⟨by omega, hAL, by omega, hBL, ?_⟩, ?_, ?_⟩
  · rw [← hA1, ← hB1]; exact h1
  · refine ⟨by omega, by omega, by omega, by omega, ?_⟩
    rw [listSlice_rev a N (N - A1.length).toNat (N - A1.length) (by omega) (by omega),
        listSlice_rev b M (M - B1.length).toNat (M - B1.length) (by omega) (by omega),
        show N - (N - (A1.length:ℤ)) = (A1.length:ℤ) by ring,
        show M - (M - (B1.length:ℤ)) = (B1.length:ℤ) by ring]
    apply editPath_reverse
    rw [← hA2, ← hB2]
    exact h2
  · have := editPath_parity eq h1
    omega

/-! ### Fire processing: a returned crossing is a correct middle snake -/


theorem splice_ge (a : ℤ → α) (N : ℤ) (b : ℤ → α) (M : ℤ) (eq : α → α → Bool)
    (x y : ℤ) (hx0 : 0 ≤ x) (hxN : x ≤ N) (hy0 : 0 ≤ y) (hyM : y ≤ M) :
    distLed a N b M eq ≤
      led eq (listSlice a 0 x) (listSlice b 0 y) +
      led eq (listSlice a x N) (listSlice b y M) := by
  calc distLed a N b M eq
      = led eq (listSlice a 0 x ++ listSlice a x N) (listSlice b 0 y ++ listSlice b y M) := by
        rw [← listSlice_append a hx0 hxN, ← listSlice_append b hy0 hyM]
        rfl
    _ ≤ _ := led_append_le eq _ _ _ _

theorem matched_elim_slices (a b : ℤ → α) (eq : α → α → Bool) (N M : ℤ)
    (x u y v : ℤ) (hxu : x ≤ u) (huN : u ≤ N) (hyv : y ≤ v) (hvM : v ≤ M)
    (hd : u - x = v - y)
    (hm : ∀ i : ℕ, (i:ℤ) < u - x → eq (a (x + i)) (b (y + i)) = true) :
    led eq (listSlice a x N) (listSlice b y M) =
      led eq (listSlice a u N) (listSlice b v M) := by
  have hfa := listSlice_forall₂ a b (fun s t => eq s t = true) (u - x).toNat x y
    (fun i hi => hm i (by omega))
  rw [show x + (((u - x).toNat : ℕ) : ℤ) = u from by omega,
      show y + (((u - x).toNat : ℕ) : ℤ) = v from by omega] at hfa
  rw [listSlice_append a hxu huN, listSlice_append b hyv hvM]
  exact led_matched_eliml eq hfa _ _

theorem fwd_fire_ok (a : ℤ → α) (N : ℤ) (b : ℤ → α) (M : ℤ) (eq : α → α → Bool)
    (hN : 0 ≤ N) (hM : 0 ≤ M) (D : ℕ) (hD1 : 1 ≤ D) (k1 : ℤ) (p : Snake) (v2 : ℤ)
    (hk1l : -(D:ℤ) ≤ k1) (hk1r : k1 ≤ (D:ℤ))
    (hk2l : -((D:ℤ)-1) ≤ -(k1 - (N - M))) (hk2r : -(k1 - (N - M)) ≤ (D:ℤ)-1)
    (hPu : Pinv a b eq N M D k1 p.u)
    (hP2 : Pinv (fun i => a (N-1-i)) (fun i => b (M-1-i)) eq N M (D-1) (-(k1 - (N - M))) v2)
    (hcross : p.u + v2 ≥ N)
    (hyx : p.y = p.x - k1) (hvu : p.v = p.u - k1) (hxu : p.x ≤ p.u)
    (hmt : ∀ i : ℕ, (i:ℤ) < p.u - p.x →
      p.x + i < N ∧ p.y + i < M ∧ eq (a (p.x + i)) (b (p.y + i)) = true)
    (hC5 : p.add = true → 0 ≤ p.x ∧ 1 ≤ p.y ∧
      (p.x ≤ N → p.y ≤ M → FR a b eq N M (D-1) p.x (p.y - 1)))
    (hC6 : p.add = false → 1 ≤ p.x ∧ 0 ≤ p.y ∧
      (p.x ≤ N → p.y ≤ M → FR a b eq N M (D-1) (p.x - 1) p.y))
    (hLB : 2*(D:ℤ) - 1 ≤ (distLed a N b M eq : ℤ)) :
    FMSOk a b eq N M ⟨p, false, 2*(D:ℤ) - 1⟩ := by
  have hcast : ((D-1:ℕ):ℤ) = (D:ℤ)-1 := by omega
  have hgrid1 : FR a b eq N M D p.u (p.u - k1) := by
    rcases pinv_grid_or_short a N b M eq D k1 p.u hPu with h | h
    · exact h
    · exfalso; rcases h with h | h <;> omega
  have hgrid2 : FR (fun i => a (N-1-i)) (fun i => b (M-1-i)) eq N M (D-1) v2
      (v2 - -(k1 - (N - M))) := by
    rcases pinv_grid_or_short _ N _ M eq (D-1) (-(k1 - (N - M))) v2 hP2 with h | h
    · exact h
    · exfalso
      rw [distLed_rev a N b M eq hN hM, hcast] at h
      rcases h with h | h <;> omega
  have hup : distLed a N b M eq ≤ D + (D-1) :=
    meet_short a N b M eq hgrid1 hgrid2 (by omega) (by ring)
  have hdd : (distLed a N b M eq : ℤ) = 2*(D:ℤ) - 1 := by omega
  have hbF1 := FR_bounds a b eq N M hgrid1
  have hbF2 := FR_bounds _ _ eq N M hgrid2
  have hxy0 : 0 ≤ p.x ∧ 0 ≤ p.y := by
    cases hpa : p.add with
    | false =>
      obtain ⟨u1, u2, _⟩ := hC6 hpa
      exact ⟨by omega, u2⟩
    | true =>
      obtain ⟨u1, u2, _⟩ := hC5 hpa
      exact ⟨u1, by omega⟩
  -- suffix bound, shared by both mode cases
  obtain ⟨hr1, hr2, hr3, hr4, hrp⟩ := (FR_rev_iff a b eq N M (D-1) v2 _).mp hgrid2
  have hL2top : led eq (listSlice a (N - v2) N)
      (listSlice b (M - (v2 - -(k1 - (N - M)))) M) ≤ D - 1 :=
    led_le_of_editPath eq hrp
  have hL2 : led eq (listSlice a p.u N) (listSlice b p.v M) ≤ D - 1 := by
    refine le_trans (led_slice_suffix_mono a b eq ?_ ?_ ?_ ?_ ?_ ?_ ?_) hL2top
    all_goals omega
  have helim : led eq (listSlice a p.x N) (listSlice b p.y M) =
      led eq (listSlice a p.u N) (listSlice b p.v M) :=
    matched_elim_slices a b eq N M p.x p.u p.y p.v hxu (by omega) (by omega) (by omega)
      (by omega) (fun i hi => (hmt i hi).2.2)
  simp only [FMSOk]
  refine ⟨by omega, hxy0.1, hxu, by omega, hxy0.2, by omega, by omega, by omega,
    fun i hi => (hmt i hi).2.2, ?_⟩
  intro hdd1
  refine ⟨?_, ?_, ?_, ?_⟩
  · -- forward insertion
    intro _ hA
    obtain ⟨h0x, h1y, hFRf⟩ := hC5 hA
    obtain ⟨hq1, hq2, hq3, hq4, hqp⟩ := hFRf (by omega) (by omega)
    have hL1 : led eq (listSlice a 0 p.x) (listSlice b 0 (p.y - 1)) ≤ D - 1 :=
      led_le_of_editPath eq hqp
    have hsp := splice_ge a N b M eq p.x (p.y - 1) (by omega) (by omega) (by omega) (by omega)
    have hconsB : listSlice b (p.y - 1) M = b (p.y - 1) :: listSlice b p.y M := by
      rw [listSlice_cons b (by omega : p.y - 1 < M), show p.y - 1 + 1 = p.y from by ring]
    have hstep2 : led eq (listSlice a p.x N) (listSlice b (p.y - 1) M) ≤
        led eq (listSlice a p.x N) (listSlice b p.y M) + 1 := by
      rw [hconsB]
      exact led_cons_le_r eq _ _ _
    exact ⟨h1y, by omega, by omega⟩
  · -- forward deletion
    intro _ hA
    obtain ⟨h1x, h0y, hFRf⟩ := hC6 hA
    obtain ⟨hq1, hq2, hq3, hq4, hqp⟩ := hFRf (by omega) (by omega)
    have hL1 : led eq (listSlice a 0 (p.x - 1)) (listSlice b 0 p.y) ≤ D - 1 :=
      led_le_of_editPath eq hqp
    have hsp := splice_ge a N b M eq (p.x - 1) p.y (by omega) (by omega) (by omega) (by omega)
    have hconsA : listSlice a (p.x - 1) N = a (p.x - 1) :: listSlice a p.x N := by
      rw [listSlice_cons a (by omega : p.x - 1 < N), show p.x - 1 + 1 = p.x from by ring]
    have hstep2 : led eq (listSlice a (p.x - 1) N) (listSlice b p.y M) ≤
        led eq (listSlice a p.x N) (listSlice b p.y M) + 1 := by
      rw [hconsA]
      exact led_cons_le_l eq _ _ _
    exact ⟨h1x, by omega, by omega⟩
  · intro h; simp at h
  · intro h; simp at h

theorem rev_fire_ok (a : ℤ → α) (N : ℤ) (b : ℤ → α) (M : ℤ) (eq : α → α → Bool)
    (hN : 0 ≤ N) (hM : 0 ≤ M) (D : ℕ) (k2 : ℤ) (p : Snake) (v1 : ℤ)
    (hk2l : -(D:ℤ) ≤ k2) (hk2r : k2 ≤ (D:ℤ))
    (hk1l : -(D:ℤ) ≤ -(k2 - (N - M))) (hk1r : -(k2 - (N - M)) ≤ (D:ℤ))
    (hPu : Pinv (fun i => a (N-1-i)) (fun i => b (M-1-i)) eq N M D k2 p.u)
    (hP1 : Pinv a b eq N M D (-(k2 - (N - M))) v1)
    (hcross : v1 + p.u ≥ N)
    (hyx : p.y = p.x - k2) (hvu : p.v = p.u - k2) (hxu : p.x ≤ p.u)
    (hmt : ∀ i : ℕ, (i:ℤ) < p.u - p.x →
      p.x + i < N ∧ p.y + i < M ∧ eq (a (N-1-(p.x + i))) (b (M-1-(p.y + i))) = true)
    (hC5 : 1 ≤ D → p.add = true → 0 ≤ p.x ∧ 1 ≤ p.y ∧
      (p.x ≤ N → p.y ≤ M →
        FR (fun i => a (N-1-i)) (fun i => b (M-1-i)) eq N M (D-1) p.x (p.y - 1)))
    (hC6 : 1 ≤ D → p.add = false → 1 ≤ p.x ∧ 0 ≤ p.y ∧
      (p.x ≤ N → p.y ≤ M →
        FR (fun i => a (N-1-i)) (fun i => b (M-1-i)) eq N M (D-1) (p.x - 1) p.y))
    (hD0xy : D = 0 → p.x = 0 ∧ p.y = 0)
    (hLB : 2*(D:ℤ) ≤ (distLed a N b M eq : ℤ)) :
    FMSOk a b eq N M ⟨⟨N - p.u, M - p.v, N - p.x, M - p.y, p.add⟩, true, 2*(D:ℤ)⟩ := by
  have hgrid1 : FR a b eq N M D v1 (v1 - -(k2 - (N - M))) := by
    rcases pinv_grid_or_short a N b M eq D (-(k2 - (N - M))) v1 hP1 with h | h
    · exact h
    · exfalso; rcases h with h | h <;> omega
  have hgrid2 : FR (fun i => a (N-1-i)) (fun i => b (M-1-i)) eq N M D p.u (p.u - k2) := by
    rcases pinv_grid_or_short _ N _ M eq D k2 p.u hPu with h | h
    · exact h
    · exfalso
      rw [distLed_rev a N b M eq hN hM] at h
      rcases h with h | h <;> omega
  have hup : distLed a N b M eq ≤ D + D :=
    meet_short a N b M eq hgrid1 hgrid2 (by omega) (by ring)
  have hdd : (distLed a N b M eq : ℤ) = 2*(D:ℤ) := by omega
  have hbF1 := FR_bounds a b eq N M hgrid1
  have hbF2 := FR_bounds _ _ eq N M hgrid2
  have hxy0 : 0 ≤ p.x ∧ 0 ≤ p.y := by
    rcases Nat.eq_zero_or_pos D with hD0 | hDpos
    · have := hD0xy hD0
      omega
    · cases hpa : p.add with
      | false =>
        obtain ⟨u1, u2, _⟩ := hC6 hDpos hpa
        exact ⟨by omega, u2⟩
      | true =>
        obtain ⟨u1, u2, _⟩ := hC5 hDpos hpa
        exact ⟨u1, by omega⟩
  have hrun : ∀ j : ℕ, (j:ℤ) < p.u - p.x →
      eq (a (N - p.u + j)) (b (M - p.v + j)) = true := by
    intro j hj
    have hiz0 : 0 ≤ p.u - p.x - 1 - (j:ℤ) := by omega
    have hq := (hmt (p.u - p.x - 1 - (j:ℤ)).toNat (by omega)).2.2
    rw [show N-1-(p.x+(((p.u - p.x - 1 - (j:ℤ)).toNat : ℕ):ℤ)) = N - p.u + (j:ℤ) from by omega,
        show M-1-(p.y+(((p.u - p.x - 1 - (j:ℤ)).toNat : ℕ):ℤ)) = M - p.v + (j:ℤ) from by omega]
      at hq
    exact hq
  -- prefix bound and splice, shared by both mode cases
  obtain ⟨hq1, hq2, hq3, hq4, hqp⟩ := hgrid1
  have hL1top : led eq (listSlice a 0 v1) (listSlice b 0 (v1 - -(k2 - (N - M)))) ≤ D :=
    led_le_of_editPath eq hqp
  have hL1 : led eq (listSlice a 0 (N - p.u)) (listSlice b 0 (M - p.v)) ≤ D :=
    le_trans (led_slice_prefix_mono a b eq (by omega) (by omega) (by omega) (by omega)
      (by omega)) hL1top
  have hsp := splice_ge a N b M eq (N - p.u) (M - p.v) (by omega) (by omega) (by omega)
    (by omega)
  have helim : led eq (listSlice a (N - p.u) N) (listSlice b (M - p.v) M) =
      led eq (listSlice a (N - p.x) N) (listSlice b (M - p.y) M) :=
    matched_elim_slices a b eq N M (N - p.u) (N - p.x) (M - p.v) (M - p.y)
      (by omega) (by omega) (by omega) (by omega) (by omega)
      (fun i hi => hrun i (by omega))
  simp only [FMSOk]
  refine ⟨by omega, by omega, by omega, by omega, by omega, by omega, by omega, by omega,
    fun i hi => hrun i (by omega), ?_⟩
  intro hdd1
  have hDpos : 1 ≤ D := by omega
  have hcast : ((D-1:ℕ):ℤ) = (D:ℤ)-1 := by omega
  refine ⟨?_, ?_, ?_, ?_⟩
  · intro h; simp at h
  · intro h; simp at h
  · -- reverse insertion
    intro _ hA
    obtain ⟨h0x, h1y, hFRf⟩ := hC5 hDpos hA
    obtain ⟨hr1, hr2, hr3, hr4, hrp⟩ :=
      (FR_rev_iff a b eq N M (D-1) p.x (p.y - 1)).mp (hFRf (by omega) (by omega))
    rw [show M - (p.y - 1) = M - p.y + 1 from by ring] at hrp
    have hL2 : led eq (listSlice a (N - p.x) N) (listSlice b (M - p.y + 1) M) ≤ D - 1 :=
      led_le_of_editPath eq hrp
    have hconsB : listSlice b (M - p.y) M = b (M - p.y) :: listSlice b (M - p.y + 1) M :=
      listSlice_cons b (by omega : M - p.y < M)
    have hstep2 : led eq (listSlice a (N - p.x) N) (listSlice b (M - p.y) M) ≤
        led eq (listSlice a (N - p.x) N) (listSlice b (M - p.y + 1) M) + 1 := by
      rw [hconsB]
      exact led_cons_le_r eq _ _ _
    exact ⟨by omega, by omega, by omega⟩
  · -- reverse deletion
    intro _ hA
    obtain ⟨h1x, h0y, hFRf⟩ := hC6 hDpos hA
    obtain ⟨hr1, hr2, hr3, hr4, hrp⟩ :=
      (FR_rev_iff a b eq N M (D-1) (p.x - 1) p.y).mp (hFRf (by omega) (by omega))
    rw [show N - (p.x - 1) = N - p.x + 1 from by ring] at hrp
    have hL2 : led eq (listSlice a (N - p.x + 1) N) (listSlice b (M - p.y) M) ≤ D - 1 :=
      led_le_of_editPath eq hrp
    have hconsA : listSlice a (N - p.x) N = a (N - p.x) :: listSlice a (N - p.x + 1) N :=
      listSlice_cons a (by omega : N - p.x < N)
    have hstep2 : led eq (listSlice a (N - p.x) N) (listSlice b (M - p.y) M) ≤
        led eq (listSlice a (N - p.x + 1) N) (listSlice b (M - p.y) M) + 1 := by
      rw [hconsA]
      exact led_cons_le_l eq _ _ _
    exact ⟨by omega, by omega, by omega⟩

/-! ### The D-loop master theorem: find_middle_snake is correct -/


theorem no_fire_fwd_lb (a : ℤ → α) (N : ℤ) (b : ℤ → α) (M : ℤ) (eq : α → α → Bool)
    (hN : 0 ≤ N) (hM : 0 ≤ M) (D : ℕ) (W V2 : ℤ → ℤ)
    (hW : ∀ j : ℤ, -(D:ℤ) ≤ j → j ≤ (D:ℤ) → (j + D) % 2 = 0 → Linv a b eq N M D j (W j))
    (hV2 : 1 ≤ D → ∀ j : ℤ, -((D-1:ℕ):ℤ) ≤ j → j ≤ ((D-1:ℕ):ℤ) → (j + (D-1:ℕ)) % 2 = 0 →
      Linv (fun i => a (N-1-i)) (fun i => b (M-1-i)) eq N M (D-1) j (V2 j))
    (hnofire : ∀ k1 : ℤ, -(D:ℤ) ≤ k1 → k1 ≤ (D:ℤ) → (k1 + D) % 2 = 0 →
      ¬((N - M) % 2 ≠ 0 ∧ -((D:ℤ)-1) ≤ -(k1 - (N - M)) ∧ -(k1 - (N - M)) ≤ (D:ℤ)-1 ∧
        W k1 + V2 (-(k1 - (N - M))) ≥ N))
    (hodd : (N - M) % 2 ≠ 0)
    (hLB : 2*(D:ℤ) - 1 ≤ (distLed a N b M eq : ℤ)) :
    2*(D:ℤ) + 1 ≤ (distLed a N b M eq : ℤ) := by
  by_contra hcon
  push_neg at hcon
  have hpar0 : (distLed a N b M eq + (N - 0).toNat + (M - 0).toNat) % 2 = 0 := by
    have h := led_parity eq (listSlice a 0 N) (listSlice b 0 M)
    rw [listSlice_length, listSlice_length] at h
    exact h
  have hdd : distLed a N b M eq = 2*D - 1 ∧ 1 ≤ D := by omega
  obtain ⟨hddv, hD1⟩ := hdd
  obtain ⟨x, y, hFRf, hFRr, hparxy⟩ := led_split_points a N b M eq hN hM D (by omega)
  have hidx : distLed a N b M eq - D = D - 1 := by omega
  rw [hidx] at hFRr
  have hb1 := FR_bounds a b eq N M hFRf
  have hb2 := FR_bounds _ _ eq N M hFRr
  have hxle : x ≤ W (x - y) :=
    hW (x - y) (by omega) (by omega) (by omega) x
      (by rw [show x - (x - y) = y from by ring]; exact hFRf)
  have hx2le : N - x ≤ V2 ((N - x) - (M - y)) := by
    refine hV2 hD1 ((N - x) - (M - y)) (by omega) (by omega) (by omega) (N - x) ?_
    rw [show (N - x) - ((N - x) - (M - y)) = M - y from by ring]
    exact hFRr
  exact hnofire (x - y) (by omega) (by omega) (by omega)
    ⟨hodd, by omega, by omega, by
      rw [show -((x - y) - (N - M)) = (N - x) - (M - y) from by ring]
      omega⟩

theorem no_fire_rev_lb (a : ℤ → α) (N : ℤ) (b : ℤ → α) (M : ℤ) (eq : α → α → Bool)
    (hN : 0 ≤ N) (hM : 0 ≤ M) (D : ℕ) (W1 W2 : ℤ → ℤ)
    (hW1 : ∀ j : ℤ, -(D:ℤ) ≤ j → j ≤ (D:ℤ) → (j + D) % 2 = 0 → Linv a b eq N M D j (W1 j))
    (hW2 : ∀ j : ℤ, -(D:ℤ) ≤ j → j ≤ (D:ℤ) → (j + D) % 2 = 0 →
      Linv (fun i => a (N-1-i)) (fun i => b (M-1-i)) eq N M D j (W2 j))
    (hnofire : ∀ k2 : ℤ, -(D:ℤ) ≤ k2 → k2 ≤ (D:ℤ) → (k2 + D) % 2 = 0 →
      ¬((N - M) % 2 = 0 ∧ -(D:ℤ) ≤ -(k2 - (N - M)) ∧ -(k2 - (N - M)) ≤ (D:ℤ) ∧
        W1 (-(k2 - (N - M))) + W2 k2 ≥ N))
    (heven : (N - M) % 2 = 0)
    (hLB : 2*(D:ℤ) ≤ (distLed a N b M eq : ℤ)) :
    2*(D:ℤ) + 2 ≤ (distLed a N b M eq : ℤ) := by
  by_contra hcon
  push_neg at hcon
  have hpar0 : (distLed a N b M eq + (N - 0).toNat + (M - 0).toNat) % 2 = 0 := by
    have h := led_parity eq (listSlice a 0 N) (listSlice b 0 M)
    rw [listSlice_length, listSlice_length] at h
    exact h
  have hddv : distLed a N b M eq = 2*D := by omega
  obtain ⟨x, y, hFRf, hFRr, hparxy⟩ := led_split_points a N b M eq hN hM D (by omega)
  have hidx : distLed a N b M eq - D = D := by omega
  rw [hidx] at hFRr
  have hb1 := FR_bounds a b eq N M hFRf
  have hb2 := FR_bounds _ _ eq N M hFRr
  have hxle : x ≤ W1 (x - y) :=
    hW1 (x - y) (by omega) (by omega) (by omega) x
      (by rw [show x - (x - y) = y from by ring]; exact hFRf)
  have hx2le : N - x ≤ W2 ((N - x) - (M - y)) := by
    refine hW2 ((N - x) - (M - y)) (by omega) (by omega) (by omega) (N - x) ?_
    rw [show (N - x) - ((N - x) - (M - y)) = M - y from by ring]
    exact hFRr
  exact hnofire ((N - x) - (M - y)) (by omega) (by omega) (by omega)
    ⟨heven, by omega, by omega, by
      rw [show -(((N - x) - (M - y)) - (N - M)) = x - y from by ring]
      omega⟩

theorem midLoopMaster (a : ℤ → α) (N : ℤ) (b : ℤ → α) (M : ℤ) (eq : α → α → Bool)
    (hN : 0 ≤ N) (hM : 0 ≤ M) :
    ∀ (rem D : ℕ) (V1 V2 : ℤ → ℤ),
    (1 ≤ D → VLayer a b eq N M (D-1) V1) →
    (1 ≤ D → VLayer (fun i => a (N-1-i)) (fun i => b (M-1-i)) eq N M (D-1) V2) →
    (D = 0 → V1 1 = 0) → (D = 0 → V2 1 = 0) →
    ((N - M) % 2 ≠ 0 → 2*(D:ℤ) - 1 ≤ (distLed a N b M eq : ℤ)) →
    ((N - M) % 2 = 0 → 2*(D:ℤ) ≤ (distLed a N b M eq : ℤ)) →
    ((distLed a N b M eq : ℤ) + 2 ≤ 2*((D:ℤ) + rem)) →
    ∃ s, midLoop a N b M eq (N - M) rem D V1 V2 = some s ∧ FMSOk a b eq N M s := by
  intro rem
  induction rem with
  | zero =>
    intro D V1 V2 _ _ _ _ hLBo hLBe hfuel
    exfalso
    by_cases hpar : (N - M) % 2 = 0
    · have := hLBe hpar; omega
    · have := hLBo hpar; omega
  | succ rem ih =>
    intro D V1 V2 hVL1 hVL2 hI1 hI2 hLBo hLBe hfuel
    have hFSI := fwdScanInv a N b M eq (N - M) D V2 V1 hN hM hVL1 hI1 (D+1) (-(D:ℤ)) V1
      (by push_cast; ring) (le_refl _) (fun j hj => rfl)
      (by intro j h1 h2 h3; exfalso; omega)
    rcases hfs : fwdScan a N b M eq (N - M) (D:ℤ) V2 (D+1) (-(D:ℤ)) V1 with V1' | s
    · -- forward scan completed without firing
      obtain ⟨hVL1', hfr1, hnofire1⟩ := hFSI.1 V1' hfs
      have hRSI := revScanInv a N b M eq (N - M) D V1' V2 hN hM hVL2 hI2 (D+1) (-(D:ℤ)) V2
        (by push_cast; ring) (le_refl _) (fun j hj => rfl)
        (by intro j h1 h2 h3; exfalso; omega)
      rcases hrs : revScan a N b M eq (N - M) (D:ℤ) V1' (D+1) (-(D:ℤ)) V2 with V2' | s
      · -- reverse scan completed without firing: recurse one layer deeper
        obtain ⟨hVL2', hfr2, hnofire2⟩ := hRSI.1 V2' hrs
        have hLBo' : (N - M) % 2 ≠ 0 → 2*((D:ℤ)+1) - 1 ≤ (distLed a N b M eq : ℤ) := by
          intro hodd
          have := no_fire_fwd_lb a N b M eq hN hM D V1' V2
            (fun j h1 h2 h3 => (hVL1' j h1 h2 h3).2)
            (fun hD1 j h1 h2 h3 => (hVL2 hD1 j h1 h2 h3).2)
            hnofire1 hodd (hLBo hodd)
          omega
        have hLBe' : (N - M) % 2 = 0 → 2*((D:ℤ)+1) ≤ (distLed a N b M eq : ℤ) := by
          intro heven
          have := no_fire_rev_lb a N b M eq hN hM D V1' V2'
            (fun j h1 h2 h3 => (hVL1' j h1 h2 h3).2)
            (fun j h1 h2 h3 => (hVL2' j h1 h2 h3).2)
            hnofire2 heven (hLBe heven)
          omega
        obtain ⟨s, hms, hok⟩ := ih (D+1) V1' V2'
          (fun _ => by rw [Nat.add_sub_cancel]; exact hVL1')
          (fun _ => by rw [Nat.add_sub_cancel]; exact hVL2')
          (fun h0 => absurd h0 (by omega))
          (fun h0 => absurd h0 (by omega))
          (by intro h; have := hLBo' h; push_cast; omega)
          (by intro h; have := hLBe' h; push_cast; omega)
          (by push_cast at hfuel ⊢; omega)
        refine ⟨s, ?_, hok⟩
        simp only [midLoop, hfs, hrs]
        exact hms
      · -- reverse fire
        obtain ⟨k2, p, hseq, hk2l, hk2r, hk2par, heven, hk1l, hk1r, hcross, hPu, hLu,
          hyx, hvu, hxu, hmt, hC5, hC6, hD0xy⟩ := hRSI.2 s hrs
        subst hseq
        refine ⟨⟨⟨N - p.u, M - p.v, N - p.x, M - p.y, p.add⟩, true, 2*(D:ℤ)⟩, ?_, ?_⟩
        · simp only [midLoop, hfs, hrs]
        · have hP1 : Pinv a b eq N M D (-(k2 - (N - M))) (V1' (-(k2 - (N - M)))) :=
            (hVL1' (-(k2 - (N - M))) (by omega) (by omega) (by omega)).1
          exact rev_fire_ok a N b M eq hN hM D k2 p (V1' (-(k2 - (N - M)))) hk2l hk2r
            hk1l hk1r hPu hP1 hcross hyx hvu hxu hmt hC5 hC6 hD0xy (hLBe heven)
    · -- forward fire
      obtain ⟨k1, p, hseq, hD1, hk1l, hk1r, hk1par, hodd, hk2l, hk2r, hcross, hPu, hLu,
        hyx, hvu, hxu, hmt, hC5, hC6⟩ := hFSI.2 s hfs
      subst hseq
      refine ⟨⟨p, false, 2*(D:ℤ) - 1⟩, ?_, ?_⟩
      · simp only [midLoop, hfs]
      · have hP2 : Pinv (fun i => a (N-1-i)) (fun i => b (M-1-i)) eq N M (D-1)
            (-(k1 - (N - M))) (V2 (-(k1 - (N - M)))) :=
          (hVL2 hD1 (-(k1 - (N - M))) (by omega) (by omega) (by omega)).1
        exact fwd_fire_ok a N b M eq hN hM D hD1 k1 p (V2 (-(k1 - (N - M)))) hk1l hk1r
          hk2l hk2r hPu hP2 hcross hyx hvu hxu hmt hC5 hC6 (hLBo hodd)

theorem find_middle_snake_correct (a : ℤ → α) (N : ℤ) (b : ℤ → α) (M : ℤ)
    (eq : α → α → Bool) (hN : 0 ≤ N) (hM : 0 ≤ M) :
    ∃ s, find_middle_snake a N b M eq = some s ∧ FMSOk a b eq N M s := by
  have hddle : distLed a N b M eq ≤ (N - 0).toNat + (M - 0).toNat := by
    have h : distLed a N b M eq ≤ (listSlice a 0 N).length + (listSlice b 0 M).length :=
      led_le_length eq _ _
    rw [listSlice_length, listSlice_length] at h
    exact h
  have htd : (M + N + 1).tdiv 2 = (M + N + 1) / 2 := Int.tdiv_eq_ediv (by omega) (by omega)
  unfold find_middle_snake
  exact midLoopMaster a N b M eq hN hM (((M + N + 1).tdiv 2 + 1).toNat) 0
    (upd (fun _ => 0) 1 0) (upd (fun _ => 0) 1 0)
    (fun h => absurd h (by omega)) (fun h => absurd h (by omega))
    (fun _ => by simp [upd]) (fun _ => by simp [upd])
    (by intro _; push_cast; omega) (by intro _; push_cast; omega)
    (by rw [htd]; push_cast; omega)

/-! ### Semantics of append_diff -/

variable {β : Type _}


theorem getLast_decomp {r : β} : ∀ {ds : List β}, ds.getLast? = some r →
    ds = ds.dropLast ++ [r] := by
  intro ds h
  cases ds with
  | nil => simp at h
  | cons d ds' =>
    have hne : d :: ds' ≠ [] := by simp
    rw [List.getLast?_eq_getLast _ hne] at h
    simp at h
    conv_lhs => rw [← List.dropLast_append_getLast hne]
    rw [h]

theorem consA_append : ∀ (xs ys : List Diff), consA (xs ++ ys) = consA xs + consA ys := by
  intro xs ys
  induction xs with
  | nil => simp [consA]
  | cons r rs ih => simp [consA, ih]; ring

theorem consB_append : ∀ (xs ys : List Diff), consB (xs ++ ys) = consB xs + consB ys := by
  intro xs ys
  induction xs with
  | nil => simp [consB]
  | cons r rs ih => simp [consB, ih]; ring

theorem cost_append : ∀ (xs ys : List Diff), cost (xs ++ ys) = cost xs + cost ys := by
  intro xs ys
  induction xs with
  | nil => simp [cost]
  | cons r rs ih => simp [cost, ih]; ring

theorem consA_nonneg : ∀ (ds : List Diff), (∀ r ∈ ds, 0 < r.len) → 0 ≤ consA ds := by
  intro ds
  induction ds with
  | nil => intro _; simp [consA]
  | cons r rs ih =>
    intro h
    have h1 := h r (by simp)
    have h2 := ih (fun q hq => h q (by simp [hq]))
    simp only [consA]
    split <;> omega

theorem consB_nonneg : ∀ (ds : List Diff), (∀ r ∈ ds, 0 < r.len) → 0 ≤ consB ds := by
  intro ds
  induction ds with
  | nil => intro _; simp [consB]
  | cons r rs ih =>
    intro h
    have h1 := h r (by simp)
    have h2 := ih (fun q hq => h q (by simp [hq]))
    simp only [consB]
    split <;> omega

theorem consA_single (r : Diff) :
    consA [r] = if r.mode = DiffMode.Add then 0 else r.len := by
  simp [consA]

theorem consB_single (r : Diff) :
    consB [r] = if r.mode = DiffMode.Remove then 0 else r.len := by
  simp [consB]

theorem cost_single (r : Diff) :
    cost [r] = if r.mode = DiffMode.Keep then 0 else r.len := by
  simp [cost]

theorem consA_append_diff (ds : List Diff) (r : Diff) :
    consA (append_diff ds r) = consA ds + (if r.mode = DiffMode.Add then 0 else r.len) := by
  unfold append_diff
  by_cases h0 : r.len = 0
  · rw [if_pos h0, h0]
    split <;> omega
  · rw [if_neg h0]
    cases hlast : ds.getLast? with
    | none =>
      simp only [consA_append, consA_single, consA]
      ring
    | some last =>
      simp only
      by_cases hm : last.mode = r.mode ∧
          (r.mode ≠ DiffMode.Add ∨ last.posB + last.len = r.posB)
      · rw [if_pos hm]
        nth_rewrite 2 [getLast_decomp hlast]
        rw [consA_append, consA_append, consA_single, consA_single]
        rcases hm with ⟨hm1, _⟩
        simp only [hm1]
        split <;> omega
      · rw [if_neg hm, consA_append, consA_single]

theorem consB_append_diff (ds : List Diff) (r : Diff) :
    consB (append_diff ds r) = consB ds + (if r.mode = DiffMode.Remove then 0 else r.len) := by
  unfold append_diff
  by_cases h0 : r.len = 0
  · rw [if_pos h0, h0]
    split <;> omega
  · rw [if_neg h0]
    cases hlast : ds.getLast? with
    | none =>
      simp only [consB_append, consB_single, consB]
      ring
    | some last =>
      simp only
      by_cases hm : last.mode = r.mode ∧
          (r.mode ≠ DiffMode.Add ∨ last.posB + last.len = r.posB)
      · rw [if_pos hm]
        nth_rewrite 2 [getLast_decomp hlast]
        rw [consB_append, consB_append, consB_single, consB_single]
        rcases hm with ⟨hm1, _⟩
        simp only [hm1]
        split <;> omega
      · rw [if_neg hm, consB_append, consB_single]

theorem cost_append_diff (ds : List Diff) (r : Diff) :
    cost (append_diff ds r) = cost ds + (if r.mode = DiffMode.Keep then 0 else r.len) := by
  unfold append_diff
  by_cases h0 : r.len = 0
  · rw [if_pos h0, h0]
    split <;> omega
  · rw [if_neg h0]
    cases hlast : ds.getLast? with
    | none =>
      simp only [cost_append, cost_single, cost]
      ring
    | some last =>
      simp only
      by_cases hm : last.mode = r.mode ∧
          (r.mode ≠ DiffMode.Add ∨ last.posB + last.len = r.posB)
      · rw [if_pos hm]
        nth_rewrite 2 [getLast_decomp hlast]
        rw [cost_append, cost_append, cost_single, cost_single]
        rcases hm with ⟨hm1, _⟩
        simp only [hm1]
        split <;> omega
      · rw [if_neg hm, cost_append, cost_single]

theorem applyFrom_append (a : ℤ → α) (b : ℤ → α) :
    ∀ (xs ys : List Diff) (p : ℤ),
    applyFrom a b (xs ++ ys) p = applyFrom a b xs p ++ applyFrom a b ys (p + consA xs) := by
  intro xs
  induction xs with
  | nil =>
    intro ys p
    simp [applyFrom, consA]
  | cons r rs ih =>
    intro ys p
    obtain ⟨m, l, q⟩ := r
    cases m with
    | Keep =>
      simp [applyFrom, consA]
      rw [ih, show p + l + consA rs = p + (l + consA rs) from by ring]
    | Remove =>
      simp [applyFrom, consA]
      rw [ih, show p + l + consA rs = p + (l + consA rs) from by ring]
    | Add =>
      simp [applyFrom, consA]
      rw [ih]

theorem applyFrom_single_keep (a : ℤ → α) (b : ℤ → α) (l q p : ℤ) :
    applyFrom a b [⟨DiffMode.Keep, l, q⟩] p = listSlice a p (p + l) := by
  simp [applyFrom]

theorem applyFrom_single_remove (a : ℤ → α) (b : ℤ → α) (l q p : ℤ) :
    applyFrom a b [⟨DiffMode.Remove, l, q⟩] p = [] := by
  simp [applyFrom]

theorem applyFrom_single_add (a : ℤ → α) (b : ℤ → α) (l q p : ℤ) :
    applyFrom a b [⟨DiffMode.Add, l, q⟩] p = listSlice b q (q + l) := by
  simp [applyFrom]

theorem applyFrom_append_diff (a : ℤ → α) (b : ℤ → α) (ds : List Diff) (r : Diff)
    (hr : 0 ≤ r.len) (hpos : ∀ d ∈ ds, 0 < d.len) (p : ℤ) :
    applyFrom a b (append_diff ds r) p = applyFrom a b (ds ++ [r]) p := by
  unfold append_diff
  by_cases h0 : r.len = 0
  · rw [if_pos h0]
    rw [applyFrom_append]
    have hemp : applyFrom a b [r] (p + consA ds) = [] := by
      obtain ⟨m, l, q⟩ := r
      simp only at h0
      subst h0
      cases m with
      | Keep => rw [applyFrom_single_keep, listSlice_empty a (by omega)]
      | Remove => rw [applyFrom_single_remove]
      | Add => rw [applyFrom_single_add, listSlice_empty b (by omega)]
    rw [hemp, List.append_nil]
  · rw [if_neg h0]
    cases hlast : ds.getLast? with
    | none => simp only
    | some last =>
      simp only
      by_cases hm : last.mode = r.mode ∧
          (r.mode ≠ DiffMode.Add ∨ last.posB + last.len = r.posB)
      · rw [if_pos hm]
        have hdec := getLast_decomp hlast
        have hlmem : last ∈ ds := by rw [hdec]; simp
        have hlpos := hpos last hlmem
        conv_rhs => rw [hdec]
        rw [List.append_assoc, applyFrom_append, applyFrom_append,
          applyFrom_append a b [last] [r]]
        congr 1
        rcases hm with ⟨hm1, hm2⟩
        obtain ⟨lm, ll, lq⟩ := last
        obtain ⟨rm, rl, rq⟩ := r
        dsimp only at hm1 hm2 hlpos hr h0 ⊢
        subst hm1
        cases lm with
        | Keep =>
          rw [applyFrom_single_keep, applyFrom_single_keep, consA_single]
          dsimp only
          rw [if_neg (by decide)]
          rw [applyFrom_single_keep,
            show p + consA ds.dropLast + (ll + rl) = p + consA ds.dropLast + ll + rl from
              by ring,
            listSlice_append a
              (show p + consA ds.dropLast ≤ p + consA ds.dropLast + ll from by omega)
              (show p + consA ds.dropLast + ll ≤ p + consA ds.dropLast + ll + rl from
                by omega)]
        | Remove =>
          rw [applyFrom_single_remove, applyFrom_single_remove, applyFrom_single_remove]
          simp
        | Add =>
          have hcont : lq + ll = rq := by
            rcases hm2 with hc | hc
            · exact absurd rfl hc
            · exact hc
          rw [applyFrom_single_add, applyFrom_single_add, applyFrom_single_add, ← hcont,
            show lq + (ll + rl) = lq + ll + rl from by ring,
            listSlice_append b (show lq ≤ lq + ll from by omega)
              (show lq + ll ≤ lq + ll + rl from by omega)]
      · rw [if_neg hm]

/-! ### Script-invariant preservation through append_diff -/


theorem listSlice_shift (f : ℤ → α) (c p q : ℤ) :
    listSlice (fun i => f (c + i)) p q = listSlice f (c + p) (c + q) := by
  unfold listSlice
  have h1 : (q - p).toNat = (c + q - (c + p)).toNat := by omega
  rw [← h1]
  apply List.map_congr_left
  intro t ht
  dsimp only
  rw [show c + (p + (t:ℤ)) = c + p + (t:ℤ) from by ring]

theorem run_flip (a b : ℤ → α) (eq : α → α → Bool) (jA jB : ℤ) (t : ℕ)
    (h : ∀ i : ℕ, i < t → eq (a (jA - 1 - i)) (b (jB - 1 - i)) = true) :
    ∀ i : ℕ, (i:ℤ) < t → eq (a (jA - t + i)) (b (jB - t + i)) = true := by
  intro i hi
  have hq := h (t - 1 - i) (by omega)
  rw [show jA - 1 - ((t - 1 - i : ℕ) : ℤ) = jA - t + i from by omega,
      show jB - 1 - ((t - 1 - i : ℕ) : ℤ) = jB - t + i from by omega] at hq
  exact hq

theorem led_strip (a b : ℤ → α) (eq : α → α → Bool) {begA0 endA0 begB0 endB0 : ℤ}
    (pl sl : ℕ)
    (h1 : begA0 + pl ≤ endA0 - sl) (h2 : begB0 + pl ≤ endB0 - sl)
    (hpre : ∀ i : ℕ, i < pl → eq (a (begA0 + i)) (b (begB0 + i)) = true)
    (hsuf : ∀ i : ℕ, (i:ℤ) < sl → eq (a (endA0 - sl + i)) (b (endB0 - sl + i)) = true) :
    led eq (listSlice a begA0 endA0) (listSlice b begB0 endB0) =
      led eq (listSlice a (begA0 + pl) (endA0 - sl))
        (listSlice b (begB0 + pl) (endB0 - sl)) := by
  have hpreF : List.Forall₂ (fun x y => eq x y = true)
      (listSlice a begA0 (begA0 + pl)) (listSlice b begB0 (begB0 + pl)) :=
    listSlice_forall₂ a b _ pl begA0 begB0 (fun i hi => hpre i hi)
  have hsufF : List.Forall₂ (fun x y => eq x y = true)
      (listSlice a (endA0 - sl) (endA0 - sl + sl)) (listSlice b (endB0 - sl) (endB0 - sl + sl)) :=
    listSlice_forall₂ a b _ sl (endA0 - sl) (endB0 - sl) (fun i hi => hsuf i (by omega))
  rw [show endA0 - (sl:ℤ) + sl = endA0 from by ring,
      show endB0 - (sl:ℤ) + sl = endB0 from by ring] at hsufF
  rw [listSlice_append a (show begA0 ≤ begA0 + pl from by omega)
        (show begA0 + (pl:ℤ) ≤ endA0 from by omega),
      listSlice_append b (show begB0 ≤ begB0 + pl from by omega)
        (show begB0 + (pl:ℤ) ≤ endB0 from by omega),
      led_matched_eliml eq hpreF,
      listSlice_append a h1 (show endA0 - (sl:ℤ) ≤ endA0 from by omega),
      listSlice_append b h2 (show endB0 - (sl:ℤ) ≤ endB0 from by omega),
      led_matched_elimr eq hsufF]

theorem led_zero_head (a b : ℤ → α) (eq : α → α → Bool) {x1 x2 y1 y2 : ℤ}
    (hled : led eq (listSlice a x1 x2) (listSlice b y1 y2) = 0)
    (hx : x1 ≤ x2) (hy : y1 ≤ y2) (hhead : ¬(eq (a x1) (b y1) = true)) :
    x1 = x2 ∧ y1 = y2 := by
  have hfa := (led_eq_zero_iff eq _ _).mp hled
  have hlen := hfa.length_eq
  rw [listSlice_length, listSlice_length] at hlen
  by_cases hxe : x1 = x2
  · exact ⟨hxe, by omega⟩
  · exfalso
    have hx2 : x1 < x2 := by omega
    have hy2 : y1 < y2 := by omega
    rw [listSlice_cons a hx2, listSlice_cons b hy2] at hfa
    cases hfa with
    | cons hrel _ => exact hhead hrel

theorem led_zero_tail (a b : ℤ → α) (eq : α → α → Bool) {x1 x2 y1 y2 : ℤ}
    (hled : led eq (listSlice a x1 x2) (listSlice b y1 y2) = 0)
    (hx : x1 ≤ x2) (hy : y1 ≤ y2) (htail : ¬(eq (a (x2 - 1)) (b (y2 - 1)) = true)) :
    x1 = x2 ∧ y1 = y2 := by
  have hfa := (led_eq_zero_iff eq _ _).mp hled
  have hlen := hfa.length_eq
  rw [listSlice_length, listSlice_length] at hlen
  by_cases hxe : x1 = x2
  · exact ⟨hxe, by omega⟩
  · exfalso
    have hx2 : x1 < x2 := by omega
    have hy2 : y1 < y2 := by omega
    have hfar := List.forall₂_reverse_iff.mpr hfa
    have hsx : listSlice a x1 x2 = listSlice a x1 (x2 - 1) ++ [a (x2 - 1)] := by
      nth_rewrite 1 [show x2 = (x2 - 1) + 1 from by ring]
      rw [listSlice_snoc a (by omega)]
    have hsy : listSlice b y1 y2 = listSlice b y1 (y2 - 1) ++ [b (y2 - 1)] := by
      nth_rewrite 1 [show y2 = (y2 - 1) + 1 from by ring]
      rw [listSlice_snoc b (by omega)]
    rw [hsx, hsy] at hfar
    simp only [List.reverse_append, List.reverse_cons, List.reverse_nil, List.nil_append,
      List.singleton_append] at hfar
    cases hfar with
    | cons hrel _ => exact htail hrel

theorem scriptInv_step (a b : ℤ → α) (eq : α → α → Bool) (ds : List Diff) (cA cB : ℤ)
    (h : ScriptInv a b eq ds cA cB) (r : Diff) (hr : 0 ≤ r.len)
    (hposB : r.mode = DiffMode.Add → r.posB = cB)
    (hcontent : ReconRel eq (applyFrom a b [r] cA)
      (listSlice b cB (cB + (if r.mode = DiffMode.Remove then 0 else r.len)))) :
    ScriptInv a b eq (append_diff ds r)
      (cA + (if r.mode = DiffMode.Add then 0 else r.len))
      (cB + (if r.mode = DiffMode.Remove then 0 else r.len)) := by
  obtain ⟨hch, hpos, hcA, hcB, hlastB, hrec⟩ := h
  have hcB0 : 0 ≤ cB := by rw [← hcB]; exact consB_nonneg ds hpos
  have hdelta : 0 ≤ (if r.mode = DiffMode.Remove then 0 else r.len) := by split <;> omega
  have hA : consA (append_diff ds r) = cA + (if r.mode = DiffMode.Add then 0 else r.len) := by
    rw [consA_append_diff, hcA]
  have hB : consB (append_diff ds r) = cB + (if r.mode = DiffMode.Remove then 0 else r.len) := by
    rw [consB_append_diff, hcB]
  have hR : ReconRel eq (applyFrom a b (append_diff ds r) 0)
      (listSlice b 0 (cB + (if r.mode = DiffMode.Remove then 0 else r.len))) := by
    rw [applyFrom_append_diff a b ds r hr hpos 0, applyFrom_append, zero_add, hcA,
      listSlice_append b hcB0 (by omega)]
    exact List.rel_append hrec hcontent
  have hstruct : List.Chain' (fun r s => r.mode ≠ s.mode) (append_diff ds r) ∧
      (∀ d ∈ append_diff ds r, 0 < d.len) ∧
      (∀ q, (append_diff ds r).getLast? = some q → q.mode = DiffMode.Add →
        q.posB + q.len = cB + (if r.mode = DiffMode.Remove then 0 else r.len)) := by
    by_cases h0 : r.len = 0
    · have hid : append_diff ds r = ds := by unfold append_diff; rw [if_pos h0]
      rw [hid]
      refine ⟨hch, hpos, ?_⟩
      intro q hq hqa
      have hd0 : (if r.mode = DiffMode.Remove then 0 else r.len) = 0 := by split <;> omega
      rw [hd0, add_zero]
      exact hlastB q hq hqa
    · have hd1 : (if r.mode = DiffMode.Remove then 0 else r.len) = r.len ∨
          r.mode = DiffMode.Remove := by
        split
        · right; assumption
        · left; rfl
      cases hlast : ds.getLast? with
      | none =>
        have hnil : ds = [] := by
          cases ds with
          | nil => rfl
          | cons d ds' => rw [List.getLast?_eq_getLast _ (by simp)] at hlast; cases hlast
        have hid : append_diff ds r = [r] := by
          unfold append_diff
          rw [if_neg h0, hlast, hnil]
          rfl
        rw [hid]
        refine ⟨List.chain'_singleton r, ?_, ?_⟩
        · intro d hd
          simp at hd
          subst hd
          omega
        · intro q hq hqa
          simp at hq
          subst hq
          rw [hposB hqa, if_neg (by rw [hqa]; decide)]
      | some last =>
        have hdec := getLast_decomp hlast
        have hlmem : last ∈ ds := by rw [hdec]; simp
        have hlpos := hpos last hlmem
        by_cases hmeq : last.mode = r.mode
        · have hcond : last.mode = r.mode ∧
              (r.mode ≠ DiffMode.Add ∨ last.posB + last.len = r.posB) := by
            refine ⟨hmeq, ?_⟩
            by_cases hAdd : r.mode = DiffMode.Add
            · right
              rw [hlastB last hlast (by rw [hmeq, hAdd]), hposB hAdd]
            · left; exact hAdd
          have hid : append_diff ds r =
              ds.dropLast ++ [⟨last.mode, last.len + r.len, last.posB⟩] := by
            unfold append_diff
            rw [if_neg h0, hlast]
            simp only
            rw [if_pos hcond]
          rw [hid]
          have hch2 : List.Chain' (fun r s => r.mode ≠ s.mode) (ds.dropLast ++ [last]) := by
            rw [← hdec]; exact hch
          rw [List.chain'_append] at hch2
          refine ⟨?_, ?_, ?_⟩
          · rw [List.chain'_append]
            refine ⟨hch2.1, List.chain'_singleton _, ?_⟩
            intro x hx y hy
            simp at hy
            subst hy
            exact hch2.2.2 x hx last (by simp)
          · intro d hd
            rw [List.mem_append] at hd
            rcases hd with hd | hd
            · exact hpos d (by rw [hdec]; exact List.mem_append_left _ hd)
            · simp at hd
              subst hd
              dsimp only
              omega
          · intro q hq hqa
            rw [List.getLast?_concat] at hq
            cases hq
            dsimp only at hqa ⊢
            have hrAdd : r.mode = DiffMode.Add := by rw [← hmeq]; exact hqa
            have hlb := hlastB last hlast hqa
            rw [if_neg (by rw [hrAdd]; decide)]
            omega
        · have hid : append_diff ds r = ds ++ [r] := by
            unfold append_diff
            rw [if_neg h0, hlast]
            simp only
            rw [if_neg (by intro hcon; exact hmeq hcon.1)]
          rw [hid]
          refine ⟨?_, ?_, ?_⟩
          · rw [List.chain'_append]
            refine ⟨hch, List.chain'_singleton _, ?_⟩
            intro x hx y hy
            simp at hy
            subst hy
            rw [hlast] at hx
            simp at hx
            subst hx
            exact hmeq
          · intro d hd
            rw [List.mem_append] at hd
            rcases hd with hd | hd
            · exact hpos d hd
            · simp at hd
              subst hd
              omega
          · intro q hq hqa
            rw [List.getLast?_concat] at hq
            cases hq
            rw [hposB hqa, if_neg (by rw [hqa]; decide)]
  exact ⟨hstruct.1, hstruct.2.1, hA, hB, hstruct.2.2, hR⟩

theorem scriptInv_keep (a b : ℤ → α) (eq : α → α → Bool) {ds : List Diff} {cA cB : ℤ}
    (h : ScriptInv a b eq ds cA cB) (l : ℤ) (hl : 0 ≤ l)
    (hrun : ∀ i : ℕ, (i:ℤ) < l → eq (a (cA + i)) (b (cB + i)) = true) :
    ScriptInv a b eq (append_diff ds ⟨DiffMode.Keep, l, 0⟩) (cA + l) (cB + l) := by
  have hstep := scriptInv_step a b eq ds cA cB h ⟨DiffMode.Keep, l, 0⟩ hl
    (by intro hcon; cases hcon)
    (by
      rw [applyFrom_single_keep]
      dsimp only
      rw [if_neg (by decide)]
      have hfa := listSlice_forall₂ a b (fun x y => x = y ∨ eq x y = true) l.toNat cA cB
        (fun i hi => Or.inr (hrun i (by omega)))
      rw [show cA + ((l.toNat : ℕ) : ℤ) = cA + l from by omega,
          show cB + ((l.toNat : ℕ) : ℤ) = cB + l from by omega] at hfa
      exact hfa)
  dsimp only at hstep
  rw [if_neg (by decide), if_neg (by decide)] at hstep
  exact hstep

theorem scriptInv_remove (a b : ℤ → α) (eq : α → α → Bool) {ds : List Diff} {cA cB : ℤ}
    (h : ScriptInv a b eq ds cA cB) (l : ℤ) (hl : 0 ≤ l) :
    ScriptInv a b eq (append_diff ds ⟨DiffMode.Remove, l, 0⟩) (cA + l) cB := by
  have hstep := scriptInv_step a b eq ds cA cB h ⟨DiffMode.Remove, l, 0⟩ hl
    (by intro hcon; cases hcon)
    (by
      rw [applyFrom_single_remove]
      dsimp only
      rw [if_pos (by rfl)]
      rw [add_zero, listSlice_empty b le_rfl]
      exact List.Forall₂.nil)
  dsimp only at hstep
  rw [if_neg (by decide), if_pos (by rfl)] at hstep
  rw [add_zero] at hstep
  exact hstep

theorem scriptInv_add (a b : ℤ → α) (eq : α → α → Bool) {ds : List Diff} {cA cB : ℤ}
    (h : ScriptInv a b eq ds cA cB) (l : ℤ) (hl : 0 ≤ l) :
    ScriptInv a b eq (append_diff ds ⟨DiffMode.Add, l, cB⟩) cA (cB + l) := by
  have hstep := scriptInv_step a b eq ds cA cB h ⟨DiffMode.Add, l, cB⟩ hl
    (fun _ => rfl)
    (by
      rw [applyFrom_single_add]
      dsimp only
      rw [if_neg (by decide)]
      exact List.forall₂_same.mpr (fun x _ => Or.inl rfl))
  dsimp only at hstep
  rw [if_pos (by rfl), if_neg (by decide)] at hstep
  rw [add_zero] at hstep
  exact hstep

end KakouneDiff
